import Mathlib

/-!
acc-cef-layer: command codec and instance scheduler.

A shallow embedding of the shared-memory command codec of `src/web_layer.cpp`
(`WebView::set_response`, `WebView::submit_commands`, `WebView::iterate_commands`,
`WebView::control`, `WebView::sync`, `WebView::await_reply`) and of the instance scheduler of
`src/main.cpp` (`CefWrapper::frame`), with the properties proved about them.

Conventions: a `std::string` / `utils::str_view` is the list of its chars (`Bytes`), a memory
region (`char[]`) is a function from offsets to chars, unsigned counters are naturals (the
comments say where a width is relevant).
-/

namespace AccCef

/-! ## Data model -/

/-- Contents of a `std::string` or `utils::str_view`. -/
abbrev Bytes := List Nat

/-- A region of chars addressed by offset (`char response[...]`, a mapped view). -/
abbrev Mem := Nat → Nat

/-- Constant `#define ACCSP_FRAME_SIZE (128 * 1024)` (util.h). -/
def ACCSP_FRAME_SIZE : Nat := 128 * 1024

/-- Constant `#define ACCSP_MAX_COMMAND_SIZE (16 * 1024)` (util.h). -/
def ACCSP_MAX_COMMAND_SIZE : Nat := 16 * 1024

/-- Constant `INT32_MAX`. -/
def INT32_MAX : Nat := 2147483647

/-- Enumeration `enum class command_fe : char` (web_layer.cpp): the host-to-client response codes. -/
inductive command_fe where
  | large_command
  | load_start
  | load_end
  | open_url
  | popup
  | jsdialog_dialog
  | download
  | context_menu
  | load_failed
  | found_result
  | file_dialog
  | auth_credentials
  | form_data
  | custom_scheme_browse
  | reply
  | data_from_script
  | url_monitor
  | csp_scheme_request
  | download_update
  | close
  | favicon
  | url
  | title
  | status
  | tooltip
  | audio
  | virtual_keyboard_request
  deriving DecidableEq, Repr

/-- The char value of each enumerator of `command_fe`. -/
def command_fe.byte : command_fe → Nat
  | .large_command => 2
  | .load_start => 47
  | .load_end => 48
  | .open_url => 49
  | .popup => 50
  | .jsdialog_dialog => 51
  | .download => 52
  | .context_menu => 53
  | .load_failed => 54
  | .found_result => 55
  | .file_dialog => 56
  | .auth_credentials => 57
  | .form_data => 58
  | .custom_scheme_browse => 59
  | .reply => 1
  | .data_from_script => 82
  | .url_monitor => 109
  | .csp_scheme_request => 83
  | .download_update => 114
  | .close => 120
  | .favicon => 73
  | .url => 85
  | .title => 84
  | .status => 63
  | .tooltip => 79
  | .audio => 65
  | .virtual_keyboard_request => 118

/-- Models `WebView::is_command_overriding`. -/
def is_command_overriding (k : command_fe) : Bool :=
  k == .load_failed
    || k == .favicon
    || k == .url
    || k == .title
    || k == .status
    || k == .tooltip
    || k == .audio

/-- One element of `response_data`: `std::pair<command_fe, std::vector<std::string>>`. -/
abbrev Entry := command_fe × List Bytes

/-- The loop `for (auto& i : response_data) if (i.first == key) { <assign i.second>; return; }`
of `set_response`: `none` when no element has the code (the loop falls through). -/
def assign_first (key : command_fe) (f : List Bytes → List Bytes) : List Entry → Option (List Entry)
  | [] => none
  | i :: rest =>
    if i.1 = key then some ((i.1, f i.2) :: rest)
    else (assign_first key f rest).map (fun r => i :: r)

/-- Models `WebView::set_response(const command_fe key, std::vector<std::string> value)`. -/
def set_response_v (response_data : List Entry) (key : command_fe) (value : List Bytes) :
    List Entry :=
  if is_command_overriding key then
    match assign_first key (fun _ => value) response_data with
    | some r => r
    | none => response_data ++ [(key, value)]
  else response_data ++ [(key, value)]

/-- Models `WebView::set_reply`. -/
def set_reply (response_data : List Entry) (reply_id value : Bytes) : List Entry :=
  if reply_id.isEmpty then response_data
  else set_response_v response_data .reply [reply_id, value]

/-! ## Memory primitives -/

/-- Models `memcpy(&m[off], src, |src|)`, also used for single char stores. -/
def memcpy (m : Mem) (off : Nat) (src : Bytes) : Mem :=
  fun i => if off ≤ i ∧ i < off + src.length then src.getD (i - off) 0 else m i

/-- The `n` chars of `m` starting at `off`. -/
def read (m : Mem) (off n : Nat) : Bytes :=
  (List.range n).map (fun i => m (off + i))

/-- Little-endian object representation of a `uint16_t`. -/
def le16 (x : Nat) : Bytes := [x % 256, x / 256 % 256]

/-- Little-endian object representation of a `uint32_t` / `int`. -/
def le32 (x : Nat) : Bytes := [x % 256, x / 256 % 256, x / 65536 % 256, x / 16777216 % 256]

/-- Load `*(uint16_t*)&m[off]`. -/
def load16 (m : Mem) (off : Nat) : Nat := m off + 256 * m (off + 1)

/-- Load `*(uint32_t*)&v[off]` on a view. -/
def load32 (v : Bytes) (off : Nat) : Nat :=
  v.getD off 0 + 256 * v.getD (off + 1) 0 + 65536 * v.getD (off + 2) 0
    + 16777216 * v.getD (off + 3) 0

/-- The parts of an entry joined by the separator char `'\1'`. -/
def join1 : List Bytes → Bytes
  | [] => []
  | [v] => v
  | v :: w :: rest => v ++ 1 :: join1 (w :: rest)

/-! ## `WebView::submit_commands` -/

/-- The response buffer together with the locals `p` (write offset) and `c` (records written)
of `submit_commands`; `written` logs every store as (offset, number of chars), latest first. -/
structure Out where
  response : Mem
  p : Nat
  c : Nat
  written : List (Nat × Nat)

/-- A store of `src` at `&entry->response[off]`. -/
def Out.poke (o : Out) (off : Nat) (src : Bytes) : Out :=
  { o with response := memcpy o.response off src, written := (off, src.length) :: o.written }

/-- The part loop of `add_entry_v`: a separator before every part but the first, then
`memcpy(&entry->response[p], i.data(), i.size() + 1)` (the part and its terminating NUL) and
`p += i.size()`. -/
def copy_parts : Bool → List Bytes → Out → Out
  | _, [], o => o
  | second, i :: rest, o =>
    let o1 := if second then { o.poke o.p [1] with p := o.p + 1 } else o
    let o2 := o1.poke o1.p (i ++ [0])
    copy_parts true rest { o2 with p := o2.p + i.length }

/-- The lambda `add_entry_v` of `submit_commands`. -/
def add_entry_v (k : command_fe) (a : List Bytes) (total_size : Nat) (o : Out) : Bool × Out :=
  if o.p + total_size + 4 > ACCSP_FRAME_SIZE then (false, o)
  else
    let o1 := o.poke o.p [k.byte]
    let o2 := o1.poke (o.p + 1) (le16 (total_size % 65536))
    let o3 := copy_parts false a { o2 with p := o.p + 3 }
    (true, { o3 with c := o3.c + 1 })

/-- The lambda `add_entry_1` of `submit_commands`. -/
def add_entry_1 (k : command_fe) (v : Bytes) (o : Out) : Bool × Out :=
  if o.p + v.length + 4 > ACCSP_FRAME_SIZE then (false, o)
  else
    let o1 := o.poke o.p [k.byte]
    let o2 := o1.poke (o.p + 1) (le16 (v.length % 65536))
    let o3 := o2.poke (o.p + 3) (v ++ [0])
    (true, { o3 with p := o.p + v.length + 3, c := o3.c + 1 })

/-- An auxiliary named mapping `accsp_mapped(named_prefix + L'_' + std::to_wstring(key), size)`:
`key` stands for the name, `entry` is the mapped view. -/
structure accsp_mapped where
  key : Nat
  size : Nat
  entry : Mem

/-- The part loop that fills an auxiliary mapping, `d` being the write offset in the view:
`if (d > (char*)item->entry + 1) *d++ = '\1'; memcpy(d, v.data(), v.size() + 1); d += v.size();`. -/
def fill_large : List Bytes → Mem → Nat → Mem × Nat
  | [], m, d => (m, d)
  | v :: rest, m, d =>
    let m1 := if d > 1 then memcpy m d [1] else m
    let d1 := if d > 1 then d + 1 else d
    fill_large rest (memcpy m1 d1 (v ++ [0])) (d1 + v.length)

/-- The state carried through the loop over `response_data`. -/
structure Packing where
  out : Out
  response_large_files : List accsp_mapped

/-- Local `total_size` of an entry with at least one part: `i.second.size() - 1` separators plus the
sizes of the parts. -/
def total_size (parts : List Bytes) : Nat :=
  (parts.length - 1) + (parts.map List.length).sum

/-- One iteration of the loop over `response_data`; `none` is `cut_from = &i; break;`.
`rnd n` is the value drawn by the `n`-th `random_until(INT32_MAX)` of the call, a newly created
mapping is zero-filled. -/
def submit_entry (rnd : Nat → Nat) (i : Entry) (s : Packing) : Option Packing :=
  if i.2.isEmpty then some s
  else
    if total_size i.2 > ACCSP_MAX_COMMAND_SIZE then
      if s.out.p + 20 > ACCSP_FRAME_SIZE then none
      else
        let key := rnd s.response_large_files.length % INT32_MAX
        let m0 : Mem := memcpy (fun _ => 0) 0 [i.1.byte]
        let item : accsp_mapped := ⟨key, total_size i.2 + 2, (fill_large i.2 m0 1).1⟩
        let o := le32 key ++ le32 ((2 + total_size i.2) % 4294967296)
        let r := add_entry_1 .large_command o s.out
        some ⟨r.2, s.response_large_files ++ [item]⟩
    else
      let r := add_entry_v i.1 i.2 (total_size i.2) s.out
      if r.1 then some ⟨r.2, s.response_large_files⟩ else none

/-- The loop over `response_data`: the final state and, when the loop was left by `break`, the
suffix of the queue that starts at `cut_from`. -/
def submit_loop (rnd : Nat → Nat) : List Entry → Packing → Packing × Option (List Entry)
  | [], s => (s, none)
  | i :: rest, s =>
    match submit_entry rnd i s with
    | none => (s, some (i :: rest))
    | some s1 => submit_loop rnd rest s1

/-- The statements `memmove(response_data.data(), cut_from, new_size * sizeof(...));
response_data.resize(new_size);` at the granularity of elements, `j` being the index of
`cut_from`. Element `a` of the vector owns heap block `a` (the storage of its
`std::vector<std::string>`). `memmove` copies object representations: afterwards the first
`new_size` slots point at the blocks of the old elements `j, j+1, ..`, the slots from `new_size`
on still hold what they held. `resize` runs the destructor of every slot from `new_size` on,
which releases the block that slot points at. A kept slot reads as `none` when its block has
been released, and as the entry stored in its block otherwise. The byte count of the source
uses `sizeof(std::pair<command_fe, std::string>)`, which is not the size of an element; the
model copies exactly `new_size` elements. -/
def relocate_tail (response_data : List Entry) (j : Nat) : List (Option Entry) :=
  let new_size := response_data.length - j
  let blocks := List.range response_data.length
  let moved := (blocks.drop j).take new_size ++ blocks.drop new_size
  let released := moved.drop new_size
  (moved.take new_size).map (fun a => if a ∈ released then none else response_data.get? a)

/-- What `submit_commands` returns and leaves behind: `c` is the returned count,
`response_data` the queue afterwards (slot by slot, see `relocate_tail`). -/
structure Submitted where
  c : Nat
  out : Out
  response_large_files : List accsp_mapped
  response_data : List (Option Entry)

/-- Models `WebView::submit_commands`, run on the response buffer `response` and the pending queue
`response_data`. -/
def submit_commands (rnd : Nat → Nat) (response : Mem) (response_data : List Entry) : Submitted :=
  let r := submit_loop rnd response_data ⟨⟨response, 0, 0, []⟩, []⟩
  match r.2 with
  | some tail =>
    ⟨r.1.out.c, r.1.out, r.1.response_large_files,
      relocate_tail response_data (response_data.length - tail.length)⟩
  | none => ⟨r.1.out.c, r.1.out, r.1.response_large_files, []⟩

/-! ## `WebView::iterate_commands` and the large-command branch of `WebView::control` -/

/-- The record loop of `iterate_commands` started at offset `p` with `n` records left: the
(code, payload) pairs handed to the callback, in order. -/
def iterate_from (m : Mem) : Nat → Nat → List (Nat × Bytes)
  | _, 0 => []
  | p, n + 1 =>
    let k := m p
    let s := load16 m (p + 1)
    (k, read m (p + 3) s) :: iterate_from m (p + 3 + s) n

/-- The named mapping that `accsp_mapped(file_filename, data_size)` opens among the live ones
(`existing_only`), if there is one; `files` is in creation order and a name denotes what was
created under it last. -/
def open_mapping (files : List accsp_mapped) (key : Nat) : Option accsp_mapped :=
  files.reverse.find? (fun f => f.key == key)

/-- The large-command branch of `control`: from the descriptor `value` to the (code, view)
with which `control` calls itself, `none` when it returns without doing so (`data_size == 0`,
or opening the mapping throws, which is caught). A view of `data_size` chars can be mapped
only on a mapping that is at least that large. -/
def decode_large (files : List accsp_mapped) (value : Bytes) : Option (Nat × Bytes) :=
  let file_key := load32 value 0
  let data_size := load32 value 4
  if data_size > 0 then
    match open_mapping files file_key with
    | some data =>
      if data_size ≤ data.size then some (data.entry 0, read data.entry 1 (data_size - 1))
      else none
    | none => none
  else none

/-! ## `WebView::sync`: draining the commands and publishing the responses -/

/-- The codec fields of the shared record `accsp_wb_entry`. -/
structure accsp_wb_entry where
  commands_set : Nat
  response_set : Nat
  commands : Mem
  response : Mem

/-- How a call ends: it returns, or a `std::exception` leaves it; either way with the state
reached. -/
inductive Outcome (σ : Type) where
  | returned (s : σ)
  | raised (s : σ)

/-- The callback applied to the records in order; an exception leaves the loop at once. -/
def feed {σ : Type} (callback : σ → Nat × Bytes → Outcome σ) : List (Nat × Bytes) → σ → Outcome σ
  | [], acc => .returned acc
  | r :: rest, acc =>
    match callback acc r with
    | .returned acc1 => feed callback rest acc1
    | .raised acc1 => .raised acc1

/-- Models `WebView::iterate_commands(callback)`: the returned flag with the state the callbacks
leave. -/
def iterate_commands {σ : Type} (callback : σ → Nat × Bytes → Outcome σ) (entry : accsp_wb_entry)
    (acc : σ) : Outcome (Bool × σ) :=
  if entry.commands_set = 0 then .returned (false, acc)
  else
    match feed callback (iterate_from entry.commands 0 entry.commands_set) acc with
    | .returned acc1 => .returned (true, acc1)
    | .raised acc1 => .raised (true, acc1)

/-- The drain of `sync()`:
`if (const auto browser = safe_browser(); browser && iterate_commands(control)) entry->commands_set = 0;`
with `control` as a parameter and `browser` telling whether `safe_browser()` is non-null. -/
def sync_drain {σ : Type} (control : σ → Nat × Bytes → Outcome σ) (browser : Bool)
    (entry : accsp_wb_entry) (acc : σ) : Outcome (accsp_wb_entry × σ) :=
  if browser then
    match iterate_commands control entry acc with
    | .returned (true, acc1) => .returned ({ entry with commands_set := 0 }, acc1)
    | .returned (false, acc1) => .returned (entry, acc1)
    | .raised (_, acc1) => .raised (entry, acc1)
  else .returned (entry, acc)

/-- A store into the shared record made by the publishing step, or the fence. -/
inductive Store where
  | response (off len : Nat)
  | fence
  | response_set (v : Nat)
  deriving DecidableEq, Repr

/-- The host side of the response direction. -/
structure WebView where
  entry : accsp_wb_entry
  response_data : List Entry
  response_large_files : List accsp_mapped

/-- The state after the publishing step, with the stores it made in program order. -/
structure Published where
  entry : accsp_wb_entry
  response_data : List (Option Entry)
  response_large_files : List accsp_mapped
  stores : List Store

/-- The end of `sync()`:
`if (entry->response_set == 0 && !response_data.empty()) { const auto p = submit_commands();
__faststorefence(); entry->response_set = p; }`. The count is stored as it is: a record takes at
least three chars of the buffer, so it stays far below 2^32. -/
def sync_publish (rnd : Nat → Nat) (w : WebView) : Published :=
  if w.entry.response_set = 0 ∧ w.response_data ≠ [] then
    let r := submit_commands rnd w.entry.response w.response_data
    { entry := { w.entry with response := r.out.response, response_set := r.c }
      response_data := r.response_data
      response_large_files := r.response_large_files
      stores := (r.out.written.reverse.map (fun x => Store.response x.1 x.2))
        ++ [Store.fence, Store.response_set r.c] }
  else
    { entry := w.entry
      response_data := w.response_data.map some
      response_large_files := w.response_large_files
      stores := [] }

/-! ## The reply branch of `WebView::control` and `WebView::await_reply` -/

/-- Models `str_view::find_first_of(char c)` from index 0: `none` is `std::string::npos`. -/
def find_first_of (v : Bytes) (c : Nat) : Option Nat :=
  if v.indexOf c < v.length then some (v.indexOf c) else none

/-- Models `str_view::pair(char separator)`. -/
def pair (v : Bytes) (separator : Nat) : Bytes × Bytes :=
  match find_first_of v separator with
  | none => (v, [])
  | some f => (v.take f, v.drop (f + 1))

/-- Predicate `isspace` in the C locale. -/
def is_space (c : Nat) : Bool := c == 32 || (9 ≤ c && c ≤ 13)

/-- A decimal digit char. -/
def is_digit (c : Nat) : Bool := 48 ≤ c && c ≤ 57

/-- Models `std::stoull(str)` (base 10), as the C++ standard defines it through `strtoull`: leading
white space, an optional sign, then the longest run of digits; `none` when it throws
(`std::invalid_argument` without a digit, `std::out_of_range` above `ULLONG_MAX`); a minus sign
negates modulo 2^64. -/
def stoull (str : Bytes) : Option Nat :=
  let s1 := str.dropWhile is_space
  let neg := s1.head? == some 45
  let s2 := if s1.head? == some 43 || s1.head? == some 45 then s1.drop 1 else s1
  let ds := s2.takeWhile is_digit
  let v := ds.foldl (fun a d => a * 10 + (d - 48)) 0
  if ds.isEmpty then none
  else if v ≥ 18446744073709551616 then none
  else some (if neg then (18446744073709551616 - v) % 18446744073709551616 else v)

/-- The decimal text `std::to_string(id)`. -/
def to_string (id : Nat) : Bytes := (Nat.toDigits 10 id).map Char.toNat

/-- The part of a `WebView` that `control` works on: whether `safe_browser()` is non-null, the
table `awaiting_reply` (callbacks are named by values of `κ`), `last_reply_id`, the callback
invocations made so far (callback, argument) and the commands that reached the other branches
of `control`, both in order. -/
structure Control (κ : Type) where
  browser : Bool
  awaiting_reply : Nat → Option κ
  last_reply_id : Nat
  invoked : List (κ × Bytes)
  handled : List (Nat × Bytes)

/-- Models `WebView::await_reply(hint, fn)`: `fn = none` is an empty `std::function`; returns the text
of the id (empty when nothing was registered). -/
def await_reply {κ : Type} (w : Control κ) (fn : Option κ) : Bytes × Control κ :=
  match fn with
  | none => ([], w)
  | some f =>
    let id := (w.last_reply_id + 1) % 18446744073709551616
    (to_string id,
      { w with last_reply_id := id,
               awaiting_reply := fun i => if i = id then some f else w.awaiting_reply i })

/-- The branch `key == command_be::reply` of `control`. -/
def control_reply {κ : Type} (w : Control κ) (value : Bytes) : Outcome (Control κ) :=
  let kv := pair value 1
  match stoull kv.1 with
  | none => .raised w
  | some i =>
    match w.awaiting_reply i with
    | some fn =>
      .returned { w with awaiting_reply := fun j => if j = i then none else w.awaiting_reply j,
                         invoked := w.invoked ++ [(fn, kv.2)] }
    | none => .returned w

/-- Models `WebView::control(key, value)`: the large-command branch (which calls `control` again on
the contents of the mapping and catches what that call throws), the `safe_browser()` guard, the
reply branch; every other branch is `other`. `fuel` bounds the depth of the nested calls, `none`
means the bound was reached. -/
def control {κ : Type} (other : Control κ → Nat × Bytes → Outcome (Control κ))
    (files : List accsp_mapped) : Nat → Control κ → Nat × Bytes → Option (Outcome (Control κ))
  | 0, _, _ => none
  | fuel + 1, w, (key, value) =>
    if key = 2 then
      match decode_large files value with
      | some inner =>
        match control other files fuel w inner with
        | some (.returned w1) => some (.returned w1)
        | some (.raised w1) => some (.returned w1)
        | none => none
      | none => some (.returned w)
    else if !w.browser then some (.returned w)
    else if key = 1 then some (control_reply w value)
    else some (other w (key, value))

/-! ## `CefWrapper::frame` -/

/-- Constant `#define FLAG_WRITING_TABS (1 << 25)` (main.cpp). -/
def FLAG_WRITING_TABS : Int := 33554432

/-- The fields of a `WebTab` the scheduler reads. -/
structure WebTab where
  last_frame : Nat
  passthrough_mode : Bool
  deriving DecidableEq, Repr

/-- What one call of `frame()` finds: the directory `accsp_wb_tabs` (`count` and the slots of
`tabs`), whether constructing the `WebTab` of an id succeeds (`some passthrough_mode`) or throws
(`none`), and whether `update()` of an instance lets an exception escape. -/
structure Tick where
  count : Int
  tabs : List Nat
  opens : Nat → Option Bool
  update_raises : Nat → Bool

/-- The scheduler: `windows_` (in iteration order), `failed_`, `frames_`, and the number of
`flush()` calls made so far. -/
structure CefWrapper where
  windows_ : List (Nat × WebTab)
  failed_ : List Nat
  frames_ : Nat
  flushes : Nat

/-- The body of the directory loop for `tabs_->tabs[i] = id`. -/
def scan_one (t : Tick) (w : CefWrapper) (id : Nat) : CefWrapper :=
  if w.windows_.any (fun e => e.1 == id) then
    let mark : Nat × WebTab → Nat × WebTab :=
      fun e => if e.1 = id then (e.1, ⟨w.frames_, e.2.passthrough_mode⟩) else e
    { w with windows_ := w.windows_.map mark }
  else if w.failed_.contains id then w
  else
    match t.opens id with
    | some pm => { w with windows_ := w.windows_ ++ [(id, ⟨w.frames_, pm⟩)] }
    | none => { w with failed_ := id :: w.failed_ }

/-- The ids the directory loop visits: the slots below `count`, none when `count` is
`FLAG_WRITING_TABS`. -/
def scanned (t : Tick) : List Nat :=
  if t.count ≠ FLAG_WRITING_TABS then t.tabs.take t.count.toNat else []

/-- The loop over `windows_`: an instance marked in this tick is updated and rendered, any
other is erased. Gives the instances left in the map and `needs_flush`. -/
def sweep (t : Tick) (frames_ : Nat) : List (Nat × WebTab) → Outcome (List (Nat × WebTab) × Bool)
  | [] => .returned ([], false)
  | e :: rest =>
    if e.2.last_frame = frames_ then
      if t.update_raises e.1 then .raised (e :: rest, false)
      else
        match sweep t frames_ rest with
        | .returned (kept, nf) => .returned (e :: kept, !e.2.passthrough_mode || nf)
        | .raised (kept, nf) => .raised (e :: kept, !e.2.passthrough_mode || nf)
    else sweep t frames_ rest

/-- Models `CefWrapper::frame()`. -/
def frame (t : Tick) (w : CefWrapper) : Outcome CefWrapper :=
  let w1 := (scanned t).foldl (scan_one t) w
  match sweep t w1.frames_ w1.windows_ with
  | .raised (kept, _) => .raised { w1 with windows_ := kept }
  | .returned (kept, needs_flush) =>
    let flushes := if needs_flush || w1.frames_ % 512 == 0 then w1.flushes + 1 else w1.flushes
    .returned { w1 with windows_ := kept, flushes := flushes, frames_ := w1.frames_ + 1 }

/-- The scheduler after the first `n` ticks of `ticks`, `none` once a tick has let an exception
escape. -/
def after_ticks (ticks : Nat → Tick) (w0 : CefWrapper) : Nat → Option CefWrapper
  | 0 => some w0
  | n + 1 =>
    match after_ticks ticks w0 n with
    | some w =>
      match frame (ticks n) w with
      | .returned w1 => some w1
      | .raised _ => none
    | none => none

/-- Instance `x` is in `windows_`. -/
def tracked (x : Nat) (w : CefWrapper) : Prop := ∃ e, e ∈ w.windows_ ∧ e.1 = x

/-- Whether a call let an exception escape. -/
def Outcome.escaped {σ : Type} : Outcome σ → Bool
  | .raised _ => true
  | .returned _ => false

/-- The end of `main()`: the value it returns when `CefWrapper(...).run(...)` returned
(`raised = false`) and when a `std::exception` left it and reached the `catch` of `main`
(`raised = true`). -/
def main_returns (raised : Bool) : Nat :=
  if raised then 10 else 0

/-! ## Segment names and the access tier -/

/-- The code units of a literal. -/
def text (s : String) : Bytes := s.toList.map Char.toNat

/-- Models `std::wstring::starts_with`. -/
def starts_with (s head : Bytes) : Bool := s.take head.length == head

/-- The name `n` that `CefWrapper::frame()` builds for `tabs_->tabs[i] = id`:
`((id & 1) != 0 ? L"AcTools.CSP.Limited.CEF.v0." : L"AcTools.CSP.CEF.v0.") + std::to_wstring(id)`. -/
def segment_name (id : Nat) : Bytes :=
  (if id &&& 1 ≠ 0 then text "AcTools.CSP.Limited.CEF.v0." else text "AcTools.CSP.CEF.v0.")
    ++ to_string id

/-- The argument `has_full_access` that `WebTab::WebTab(device, shared_name)` hands to
`create_web_layer`: `!shared_name.starts_with(L"AcTools.CSP.Limited.")`. -/
def has_full_access (shared_name : Bytes) : Bool :=
  !starts_with shared_name (text "AcTools.CSP.Limited.")

/-! ## The commands behind `verify_full_access` -/

/-- Models `str_view::find_first_of(char c, size_t index)`: `none` is `std::string::npos`. -/
def find_first_of_from (v : Bytes) (c index : Nat) : Option Nat :=
  if (v.drop index).indexOf c < (v.drop index).length then
    some (index + (v.drop index).indexOf c)
  else none

/-- Models `str_view::substr(offset, length)`. -/
def substr (v : Bytes) (offset length : Nat) : Bytes :=
  if offset ≥ v.length then [] else (v.drop offset).take length

/-- Models `is_whitespace(c)` (util.h). -/
def is_whitespace (c : Nat) : Bool := c == 32 || c == 9 || c == 13

/-- Models `str_view::trim()`. -/
def trim (v : Bytes) : Bytes :=
  ((v.reverse.dropWhile is_whitespace).reverse).dropWhile is_whitespace

/-- The loop of `str_view::split_to(result, char separator, skip_empty, trim_result,
clear_target, limit)` from the state (`index`, `result`); `index` is an `unsigned int`, `next` a
`size_t`. `none` when `fuel` iterations did not end the loop. -/
def split_to (s : Bytes) (separator : Nat) (skip_empty trim_result : Bool) (limit : Nat) :
    Nat → Nat → List Bytes → Option (List Bytes)
  | 0, _, _ => none
  | fuel + 1, index, result =>
    if index ≤ s.length then
      let found :=
        if result.length + 1 = limit then none else find_first_of_from s separator index
      let next := match found with
        | none => s.length % 4294967296
        | some n => n
      let piece := substr s index ((next % 4294967296 + 4294967296 - index) % 4294967296)
      let piece := if trim_result then trim piece else piece
      let result := if !skip_empty || !piece.isEmpty then result ++ [piece] else result
      split_to s separator skip_empty trim_result limit fuel
        ((next % 4294967296 + 1) % 4294967296) result
    else some result

/-- Models `str_view::split(char separator, skip_empty, trim_result, limit)`: `none` when the
loop does not end. Each iteration of a loop that ends moves `index` forward, so `size + 2`
iterations are enough for it. -/
def split (s : Bytes) (separator : Nat) (skip_empty trim_result : Bool) (limit : Nat) :
    Option (List Bytes) :=
  split_to s separator skip_empty trim_result limit (s.length + 2) 0 []

/-- Constant `UINT64_MAX`, the default `limit` of `split`. -/
def UINT64_MAX : Nat := 18446744073709551615

/-- The part of a `WebView` that the access-checked commands work on: `has_full_access_`, the
pending queue, the configuration they set, and `engine`, the state that stands for everything
else (the browser included). -/
structure Guarded (ε : Type) where
  has_full_access_ : Bool
  response_data : List Entry
  track_form_data : Bool
  redirect_nonstandard_schemes_filter : Bytes
  loaded_resources_monitor : Bool
  engine : ε

/-- Models `WebView::verify_full_access(reason)`. -/
def verify_full_access {ε : Type} (w : Guarded ε) : Bool := w.has_full_access_

/-- Models `WebView::configure_control(key, value)`: the returned flag with the state. The
branches that call `verify_full_access` are spelled out; `effect w (key, value)` stands for the
statements of a branch that are not (custom headers and JS injections are part of what it
works on). A regex is named by its source text. -/
def configure_control {ε : Type} (effect : Guarded ε → Nat × Bytes → Guarded ε)
    (w : Guarded ε) (key : Nat) (value : Bytes) : Bool × Guarded ε :=
  if key = 78 then (true, effect w (key, value))
  else if key = 105 then
    let kv := pair value 1
    if kv.1 = text "ignoreCertificateErrors" then (true, effect w (key, value))
    else if kv.1 = text "trackFormData" then
      if verify_full_access w then (true, { w with track_form_data := kv.2 == text "1" })
      else (true, w)
    else if kv.1 = text "redirectNavigation" then (true, effect w (key, value))
    else if kv.1 = text "redirectNonStandardSchemes" then
      if verify_full_access w then
        (true, { w with redirect_nonstandard_schemes_filter := kv.2 })
      else (true, w)
    else if kv.1 = text "collectResourceURLs" then
      if verify_full_access w then
        (true, { w with loaded_resources_monitor := kv.2 == text "1" })
      else (true, w)
    else (true, effect w (key, value))
  else if key = 102 then (true, effect w (key, value))
  else if key = 104 then
    if verify_full_access w then (true, effect w (key, value)) else (true, w)
  else if key = 115 then (true, effect w (key, value))
  else if key = 106 then
    if verify_full_access w then (true, effect w (key, value)) else (true, w)
  else (false, w)

/-- The codes that `control` has a branch of its own for, between the `safe_browser()` guard
and the final `else`, apart from the branches spelled out in `control_other`. -/
def control_codes : List Nat :=
  [78, 122, 82, 83, 87, 85, 73, 62, 60, 100, 110, 77, 108, 65, 119, 109, 114, 75, 89, 76, 101]

/-- Models `WebView::control(key, value)` past the `safe_browser()` guard for a code other than
`reply`: the branches that call `verify_full_access` are spelled out, the final `else` is
`configure_control`, and `effect w (key, value)` stands for the statements of a branch that
are not spelled out (the calls on the browser among them). `none` is an access past the end of
the vector `args`. -/
def control_other {ε : Type} (effect : Guarded ε → Nat × Bytes → Guarded ε)
    (w : Guarded ε) (key : Nat) (value : Bytes) : Option (Guarded ε) :=
  if key ∈ control_codes then some (effect w (key, value))
  else if key = 67 then
    if value ∈ [text "undo", text "redo", text "copy", text "cut", text "paste", text "delete",
        text "selectAll"] then some (effect w (key, value))
    else if value = text "print" ∧ verify_full_access w = true then some (effect w (key, value))
    else if value = text "exitFullscreen" then some (effect w (key, value))
    else some w
  else if key = 69 then
    if verify_full_access w then some (effect w (key, value)) else some w
  else if key = 70 then
    if verify_full_access w then some (effect w (key, value)) else some w
  else if key = 72 then
    if verify_full_access w then some (effect w (key, value))
    else some { w with response_data := set_reply w.response_data value [] }
  else if key = 84 then
    if verify_full_access w then some (effect w (key, value))
    else some { w with response_data := set_reply w.response_data value [] }
  else if key = 111 then
    if verify_full_access w then some (effect w (key, value)) else some w
  else if key = 99 then
    match split value 1 false false UINT64_MAX with
    | none => none
    | some args =>
      match args[1]? with
      | none => none
      | some mode =>
        if mode ≠ text "count" ∧ verify_full_access w = false then
          match args[0]? with
          | none => none
          | some id =>
            some { w with response_data := set_reply w.response_data id (text "\x7b\x7d") }
        else
          match args[2]? with
          | none => none
          | some _ => some (effect w (key, value))
  else some (configure_control effect w key value).2

/-! ## `WebView::sync` as a whole -/

/-- What `sync()` leaves: the object as the drain left it (its `response_data` is the queue that
the publishing step finds), and the shared record, the queue and the stores after the
publishing step. -/
structure Synced (ε : Type) where
  drained : Guarded ε
  published : Published

/-- Models `WebView::sync()` as far as the two buffers, the two counts and the pending queue go:
the drain `if (browser && iterate_commands(control)) entry->commands_set = 0;`, then, at the
end, the publishing step. `control` is the callback of the drain, `files` the auxiliary
mappings held before the call. The statements between the two steps (focus, visibility,
mouse and touch input, `be_flags`) touch neither buffer, neither count, nor `response_data`.
An exception leaving `control` leaves `sync()` before the publishing step. -/
def sync {ε : Type} (control : Guarded ε → Nat × Bytes → Outcome (Guarded ε))
    (rnd : Nat → Nat) (browser : Bool) (entry : accsp_wb_entry) (files : List accsp_mapped)
    (w : Guarded ε) : Outcome (Synced ε) :=
  match sync_drain control browser entry w with
  | .raised (e1, w1) => .raised ⟨w1, ⟨e1, w1.response_data.map some, files, []⟩⟩
  | .returned (e1, w1) => .returned ⟨w1, sync_publish rnd ⟨e1, w1.response_data, files⟩⟩

/-! ## `Device::create_quad` and `Composition::render` -/

/-- Type `SimpleVertex`: a position and a texture coordinate, over exact arithmetic. -/
structure SimpleVertex where
  pos : ℚ × ℚ × ℚ
  tex : ℚ × ℚ
  deriving DecidableEq

/-- Models `Device::create_quad(x, y, width, height, flip)`: the array `vertices` handed to
`CreateBuffer`, over exact arithmetic. -/
def create_quad (x y width height : ℚ) (flip : Bool) : List SimpleVertex :=
  let x := x * 2 - 1
  let y := 1 - y * 2
  let width := width * 2
  let height := height * 2
  let z : ℚ := 1
  let v0 : SimpleVertex := ⟨(x, y, z), (0, 0)⟩
  let v1 : SimpleVertex := ⟨(x + width, y, z), (1, 0)⟩
  let v2 : SimpleVertex := ⟨(x, y - height, z), (0, 1)⟩
  let v3 : SimpleVertex := ⟨(x + width, y - height, z), (1, 1)⟩
  if flip then [⟨v0.pos, v2.tex⟩, ⟨v1.pos, v3.tex⟩, ⟨v2.pos, v0.tex⟩, ⟨v3.pos, v1.tex⟩]
  else [v0, v1, v2, v3]

/-- Type `Rect` (composition.h), over exact arithmetic. -/
structure Rect where
  x : ℚ
  y : ℚ
  width : ℚ
  height : ℚ
  deriving DecidableEq

/-- A `Layer`: `tag` tells the layers apart, `bounds_` and `flip_` are the fields of the class. -/
structure Layer where
  tag : Nat
  bounds_ : Rect
  flip_ : Bool
  deriving DecidableEq

/-- Models `Layer::active()`: `return bounds_.width > 0.f;`. -/
def Layer.active (l : Layer) : Bool := decide (l.bounds_.width > 0)

/-- Models `Layer::move(x, y, width, height)`. -/
def Layer.move (l : Layer) (x y width height : ℚ) : Layer :=
  { l with bounds_ := ⟨x, y, width, height⟩ }

/-- The geometry `Layer::render_texture` builds when `geometry_` is empty. -/
def Layer.geometry (l : Layer) : List SimpleVertex :=
  create_quad l.bounds_.x l.bounds_.y l.bounds_.width l.bounds_.height l.flip_

/-- A `Composition`: the vector `layers_`. -/
structure Composition where
  layers_ : List Layer

/-- Models `Composition::add_layer(layer)`: `layers_.push_back(std::move(layer))`. -/
def Composition.add_layer (c : Composition) (layer : Layer) : Composition :=
  { c with layers_ := c.layers_ ++ [layer] }

/-- The loop of `Composition::render`: the layers whose `render(ctx)` is called, in call order. -/
def render_loop : List Layer → List Layer
  | [] => []
  | layer :: rest => if !layer.active then render_loop rest else layer :: render_loop rest

/-- Models `Composition::render(ctx)`. -/
def Composition.render (c : Composition) : List Layer := render_loop c.layers_

/-! ## The exits of the process -/

/-- The status `exception_filter` passes to `_exit` (both build variants). -/
def exception_filter : Nat := 57

/-- Models `FrameBuffer::on_gpu_paint`: `opened` tells whether `open_shared_texture_nt` gave a
texture when one had to be opened; the result is the status of `std::quick_exit`, `none` when
the function returns. -/
def on_gpu_paint (opened : Bool) : Option Nat :=
  if !opened then some 20 else none

/-- Models `CefWrapper::kill_all()` for `tabs_->count = v`: the status of `std::quick_exit`,
`none` when the function returns (after clearing `windows_`). -/
def kill_all (v : Int) : Option Nat :=
  if v = -2 then some 0 else none

/-- The fields of a `WebView` that the crash handler works on. -/
structure Breaker where
  suspended : Bool
  last_crash_time : Int
  crash_counter : Nat
  deriving DecidableEq

/-- How `OnRenderProcessTerminated` ends: it returns early for a suspended instance, it calls
`browser->Reload()`, or it calls `std::quick_exit(status)`. -/
inductive Terminated where
  | suspended
  | reloaded
  | exited (status : Nat)
  deriving DecidableEq

/-- Models `WebView::OnRenderProcessTerminated` with `now = time(nullptr)`; `crash_counter` is a
`uint32_t`. -/
def OnRenderProcessTerminated (now : Int) (w : Breaker) : Breaker × Terminated :=
  if w.suspended then (w, .suspended)
  else if now - w.last_crash_time > 30 then
    ({ w with last_crash_time := now, crash_counter := 0 }, .reloaded)
  else
    let c := (w.crash_counter + 1) % 4294967296
    if c > 7 then ({ w with crash_counter := c }, .exited 29)
    else ({ w with crash_counter := c }, .reloaded)

/-- The exit status a call of the handler ended the process with, `none` when it returned. -/
def Terminated.status : Terminated → Option Nat
  | .exited status => some status
  | _ => none

/-- The handler called for crashes at the times `nows`, one after the other, until the process
exits: how each call ended. -/
def crashes : List Int → Breaker → List Terminated
  | [], _ => []
  | now :: rest, w =>
    match OnRenderProcessTerminated now w with
    | (_, .exited status) => [.exited status]
    | (w1, r) => r :: crashes rest w1

/-! ## `WebView::paint_data` -/

/-- Models `paint_data`: a handle is named by a number, `none` is `nullptr`; `closed` lists the
handles given to `CloseHandle` so far (a null handle is not listed). -/
structure paint_data where
  reshared : Option Nat
  current : Nat
  kept_alive : List Nat
  closed : List Nat
  deriving DecidableEq

/-- Models `paint_data::clean()`. -/
def paint_data.clean (pd : paint_data) : paint_data :=
  { pd with closed := pd.closed ++ pd.kept_alive, kept_alive := [] }

/-- Models `paint_data::reset()`. -/
def paint_data.reset (pd : paint_data) : paint_data :=
  let pd1 := pd.clean
  { pd1 with closed := pd1.closed ++ pd1.reshared.toList, reshared := none, current := 0 }

/-- What `paint_data::update` leaves: the object, the counter `next` (a reference in the
source), and the name given to `recreate_shared_texture_nt`. -/
structure Updated where
  pd : paint_data
  next : Nat
  name : Bytes

/-- Models `paint_data::update(device, received, prefix, next)`: `created` is the handle that
`recreate_shared_texture_nt` stores into `reshared`, `none` when it returns before storing
one; `next` is a `uint64_t`. -/
def paint_data.update (pd : paint_data) (created : Option Nat) (pre : Bytes) (next : Nat) :
    Updated :=
  let pd1 : paint_data :=
    match pd.reshared with
    | some h =>
      let pd0 : paint_data :=
        if pd.kept_alive.length > 4 then
          { pd with closed := pd.closed ++ pd.kept_alive.take 1,
                    kept_alive := pd.kept_alive.drop 1 }
        else pd
      { pd0 with kept_alive := pd0.kept_alive ++ [h], reshared := none }
    | none => pd
  let next1 := if (next + 1) % 18446744073709551616 > 1024 then 1
    else (next + 1) % 18446744073709551616
  let reshared1 := match created with
    | some h => some h
    | none => pd1.reshared
  { pd := { pd1 with current := next1, reshared := reshared1 },
    next := next1,
    name := pre ++ [46] ++ to_string next1 }

/-- A call made on a `paint_data`. -/
inductive PaintCall where
  | update (created : Option Nat)
  | clean
  | reset
  deriving DecidableEq

/-- One call on the object, with the counter `prefix_index` of the `WebView` beside it. -/
def paint_call (pre : Bytes) (s : paint_data × Nat) : PaintCall → paint_data × Nat
  | .update created => ((s.1.update created pre s.2).pd, (s.1.update created pre s.2).next)
  | .clean => (s.1.clean, s.2)
  | .reset => (s.1.reset, s.2)

/-- A sequence of calls, in order. -/
def paint_calls (pre : Bytes) (cs : List PaintCall) (s : paint_data × Nat) : paint_data × Nat :=
  cs.foldl (paint_call pre) s

/-- One call on `pd_main` (`popup = false`) or on `pd_popup` (`popup = true`) of a `WebView`;
both work on the one counter `prefix_index`. -/
def view_call (pre : Bytes) (s : (paint_data × paint_data) × Nat) :
    Bool × PaintCall → (paint_data × paint_data) × Nat
  | (false, c) => (((paint_call pre (s.1.1, s.2) c).1, s.1.2), (paint_call pre (s.1.1, s.2) c).2)
  | (true, c) => ((s.1.1, (paint_call pre (s.1.2, s.2) c).1), (paint_call pre (s.1.2, s.2) c).2)

/-- A sequence of calls on the two objects of a new `WebView` (`prefix_index` is 0). -/
def view_calls (pre : Bytes) (cs : List (Bool × PaintCall)) : (paint_data × paint_data) × Nat :=
  cs.foldl (view_call pre) ((⟨none, 0, [], []⟩, ⟨none, 0, [], []⟩), 0)

/-! ## Reply ids, `str_view::find`, and the reads of `iterate_commands` -/

/-- A step of a `WebView` that touches `awaiting_reply`: a call of `await_reply(hint, fn)` or a
`reply` command handled by `control`. -/
inductive ReplyOp (κ : Type) where
  | await (fn : Option κ)
  | reply (value : Bytes)

/-- The state after one step (an exception leaving the reply branch leaves the state as it
was). -/
def reply_step {κ : Type} (w : Control κ) : ReplyOp κ → Control κ
  | .await fn => (await_reply w fn).2
  | .reply value =>
    match control_reply w value with
    | .returned w1 => w1
    | .raised w1 => w1

/-- The number of `await_reply` calls with a non-null callback among the steps. -/
def registered {κ : Type} : List (ReplyOp κ) → Nat
  | [] => 0
  | .await (some _) :: ops => registered ops + 1
  | _ :: ops => registered ops

/-- Constant `std::string::npos` as a `size_t`. -/
def npos : Nat := 18446744073709551615

/-- Models `std::search(first, last, c, c + c_len)` on the range `hay`: the offset of the first
occurrence of `needle`, `none` when the result is `last`. -/
def search (hay needle : Bytes) : Option Nat :=
  (List.range (hay.length + 1)).find? (fun k => (hay.drop k).take needle.length == needle)

/-- Models `str_view::find_cstrl(c, c_len, index)`; the result is a `size_t`, so the value of
`memcmp(&data_[index], c, c_len) == 0` comes back as 1 or 0. -/
def find_cstrl (s c : Bytes) (index : Nat) : Nat :=
  if index ≥ s.length then npos
  else if index + c.length > s.length then npos
  else if index + c.length = s.length then
    (if (s.drop index).take c.length = c then 1 else 0)
  else
    match search (s.drop index) c with
    | none => npos
    | some k => index + k

/-- Models `str_view::find(c, index)` (the three overloads agree). -/
def find (s c : Bytes) (index : Nat) : Nat :=
  if index ≥ s.length then npos else find_cstrl s c index

/-- The accesses `iterate_commands` makes relative to `entry->commands`, as (offset, number of
chars), started at offset `p` with `n` records left: the code `p[0]`, the length
`*(uint16_t*)&p[1]`, and the view of `s` chars handed to the callback. -/
def iterate_reads (m : Mem) : Nat → Nat → List (Nat × Nat)
  | _, 0 => []
  | p, n + 1 =>
    let s := load16 m (p + 1)
    (p, 1) :: (p + 1, 2) :: (p + 3, s) :: iterate_reads m (p + 3 + s) n

/-! ## The constructor of `WebView` -/

/-- The locals `delayed` and `delayed_count` of the constructor of `WebView`, with the part of
the object that `configure_control` works on. -/
structure Delayed (ε : Type) where
  delayed : Bytes
  delayed_count : Nat
  view : Guarded ε

/-- The lambda that the constructor of `WebView` hands to `iterate_commands`: a command that
`configure_control` does not take is appended to `delayed` (code, `uint16_t` size, payload)
and counted (`delayed_count` is an `unsigned int`). -/
def delay_callback {ε : Type} (effect : Guarded ε → Nat × Bytes → Guarded ε)
    (acc : Delayed ε) (r : Nat × Bytes) : Outcome (Delayed ε) :=
  if !(configure_control effect acc.view r.1 r.2).1 then
    .returned
      { delayed := acc.delayed ++ ([r.1] ++ le16 (r.2.length % 65536) ++ r.2),
        delayed_count := (acc.delayed_count + 1) % 4294967296,
        view := (configure_control effect acc.view r.1 r.2).2 }
  else .returned { acc with view := (configure_control effect acc.view r.1 r.2).2 }

/-- Models the body of the constructor `WebView::WebView(...)`: the shared record and the
object after it. -/
def WebView_construct {ε : Type} (effect : Guarded ε → Nat × Bytes → Guarded ε)
    (entry : accsp_wb_entry) (w : Guarded ε) : accsp_wb_entry × Guarded ε :=
  match iterate_commands (delay_callback effect) entry ⟨[], 0, w⟩ with
  | .returned (true, acc) =>
    ({ entry with commands := memcpy entry.commands 0 acc.delayed,
                  commands_set := acc.delayed_count }, acc.view)
  | .returned (false, acc) => (entry, acc.view)
  | .raised (_, acc) => (entry, acc.view)

/-! ## `lson_builder::add_string` -/

/-- The loop of `lson_builder::add_string(data, size)` from the counter `i` (an `unsigned int`)
on, `dst` being the text built so far; `none` when `fuel` iterations did not end the loop. -/
def add_string_loop (data : Bytes) : Nat → Nat → Bytes → Option Bytes
  | 0, _, _ => none
  | fuel + 1, i, dst =>
    if i < data.length then
      let c := data.getD i 0
      let dst1 :=
        if c = 0 then dst ++ [92, 48]
        else if c = 10 then dst ++ [92, 110]
        else (if c = 34 ∨ c = 92 then dst ++ [92] else dst) ++ [c]
      add_string_loop data fuel ((i + 1) % 4294967296) dst1
    else some dst

/-- Models `lson_builder::add_string(data, size)` on the text `dst`: `none` when the loop does
not end. A loop that ends makes `size + 1` tests of its condition. -/
def add_string (dst data : Bytes) : Option Bytes :=
  (add_string_loop data (data.length + 1) 0 (dst ++ [34])).map (fun d => d ++ [34])

/-! ## `str_view::as(uint64_t)` -/

/-- Constant `HN` (util.cpp): the entry of `hextable` for a char that is not a hex digit. -/
def HN : Nat := 16

/-- The table `hextable` of util.cpp, entry by entry. -/
def hextable : List Nat :=
  [
    16, 16, 16, 16, 16, 16, 16, 16, 16, 16, 16, 16, 16, 16, 16, 16, 16, 16, 16, 16, 16, 16, 16, 16,
    16, 16, 16, 16, 16, 16, 16, 16, 16, 16, 16, 16, 16, 16, 16, 16, 16, 16, 16, 16, 16, 16, 16, 16,
    0, 1, 2, 3, 4, 5, 6, 7, 8, 9, 16, 16, 16, 16, 16, 16, 16, 10, 11, 12, 13, 14, 15, 16,
    16, 16, 16, 16, 16, 16, 16, 16, 16, 16, 16, 16, 16, 16, 16, 16, 16, 16, 16, 16, 16, 16, 16, 16,
    16, 10, 11, 12, 13, 14, 15, 16, 16, 16, 16, 16, 16, 16, 16, 16, 16, 16, 16, 16, 16, 16, 16, 16,
    16, 16, 16, 16, 16, 16, 16, 16, 16, 16, 16, 16, 16, 16, 16, 16, 16, 16, 16, 16, 16, 16, 16, 16,
    16, 16, 16, 16, 16, 16, 16, 16, 16, 16, 16, 16, 16, 16, 16, 16, 16, 16, 16, 16, 16, 16, 16, 16,
    16, 16, 16, 16, 16, 16, 16, 16, 16, 16, 16, 16, 16, 16, 16, 16, 16, 16, 16, 16, 16, 16, 16, 16,
    16, 16, 16, 16, 16, 16, 16, 16, 16, 16, 16, 16, 16, 16, 16, 16, 16, 16, 16, 16, 16, 16, 16, 16,
    16, 16, 16, 16, 16, 16, 16, 16, 16, 16, 16, 16, 16, 16, 16, 16, 16, 16, 16, 16, 16, 16, 16, 16,
    16, 16, 16, 16, 16, 16, 16, 16, 16, 16, 16, 16, 16, 16, 16, 16
  ]

/-- Models `hexdec_address(char v)`: the char read as a `uint8_t`; a char is a number below 256
here, so this is the char itself. -/
def hexdec_address (v : Nat) : Nat := v

/-- Models `parse_gen_hex(c, ce)`: the list is what lies between `c` and `ce`, `ret` a
`uint64_t`. At `c == ce` the table is asked for the NUL char, which is not a hex digit. -/
def parse_gen_hex : Bytes → Nat → Nat
  | [], ret => ret
  | x :: c, ret =>
    if hextable.getD (hexdec_address x) HN = HN then ret
    else
      parse_gen_hex c
        (((ret <<< 4) % 18446744073709551616) ||| hextable.getD (hexdec_address x) HN)

/-- The `for` loop of `parse_gen(c, ce, uint64_t d)`: the value of `ret` and the number of
chars that `c` has moved past. -/
def parse_gen_digits : Bytes → Nat → Nat → Nat × Nat
  | [], ret, k => (ret, k)
  | x :: c, ret, k =>
    if is_digit x then
      parse_gen_digits c ((ret * 10 + (x - 48)) % 18446744073709551616) (k + 1)
    else (ret, k)

/-- Models `parse_gen(c, ce, uint64_t d)`: `none` is a null `c`, `some s` a range of chars. -/
def parse_gen (c : Option Bytes) (d : Nat) : Nat :=
  match c with
  | none => d
  | some s =>
    if 2 < s.length ∧ s.getD 0 0 = 48 ∧ s.getD 1 0 = 120 then parse_gen_hex (s.drop 2) 0
    else if (parse_gen_digits s 0 0).2 = 0 then d
    else (parse_gen_digits s 0 0).1

/-- Models `str_view::as(uint64_t d)` on a view with chars `s`. -/
def as_uint64 (s : Bytes) (d : Nat) : Nat := parse_gen (some s) d

/-! ## Specification vocabulary -/

/-- The chars `bs` stand in `m` from offset `off` on. -/
def holds (m : Mem) (off : Nat) (bs : Bytes) : Prop :=
  ∀ i, i < bs.length → m (off + i) = bs.getD i 0

/-- The wire form of one record: code, 2-byte little-endian length, payload. -/
def record_bytes (r : Nat × Bytes) : Bytes :=
  r.1 :: le16 r.2.length ++ r.2

/-- The parts after the first one, each preceded by the separator. -/
def tail_join (ps : List Bytes) : Bytes :=
  (ps.map (fun v => 1 :: v)).flatten

/-- The entry has at least one part (`!i.second.empty()`). -/
def has_parts (e : Entry) : Bool := !e.2.isEmpty

/-- The number of buffer chars a written entry takes: nothing for an entry without parts, a
descriptor record for one above `ACCSP_MAX_COMMAND_SIZE`, header plus payload otherwise. -/
def wire_size (e : Entry) : Nat :=
  if e.2.isEmpty then 0
  else if total_size e.2 > ACCSP_MAX_COMMAND_SIZE then 11
  else 3 + total_size e.2

/-- The entry does not fit at write offset `p`: the test that makes the loop stop at it. -/
def rejects (p : Nat) (e : Entry) : Prop :=
  e.2 ≠ [] ∧
    (if total_size e.2 > ACCSP_MAX_COMMAND_SIZE then p + 20 > ACCSP_FRAME_SIZE
     else p + total_size e.2 + 4 > ACCSP_FRAME_SIZE)

/-- Record `r` stands for entry `e`: its own record (code, joined parts), or for an entry above
`ACCSP_MAX_COMMAND_SIZE` a `large_command` record whose descriptor names a mapping among
`files` that was created for it (size `total_size + 2`, first char the code). -/
def Represents (files : List accsp_mapped) (e : Entry) (r : Nat × Bytes) : Prop :=
  if total_size e.2 > ACCSP_MAX_COMMAND_SIZE then
    r.1 = command_fe.large_command.byte ∧
      ∃ f, f ∈ files ∧ f.size = total_size e.2 + 2 ∧ f.entry 0 = e.1.byte ∧
        r.2 = le32 f.key ++ le32 (f.size % 4294967296)
  else r = (e.1.byte, join1 e.2)

/-- Every entry of `pre` fits when the entries are written one after the other from write
offset `p` on. -/
def accepted : Nat → List Entry → Prop
  | _, [] => True
  | p, e :: rest => ¬ rejects p e ∧ accepted (p + wire_size e) rest

/-- A payload of `n` chars `'A'`. -/
def chars (n : Nat) : Bytes := List.replicate n 65

/-- Every `windows_` entry of instance `x` was marked in the current tick. -/
def fresh (x : Nat) (w : CefWrapper) : Prop :=
  tracked x w ∧ ∀ e, e ∈ w.windows_ → e.1 = x → e.2.last_frame = w.frames_

/-- No `windows_` entry of instance `x` carries the current tick. -/
def stale (x : Nat) (w : CefWrapper) : Prop :=
  ∀ e, e ∈ w.windows_ → e.1 = x → e.2.last_frame ≠ w.frames_

/-- The handles that the calls of `cs` got from `recreate_shared_texture_nt`, in call order. -/
def supplied : List PaintCall → List Nat
  | [] => []
  | .update (some h) :: cs => h :: supplied cs
  | _ :: cs => supplied cs

/-- The handles a `paint_data` has held: the ring, then the current export, then the closed
ones. -/
def paint_data.handles (pd : paint_data) : List Nat :=
  pd.kept_alive ++ pd.reshared.toList ++ pd.closed

/-- Whether the chain of nested large commands that starts at the command `r` ends within
`n` calls of `control`: a command other than `large_command` ends it, and so does a descriptor
that `control` does not follow. -/
def ends_within (files : List accsp_mapped) : Nat → Nat × Bytes → Bool
  | 0, _ => false
  | n + 1, (key, value) =>
    if key = 2 then
      match decode_large files value with
      | some inner => ends_within files n inner
      | none => true
    else true

/-- The codes that `configure_control` has a branch for (it returns true exactly for them):
`navigate`, `set_option`, `filter_resource_urls`, `set_headers`, `inject_css`, `inject_js`. -/
def configures (key : Nat) : Bool :=
  decide (key ∈ [78, 105, 102, 104, 115, 106])

/-- The pieces joined with the separator `c` between them. -/
def join_sep (c : Nat) : List Bytes → Bytes
  | [] => []
  | [p] => p
  | p :: q :: rest => p ++ c :: join_sep c (q :: rest)

/-- The escaped form of a string: NUL as backslash-0, newline as backslash-n, a quote and a
backslash preceded by a backslash, any other char as it is. -/
def esc : Bytes → Bytes
  | [] => []
  | c :: rest =>
    (if c = 0 then [92, 48] else if c = 10 then [92, 110]
      else if c = 34 ∨ c = 92 then [92, c] else [c]) ++ esc rest

/-- The reader of an escaped text: a backslash and the char after it stand for one char (NUL
for `0`, newline for `n`, the char itself otherwise). -/
def unesc : Bytes → Bytes
  | [] => []
  | [x] => [x]
  | x :: y :: rest =>
    if x = 92 then (if y = 48 then 0 else if y = 110 then 10 else y) :: unesc rest
    else x :: unesc (y :: rest)

/-- Whether a text holds a quote that is not the second char of an escape. -/
def bare_quote : Bytes → Bool
  | [] => false
  | [x] => x == 34
  | x :: y :: rest =>
    if x = 92 then bare_quote rest
    else x == 34 || bare_quote (y :: rest)

/-- A hex digit char, either case. -/
def is_hex_digit (c : Nat) : Bool :=
  (48 ≤ c && c ≤ 57) || (65 ≤ c && c ≤ 70) || (97 ≤ c && c ≤ 102)

/-- The value of a hex digit char. -/
def hex_value (c : Nat) : Nat :=
  if c ≤ 57 then c - 48 else if c ≤ 70 then c - 55 else c - 87

/-- The reference that the spec gives for `str_view::as(uint64_t d)`, in its words: with at
least 3 chars and a leading `0x`, the longest run of hex digits after it folded as
`(acc << 4 | digit) mod 2^64`; otherwise the value mod 2^64 of the longest leading run of
decimal digits, or `d` when that run is empty. -/
def as_reference (s : Bytes) (d : Nat) : Nat :=
  if 3 ≤ s.length ∧ s.take 2 = [48, 120] then
    ((s.drop 2).takeWhile is_hex_digit).foldl
      (fun acc c => ((acc <<< 4) ||| hex_value c) % 18446744073709551616) 0
  else if s.takeWhile is_digit = [] then d
  else (s.takeWhile is_digit).foldl (fun a c => a * 10 + (c - 48)) 0 % 18446744073709551616

/-- The hex text of a number, in lower case. -/
def to_hex (n : Nat) : Bytes := (Nat.toDigits 16 n).map Char.toNat

/-! ## Memory lemmas -/

theorem holds_nil (m : Mem) (off : Nat) : holds m off [] := by
  intro i hi
  simp at hi

theorem holds_append (m : Mem) (off : Nat) (a b : Bytes) :
    holds m off (a ++ b) ↔ holds m off a ∧ holds m (off + a.length) b := by
  constructor
  · intro h
    refine ⟨fun i hi => ?_, fun i hi => ?_⟩
    · have := h i (by simp; omega)
      rw [this, List.getD_append _ _ _ _ hi]
    · have := h (a.length + i) (by simp; omega)
      rw [← Nat.add_assoc] at this
      rw [this, List.getD_append_right _ _ _ _ (by omega)]
      simp
  · rintro ⟨ha, hb⟩ i hi
    by_cases hlt : i < a.length
    · rw [ha i hlt, List.getD_append _ _ _ _ hlt]
    · have hi2 : i - a.length < b.length := by simp at hi; omega
      have := hb (i - a.length) hi2
      rw [List.getD_append_right _ _ _ _ (by omega), ← this]
      congr 1
      omega

theorem holds_cons (m : Mem) (off x : Nat) (bs : Bytes) :
    holds m off (x :: bs) ↔ m off = x ∧ holds m (off + 1) bs := by
  have h := holds_append m off [x] bs
  simp only [List.singleton_append, List.length_singleton] at h
  rw [h]
  constructor
  · rintro ⟨h1, h2⟩
    exact ⟨by simpa using h1 0 (by simp), h2⟩
  · rintro ⟨h1, h2⟩
    refine ⟨fun i hi => ?_, h2⟩
    simp at hi
    subst hi
    simpa using h1

theorem memcpy_below (m : Mem) (off : Nat) (src : Bytes) (i : Nat) (h : i < off) :
    memcpy m off src i = m i := by
  unfold memcpy
  rw [if_neg]
  omega

theorem holds_memcpy (m : Mem) (off : Nat) (src : Bytes) : holds (memcpy m off src) off src := by
  intro i hi
  unfold memcpy
  rw [if_pos ⟨by omega, by omega⟩]
  congr 1
  omega

theorem holds_congr (m1 m2 : Mem) (off : Nat) (bs : Bytes)
    (h : ∀ i, off ≤ i → i < off + bs.length → m2 i = m1 i) (h1 : holds m1 off bs) :
    holds m2 off bs := by
  intro i hi
  rw [h (off + i) (by omega) (by omega)]
  exact h1 i hi

theorem read_of_holds (m : Mem) (off : Nat) (bs : Bytes) (h : holds m off bs) :
    read m off bs.length = bs := by
  apply List.ext_getElem
  · simp [read]
  · intro i h1 h2
    simp only [read, List.getElem_map, List.getElem_range]
    rw [h i h2]
    exact (List.getD_eq_getElem _ _ h2)

theorem holds_read (m : Mem) (off n : Nat) : holds m off (read m off n) := by
  intro i hi
  simp only [read, List.length_map, List.length_range] at hi
  simp [read, List.getD_eq_getElem?_getD, hi]

theorem join1_cons (v : Bytes) (rest : List Bytes) : join1 (v :: rest) = v ++ tail_join rest := by
  induction rest generalizing v with
  | nil => simp [join1, tail_join]
  | cons w rest ih =>
    simp only [join1]
    rw [ih w]
    simp [tail_join]

theorem tail_join_cons (w : Bytes) (rest : List Bytes) :
    tail_join (w :: rest) = 1 :: w ++ tail_join rest := by
  simp [tail_join]

theorem tail_join_length (rest : List Bytes) :
    (tail_join rest).length = rest.length + (rest.map List.length).sum := by
  induction rest with
  | nil => simp [tail_join]
  | cons w rest ih =>
    rw [tail_join_cons]
    simp only [List.cons_append, List.length_cons, List.length_append, List.map_cons,
      List.sum_cons, ih]
    omega

theorem total_size_eq (v : Bytes) (rest : List Bytes) :
    total_size (v :: rest) = (join1 (v :: rest)).length := by
  rw [join1_cons]
  simp only [total_size, List.length_cons, Nat.add_sub_cancel, List.map_cons, List.sum_cons,
    List.length_append, tail_join_length]
  omega

/-! ## What the record writers store -/

theorem copy_parts_true (parts : List Bytes) (o : Out) :
    (copy_parts true parts o).p = o.p + (tail_join parts).length
      ∧ (copy_parts true parts o).c = o.c
      ∧ (∀ i, i < o.p → (copy_parts true parts o).response i = o.response i)
      ∧ holds (copy_parts true parts o).response o.p (tail_join parts) := by
  induction parts generalizing o with
  | nil => simp [copy_parts, tail_join, holds_nil]
  | cons v rest ih =>
    rw [copy_parts, tail_join_cons]
    simp only [if_true, Out.poke]
    set o2 : Out := { response := memcpy (memcpy o.response o.p [1]) (o.p + 1) (v ++ [0]),
                      p := o.p + 1 + v.length, c := o.c,
                      written := (o.p + 1, (v ++ [0]).length) :: (o.p, [1].length) :: o.written }
      with ho2
    obtain ⟨h1, h2, h3, h4⟩ := ih o2
    have hv : holds o2.response (o.p + 1) (v ++ [0]) := holds_memcpy _ _ _
    have hv1 := ((holds_append _ _ _ _).1 hv).1
    refine ⟨?_, ?_, ?_, ?_⟩
    · rw [h1]
      simp [ho2]
      omega
    · rw [h2]
    · intro i hi
      rw [h3 i (by simp [ho2]; omega)]
      simp only [ho2]
      rw [memcpy_below _ _ _ _ (by omega), memcpy_below _ _ _ _ hi]
    · rw [List.cons_append, holds_cons, holds_append]
      refine ⟨?_, ?_, ?_⟩
      · rw [h3 o.p (by simp [ho2]; omega)]
        simp only [ho2]
        rw [memcpy_below _ _ _ _ (by omega)]
        simp [memcpy]
      · exact holds_congr _ _ _ _ (fun i _ hi => h3 i (by simp [ho2]; omega)) hv1
      · have : o.p + 1 + v.length = o2.p := by simp [ho2]
        rw [this]
        exact h4

theorem copy_parts_false (v : Bytes) (rest : List Bytes) (o : Out) :
    (copy_parts false (v :: rest) o).p = o.p + (join1 (v :: rest)).length
      ∧ (copy_parts false (v :: rest) o).c = o.c
      ∧ (∀ i, i < o.p → (copy_parts false (v :: rest) o).response i = o.response i)
      ∧ holds (copy_parts false (v :: rest) o).response o.p (join1 (v :: rest)) := by
  rw [copy_parts, join1_cons]
  simp only [Bool.false_eq_true, if_false, Out.poke]
  set o2 : Out := { response := memcpy o.response o.p (v ++ [0]),
                    p := o.p + v.length, c := o.c,
                    written := (o.p, (v ++ [0]).length) :: o.written } with ho2
  obtain ⟨h1, h2, h3, h4⟩ := copy_parts_true rest o2
  have hv : holds o2.response o.p (v ++ [0]) := holds_memcpy _ _ _
  have hv1 := ((holds_append _ _ _ _).1 hv).1
  refine ⟨?_, ?_, ?_, ?_⟩
  · rw [h1]
    simp [ho2]
    omega
  · rw [h2]
  · intro i hi
    rw [h3 i (by simp [ho2]; omega)]
    simp only [ho2]
    rw [memcpy_below _ _ _ _ hi]
  · rw [holds_append]
    refine ⟨?_, ?_⟩
    · exact holds_congr _ _ _ _ (fun i _ hi => h3 i (by simp [ho2]; omega)) hv1
    · have : o.p + v.length = o2.p := by simp [ho2]
      rw [this]
      exact h4

theorem chars_length (n : Nat) : (chars n).length = n := by
  simp [chars]

theorem le16_load (x : Nat) (hx : x < 65536) : x % 256 + 256 * (x / 256 % 256) = x := by
  omega

theorem add_entry_v_full (k : command_fe) (a : List Bytes) (t : Nat) (o : Out)
    (h : o.p + t + 4 > ACCSP_FRAME_SIZE) : add_entry_v k a t o = (false, o) := by
  simp [add_entry_v, h]

theorem add_entry_v_ok (k : command_fe) (v : Bytes) (rest : List Bytes) (o : Out)
    (hfit : o.p + total_size (v :: rest) + 4 ≤ ACCSP_FRAME_SIZE)
    (hsz : total_size (v :: rest) < 65536) :
    (add_entry_v k (v :: rest) (total_size (v :: rest)) o).1 = true
      ∧ (add_entry_v k (v :: rest) (total_size (v :: rest)) o).2.p
          = o.p + 3 + total_size (v :: rest)
      ∧ (add_entry_v k (v :: rest) (total_size (v :: rest)) o).2.c = o.c + 1
      ∧ (∀ i, i < o.p →
          (add_entry_v k (v :: rest) (total_size (v :: rest)) o).2.response i = o.response i)
      ∧ holds (add_entry_v k (v :: rest) (total_size (v :: rest)) o).2.response o.p
          (record_bytes (k.byte, join1 (v :: rest))) := by
  have hnot : ¬ (o.p + total_size (v :: rest) + 4 > ACCSP_FRAME_SIZE) := by omega
  simp only [add_entry_v, if_neg hnot, Out.poke]
  set o2 : Out := { response := memcpy (memcpy o.response o.p [k.byte]) (o.p + 1)
                      (le16 (total_size (v :: rest) % 65536)),
                    p := o.p + 3, c := o.c,
                    written := (o.p + 1, (le16 (total_size (v :: rest) % 65536)).length)
                      :: (o.p, [k.byte].length) :: o.written } with ho2
  obtain ⟨h1, h2, h3, h4⟩ := copy_parts_false v rest o2
  have hmod : total_size (v :: rest) % 65536 = total_size (v :: rest) := Nat.mod_eq_of_lt hsz
  refine ⟨trivial, ?_, ?_, ?_, ?_⟩
  · show (copy_parts false (v :: rest) o2).p = _
    rw [h1, total_size_eq]
  · show (copy_parts false (v :: rest) o2).c + 1 = _
    rw [h2]
  · intro i hi
    show (copy_parts false (v :: rest) o2).response i = _
    rw [h3 i (by simp [ho2]; omega)]
    simp only [ho2]
    rw [memcpy_below _ _ _ _ (by omega), memcpy_below _ _ _ _ hi]
  · show holds (copy_parts false (v :: rest) o2).response o.p _
    have hhead : holds o2.response o.p ([k.byte] ++ le16 (total_size (v :: rest))) := by
      rw [holds_append]
      refine ⟨?_, ?_⟩
      · refine holds_congr _ _ _ _ (fun i _ hi => ?_) (holds_memcpy o.response o.p [k.byte])
        simp only [ho2]
        exact memcpy_below _ _ _ _ (by simpa using hi)
      · simp only [ho2, hmod]
        exact holds_memcpy _ _ _
    have hrec : record_bytes (k.byte, join1 (v :: rest))
        = ([k.byte] ++ le16 (total_size (v :: rest))) ++ join1 (v :: rest) := by
      simp [record_bytes, total_size_eq]
    rw [hrec, holds_append]
    refine ⟨?_, ?_⟩
    · refine holds_congr _ _ _ _ (fun i _ hi => h3 i ?_) hhead
      simp [ho2, le16] at hi ⊢
      omega
    · have : o.p + ([k.byte] ++ le16 (total_size (v :: rest))).length = o2.p := by
        simp [ho2, le16]
      rw [this]
      exact h4

theorem add_entry_1_ok (k : command_fe) (v : Bytes) (o : Out)
    (hfit : o.p + v.length + 4 ≤ ACCSP_FRAME_SIZE) (hsz : v.length < 65536) :
    (add_entry_1 k v o).1 = true
      ∧ (add_entry_1 k v o).2.p = o.p + 3 + v.length
      ∧ (add_entry_1 k v o).2.c = o.c + 1
      ∧ (∀ i, i < o.p → (add_entry_1 k v o).2.response i = o.response i)
      ∧ holds (add_entry_1 k v o).2.response o.p (record_bytes (k.byte, v)) := by
  have hnot : ¬ (o.p + v.length + 4 > ACCSP_FRAME_SIZE) := by omega
  have hmod : v.length % 65536 = v.length := Nat.mod_eq_of_lt hsz
  simp only [add_entry_1, if_neg hnot, Out.poke, hmod]
  refine ⟨trivial, by omega, trivial, ?_, ?_⟩
  · intro i hi
    rw [memcpy_below _ _ _ _ (by omega), memcpy_below _ _ _ _ (by omega),
      memcpy_below _ _ _ _ hi]
  · have hrec : record_bytes (k.byte, v) = [k.byte] ++ (le16 v.length ++ v) := by
      simp [record_bytes]
    rw [hrec, holds_append, holds_append]
    refine ⟨?_, ?_, ?_⟩
    · refine holds_congr _ _ _ _ (fun i _ hi => ?_) (holds_memcpy o.response o.p [k.byte])
      simp only [List.length_singleton] at hi
      rw [memcpy_below _ _ _ _ (by omega), memcpy_below _ _ _ _ (by omega)]
    · refine holds_congr _ _ _ _ (fun i _ hi => ?_)
        (holds_memcpy (memcpy o.response o.p [k.byte]) (o.p + 1) (le16 v.length))
      simp only [List.length_singleton, le16, List.length_cons, List.length_nil] at hi
      rw [memcpy_below _ _ _ _ (by omega)]
    · have h := holds_memcpy (memcpy (memcpy o.response o.p [k.byte]) (o.p + 1) (le16 v.length))
        (o.p + 3) (v ++ [0])
      have h2 := ((holds_append _ _ _ _).1 h).1
      simpa [le16, Nat.add_assoc] using h2

theorem iterate_from_cons (m : Mem) (p n : Nat) (r : Nat × Bytes) (hlen : r.2.length < 65536)
    (h : holds m p (record_bytes r)) :
    iterate_from m p (n + 1) = r :: iterate_from m (p + 3 + r.2.length) n := by
  have hrec : record_bytes r
      = r.1 :: (r.2.length % 256) :: (r.2.length / 256 % 256) :: r.2 := by
    simp [record_bytes, le16]
  rw [hrec, holds_cons, holds_cons, holds_cons] at h
  obtain ⟨hk, h0, h1, h⟩ := h
  have hs : load16 m (p + 1) = r.2.length := by
    unfold load16
    rw [h0, h1]
    exact le16_load _ hlen
  rw [iterate_from]
  simp only [hs, hk]
  have hr : read m (p + 3) r.2.length = r.2 := read_of_holds _ _ _ h
  rw [hr]

/-! ## The auxiliary mapping of an oversized entry -/

theorem fill_large_code (k : Nat) (parts : List Bytes) :
    (fill_large parts (memcpy (fun _ => 0) 0 [k]) 1).1 0 = k := by
  have key : ∀ (ps : List Bytes) (m : Mem) (d : Nat), 1 ≤ d → (fill_large ps m d).1 0 = m 0 := by
    intro ps
    induction ps with
    | nil => intro m d _; rfl
    | cons v rest ih =>
      intro m d hd
      rw [fill_large, ih _ _ (by split <;> omega)]
      rw [memcpy_below _ _ _ _ (by split <;> omega)]
      split
      · exact memcpy_below _ _ _ _ (by omega)
      · rfl
  rw [key _ _ _ (by omega)]
  simp [memcpy]

theorem le32_length (x : Nat) : (le32 x).length = 4 := rfl

/-- The mapping `submit_entry` creates for an oversized entry. -/
theorem submit_entry_large (rnd : Nat → Nat) (k : command_fe) (parts : List Bytes) (s : Packing)
    (hne : parts ≠ []) (hbig : total_size parts > ACCSP_MAX_COMMAND_SIZE)
    (hroom : s.out.p + 20 ≤ ACCSP_FRAME_SIZE) :
    submit_entry rnd (k, parts) s = some
      ⟨(add_entry_1 .large_command
          (le32 (rnd s.response_large_files.length % INT32_MAX)
            ++ le32 ((2 + total_size parts) % 4294967296)) s.out).2,
        s.response_large_files ++
          [⟨rnd s.response_large_files.length % INT32_MAX, total_size parts + 2,
            (fill_large parts (memcpy (fun _ => 0) 0 [k.byte]) 1).1⟩]⟩ := by
  have h1 : ¬ (s.out.p + 20 > ACCSP_FRAME_SIZE) := by omega
  cases parts with
  | nil => exact absurd rfl hne
  | cons v rest => simp [submit_entry, hbig, h1]

theorem submit_entry_small (rnd : Nat → Nat) (k : command_fe) (parts : List Bytes) (s : Packing)
    (hne : parts ≠ []) (hbig : total_size parts ≤ ACCSP_MAX_COMMAND_SIZE)
    (hroom : s.out.p + total_size parts + 4 ≤ ACCSP_FRAME_SIZE) :
    submit_entry rnd (k, parts) s
      = some ⟨(add_entry_v k parts (total_size parts) s.out).2, s.response_large_files⟩ := by
  have h1 : ¬ (total_size parts > ACCSP_MAX_COMMAND_SIZE) := by omega
  have hsz : total_size parts < 65536 := by
    simp only [ACCSP_MAX_COMMAND_SIZE] at hbig
    omega
  cases parts with
  | nil => exact absurd rfl hne
  | cons v rest =>
    have h2 := (add_entry_v_ok k v rest s.out hroom hsz).1
    simp [submit_entry, h1, h2]

theorem submit_entry_spec (rnd : Nat → Nat) (i : Entry) (s : Packing) :
    (submit_entry rnd i s = none ∧ rejects s.out.p i) ∨
    (∃ s1, submit_entry rnd i s = some s1 ∧ ¬ rejects s.out.p i
      ∧ s1.out.p = s.out.p + wire_size i
      ∧ s1.out.c = s.out.c + (if has_parts i then 1 else 0)
      ∧ (∀ j, j < s.out.p → s1.out.response j = s.out.response j)
      ∧ (∃ new, s1.response_large_files = s.response_large_files ++ new)
      ∧ (has_parts i = true → ∃ r, holds s1.out.response s.out.p (record_bytes r)
          ∧ r.2.length < 65536 ∧ s.out.p + 3 + r.2.length = s1.out.p
          ∧ Represents s1.response_large_files i r)) := by
  obtain ⟨k, parts⟩ := i
  cases parts with
  | nil =>
    right
    refine ⟨s, by simp [submit_entry], by simp [rejects], by simp [wire_size],
      by simp [has_parts], fun _ _ => rfl, ⟨[], by simp⟩, by simp [has_parts]⟩
  | cons v rest =>
    by_cases hbig : total_size (v :: rest) > ACCSP_MAX_COMMAND_SIZE
    · by_cases hroom : s.out.p + 20 > ACCSP_FRAME_SIZE
      · left
        exact ⟨by simp [submit_entry, hbig, hroom], by simp [rejects, hbig, hroom]⟩
      · right
        have heq := submit_entry_large rnd k (v :: rest) s (by simp) hbig (by omega)
        set key := rnd s.response_large_files.length % INT32_MAX with hkey
        set o : Bytes := le32 key ++ le32 ((2 + total_size (v :: rest)) % 4294967296) with ho
        have holen : o.length = 8 := by simp [ho, le32_length]
        obtain ⟨-, h2, h3, h4, h5⟩ := add_entry_1_ok .large_command o s.out
          (by rw [holen]; omega) (by rw [holen]; omega)
        refine ⟨_, heq, by simp [rejects, hbig, hroom], ?_, ?_,
          ?_, ⟨_, rfl⟩, fun _ => ⟨(command_fe.large_command.byte, o), ?_, ?_, ?_, ?_⟩⟩
        · simp only [h2, holen, wire_size, hbig]
          simp
        · simp only [h3, has_parts]
          simp
        · exact h4
        · exact h5
        · simp [holen]
        · simp only [h2, holen]
        · simp only [Represents, hbig, if_true]
          refine ⟨trivial, _, List.mem_append_right _ (List.mem_singleton_self _), rfl,
            fill_large_code _ _, ?_⟩
          simp only [ho, Nat.add_comm]
    · by_cases hroom : s.out.p + total_size (v :: rest) + 4 > ACCSP_FRAME_SIZE
      · left
        refine ⟨?_, by simp [rejects, hbig, hroom]⟩
        simp [submit_entry, hbig, add_entry_v_full _ _ _ _ hroom]
      · right
        have hsz : total_size (v :: rest) < 65536 := by
          simp only [ACCSP_MAX_COMMAND_SIZE] at hbig
          omega
        have heq := submit_entry_small rnd k (v :: rest) s (by simp) (by omega) (by omega)
        obtain ⟨h1, h2, h3, h4, h5⟩ := add_entry_v_ok k v rest s.out (by omega) hsz
        refine ⟨_, heq, by simp [rejects, hbig, hroom], ?_, ?_,
          ?_, ⟨[], by simp⟩, fun _ => ⟨(k.byte, join1 (v :: rest)), ?_, ?_, ?_, ?_⟩⟩
        · simp only [h2, wire_size, hbig]
          simp
          omega
        · simp only [h3, has_parts]
          simp
        · exact h4
        · exact h5
        · rw [← total_size_eq]
          exact hsz
        · rw [h2, ← total_size_eq]
        · simp [Represents, hbig]

theorem rejects_small (p : Nat) (e : Entry) (h : total_size e.2 ≤ ACCSP_MAX_COMMAND_SIZE) :
    rejects p e ↔ e.2 ≠ [] ∧ p + total_size e.2 + 4 > ACCSP_FRAME_SIZE := by
  have h2 : ¬ (total_size e.2 > ACCSP_MAX_COMMAND_SIZE) := by omega
  simp [rejects, h2]

theorem Represents_mono (files new : List accsp_mapped) (e : Entry) (r : Nat × Bytes)
    (h : Represents files e r) : Represents (files ++ new) e r := by
  unfold Represents at h ⊢
  split
  · rename_i hbig
    rw [if_pos hbig] at h
    obtain ⟨h1, f, hf, h2⟩ := h
    exact ⟨h1, f, List.mem_append_left _ hf, h2⟩
  · rename_i hbig
    rw [if_neg hbig] at h
    exact h

theorem submit_loop_stop (rnd : Nat → Nat) (e : Entry) (rest : List Entry) (s : Packing)
    (h : rejects s.out.p e) : submit_loop rnd (e :: rest) s = (s, some (e :: rest)) := by
  rcases submit_entry_spec rnd e s with ⟨h1, -⟩ | ⟨s1, -, h2, -⟩
  · rw [submit_loop, h1]
  · exact absurd h h2

theorem submit_loop_accepted (rnd : Nat → Nat) (pre : List Entry) (s0 : Packing)
    (hacc : accepted s0.out.p pre) :
    ∃ s1, (∀ tail, submit_loop rnd (pre ++ tail) s0 = submit_loop rnd tail s1)
      ∧ s1.out.p = s0.out.p + (pre.map wire_size).sum
      ∧ s1.out.c = s0.out.c + (pre.filter has_parts).length
      ∧ (∀ j, j < s0.out.p → s1.out.response j = s0.out.response j)
      ∧ (∃ new, s1.response_large_files = s0.response_large_files ++ new)
      ∧ List.Forall₂ (Represents s1.response_large_files) (pre.filter has_parts)
          (iterate_from s1.out.response s0.out.p (pre.filter has_parts).length) := by
  induction pre generalizing s0 with
  | nil =>
    exact ⟨s0, fun _ => rfl, by simp, by simp, fun _ _ => rfl, ⟨[], by simp⟩,
      by simp [iterate_from]⟩
  | cons e pre ih =>
    obtain ⟨hrej, hacc2⟩ := hacc
    rcases submit_entry_spec rnd e s0 with ⟨-, h⟩ | ⟨s1, he, -, hp, hc, hsame, ⟨new1, hf1⟩, hrec⟩
    · exact absurd h hrej
    · rw [← hp] at hacc2
      obtain ⟨s2, hl, hp2, hc2, hsame2, ⟨new2, hf2⟩, hall⟩ := ih s1 hacc2
      have hle : s0.out.p ≤ s1.out.p := by omega
      refine ⟨s2, ?_, ?_, ?_, ?_, ⟨new1 ++ new2, by rw [hf2, hf1, List.append_assoc]⟩, ?_⟩
      · intro tail
        rw [List.cons_append, submit_loop, he]
        exact hl tail
      · rw [hp2, hp, List.map_cons, List.sum_cons]
        omega
      · rw [hc2, hc]
        by_cases hpe : has_parts e = true
        · simp [List.filter_cons, hpe]
          omega
        · simp [List.filter_cons, hpe]
      · intro j hj
        rw [hsame2 j (by omega), hsame j hj]
      · by_cases hpe : has_parts e = true
        · obtain ⟨r, hr1, hr2, hr3, hr4⟩ := hrec hpe
          have hr1b : holds s2.out.response s0.out.p (record_bytes r) := by
            refine holds_congr _ _ _ _ (fun i _ hi => hsame2 i ?_) hr1
            have : (record_bytes r).length = 3 + r.2.length := by
              simp [record_bytes, le16]
              omega
            omega
          simp only [List.filter_cons, hpe, if_true, List.length_cons]
          rw [iterate_from_cons _ _ _ r hr2 hr1b, hr3]
          refine List.Forall₂.cons ?_ hall
          rw [hf2]
          exact Represents_mono _ _ _ _ hr4
        · have hw : wire_size e = 0 := by
            have hemp : e.2.isEmpty = true := by
              cases hx : e.2.isEmpty
              · exact absurd (by simp [has_parts, hx]) hpe
              · rfl
            simp [wire_size, hemp]
          have hpeq : s1.out.p = s0.out.p := by omega
          simp only [List.filter_cons, hpe]
          rw [← hpeq]
          exact hall

theorem exists_accepted_split (p : Nat) (q : List Entry) :
    ∃ pre tail, q = pre ++ tail ∧ accepted p pre
      ∧ (tail = [] ∨ ∃ e rest, tail = e :: rest ∧ rejects (p + (pre.map wire_size).sum) e) := by
  induction q generalizing p with
  | nil => exact ⟨[], [], rfl, trivial, Or.inl rfl⟩
  | cons e q ih =>
    by_cases h : rejects p e
    · exact ⟨[], e :: q, rfl, trivial, Or.inr ⟨e, q, rfl, by simpa using h⟩⟩
    · obtain ⟨pre, tail, h1, h2, h3⟩ := ih (p + wire_size e)
      refine ⟨e :: pre, tail, by rw [h1]; rfl, ⟨h, h2⟩, ?_⟩
      rcases h3 with h3 | ⟨e2, rest, h4, h5⟩
      · exact Or.inl h3
      · refine Or.inr ⟨e2, rest, h4, ?_⟩
        rw [List.map_cons, List.sum_cons, ← Nat.add_assoc]
        exact h5

/-! ## Consequences for `submit_commands` -/

theorem accepted_of_small (p : Nat) (q : List Entry)
    (hparts : ∀ e ∈ q, e.2 ≠ [])
    (hmax : ∀ e ∈ q, (join1 e.2).length ≤ ACCSP_MAX_COMMAND_SIZE)
    (hsum : p + (q.map (fun e => 3 + (join1 e.2).length)).sum + 1 ≤ ACCSP_FRAME_SIZE) :
    accepted p q ∧ (q.map wire_size).sum = (q.map (fun e => 3 + (join1 e.2).length)).sum := by
  induction q generalizing p with
  | nil => exact ⟨trivial, rfl⟩
  | cons e q ih =>
    obtain ⟨k, parts⟩ := e
    have hne : parts ≠ [] := hparts (k, parts) (List.mem_cons_self _ _)
    have hm : (join1 parts).length ≤ ACCSP_MAX_COMMAND_SIZE := hmax (k, parts) (List.mem_cons_self _ _)
    obtain ⟨v, rest, rfl⟩ := List.exists_cons_of_ne_nil hne
    have ht := total_size_eq v rest
    simp only [List.map_cons, List.sum_cons] at hsum
    have hw : wire_size (k, v :: rest) = 3 + (join1 (v :: rest)).length := by
      have : ¬ (total_size (v :: rest) > ACCSP_MAX_COMMAND_SIZE) := by omega
      simp only [wire_size, List.isEmpty_cons, Bool.false_eq_true, if_false, this]
      rw [ht]
    obtain ⟨h1, h2⟩ := ih (p + wire_size (k, v :: rest))
      (fun e he => hparts e (List.mem_cons_of_mem _ he))
      (fun e he => hmax e (List.mem_cons_of_mem _ he)) (by rw [hw]; omega)
    refine ⟨⟨?_, h1⟩, ?_⟩
    · intro hr
      obtain ⟨-, hr⟩ := hr
      have : ¬ (total_size (v :: rest) > ACCSP_MAX_COMMAND_SIZE) := by omega
      simp only [this, if_false] at hr
      omega
    · simp only [List.map_cons, List.sum_cons, h2, hw]

theorem filter_has_parts_of_all (q : List Entry) (h : ∀ e ∈ q, e.2 ≠ []) :
    q.filter has_parts = q := by
  apply List.filter_eq_self.2
  intro e he
  have := h e he
  cases hx : e.2 with
  | nil => exact absurd hx this
  | cons v rest => simp [has_parts, hx]

theorem forall2_small (files : List accsp_mapped) (q : List Entry) (rs : List (Nat × Bytes))
    (hmax : ∀ e ∈ q, total_size e.2 ≤ ACCSP_MAX_COMMAND_SIZE)
    (h : List.Forall₂ (Represents files) q rs) :
    rs = q.map (fun e => (e.1.byte, join1 e.2)) := by
  induction h with
  | nil => rfl
  | @cons e r q rs hr _ ih =>
    have hm := hmax e (List.mem_cons_self _ _)
    have hnb : ¬ (total_size e.2 > ACCSP_MAX_COMMAND_SIZE) := by omega
    simp only [Represents, hnb, if_false] at hr
    rw [List.map_cons, hr, ih (fun e he => hmax e (List.mem_cons_of_mem _ he))]

/-- What `submit_commands` does in terms of the split of the queue into the entries it accepts
and the rest. -/
theorem submit_commands_split (rnd : Nat → Nat) (response : Mem) (pre tail : List Entry)
    (hacc : accepted 0 pre)
    (htail : tail = [] ∨ ∃ e rest, tail = e :: rest ∧ rejects ((pre.map wire_size).sum) e) :
    (submit_commands rnd response (pre ++ tail)).c = (pre.filter has_parts).length
      ∧ (submit_commands rnd response (pre ++ tail)).out.p = (pre.map wire_size).sum
      ∧ List.Forall₂ (Represents (submit_commands rnd response (pre ++ tail)).response_large_files)
          (pre.filter has_parts)
          (iterate_from (submit_commands rnd response (pre ++ tail)).out.response 0
            (pre.filter has_parts).length)
      ∧ (submit_commands rnd response (pre ++ tail)).response_data
          = (if tail = [] then [] else relocate_tail (pre ++ tail) pre.length) := by
  obtain ⟨s1, hl, hp, hc, -, -, hall⟩ :=
    submit_loop_accepted rnd pre ⟨⟨response, 0, 0, []⟩, []⟩ hacc
  simp only [Nat.zero_add] at hp hc
  have hloop : submit_loop rnd (pre ++ tail) ⟨⟨response, 0, 0, []⟩, []⟩
      = (s1, if tail = [] then none else some tail) := by
    rw [hl tail]
    rcases htail with h | ⟨e, rest, h, hrej⟩
    · subst h
      simp [submit_loop]
    · subst h
      rw [submit_loop_stop rnd e rest s1 (by rw [hp]; exact hrej)]
      simp
  unfold submit_commands
  simp only [hloop]
  by_cases ht : tail = []
  · simp only [ht, if_true]
    exact ⟨hc, hp, hall, trivial⟩
  · simp only [ht, if_false]
    refine ⟨hc, hp, hall, ?_⟩
    congr 1
    simp

theorem relocate_tail_length (q : List Entry) (j : Nat) :
    (relocate_tail q j).length = q.length - j := by
  simp only [relocate_tail, List.length_map, List.length_take, List.length_append,
    List.length_drop, List.length_range]
  omega

theorem chars_ne_nil (n : Nat) (h : 0 < n) : chars n ≠ [] := by
  intro hc
  have := chars_length n
  rw [hc] at this
  simp at this
  omega

theorem submit_loop_files_small (rnd : Nat → Nat) (q : List Entry) (s : Packing)
    (h : ∀ e ∈ q, total_size e.2 ≤ ACCSP_MAX_COMMAND_SIZE) :
    (submit_loop rnd q s).1.response_large_files = s.response_large_files := by
  induction q generalizing s with
  | nil => rfl
  | cons e q ih =>
    have he := h e (List.mem_cons_self _ _)
    have hnb : ¬ (total_size e.2 > ACCSP_MAX_COMMAND_SIZE) := by omega
    rw [submit_loop]
    cases hs : submit_entry rnd e s with
    | none => rfl
    | some s1 =>
      simp only
      rw [ih s1 (fun x hx => h x (List.mem_cons_of_mem _ hx))]
      unfold submit_entry at hs
      simp only [hnb, if_false] at hs
      split at hs
      · cases hs
        rfl
      · split at hs
        · cases hs
          rfl
        · cases hs

theorem submit_commands_files (rnd : Nat → Nat) (response : Mem) (q : List Entry) :
    (submit_commands rnd response q).response_large_files
      = (submit_loop rnd q ⟨⟨response, 0, 0, []⟩, []⟩).1.response_large_files := by
  unfold submit_commands
  cases h : (submit_loop rnd q ⟨⟨response, 0, 0, []⟩, []⟩).2 <;> simp [h]

/-- The queue of the failing input: eight `data_from_script` entries of 16384 chars each. -/
theorem eight_entries_split :
    accepted 0 (List.replicate 7 (command_fe.data_from_script, [chars 16384]))
      ∧ ((List.replicate 7 (command_fe.data_from_script, [chars 16384])).map wire_size).sum
          = 114709
      ∧ rejects 114709 (command_fe.data_from_script, [chars 16384])
      ∧ (List.replicate 7 (command_fe.data_from_script, [chars 16384])).filter has_parts
          = List.replicate 7 (command_fe.data_from_script, [chars 16384])
      ∧ List.replicate 8 (command_fe.data_from_script, [chars 16384])
          = List.replicate 7 (command_fe.data_from_script, [chars 16384])
            ++ [(command_fe.data_from_script, [chars 16384])] := by
  have hne : chars 16384 ≠ [] := chars_ne_nil _ (by decide)
  have hj : (join1 [chars 16384]).length = 16384 := by simp [join1, chars_length]
  have hts : total_size [chars 16384] = 16384 := by rw [total_size_eq, hj]
  obtain ⟨h1, h2⟩ := accepted_of_small 0
    (List.replicate 7 (command_fe.data_from_script, [chars 16384]))
    (fun e he => by rw [(List.mem_replicate.1 he).2]; simp)
    (fun e he => by rw [(List.mem_replicate.1 he).2]; simp [hj, ACCSP_MAX_COMMAND_SIZE])
    (by simp [List.map_replicate, List.sum_replicate, hj, ACCSP_FRAME_SIZE])
  refine ⟨h1, ?_, ?_, ?_, ?_⟩
  · rw [h2]
    simp [List.map_replicate, List.sum_replicate, hj]
  · rw [rejects_small 114709 (command_fe.data_from_script, [chars 16384])
      (by simp [hts, ACCSP_MAX_COMMAND_SIZE])]
    simp [hts, ACCSP_FRAME_SIZE]
  · apply filter_has_parts_of_all
    intro e he
    rw [(List.mem_replicate.1 he).2]
    simp
  · exact List.replicate_succ' 7 _

/-- Whenever the loop stops behind at least one entry and before the end of the queue, the last
slot that is kept points at storage released by `resize`. -/
theorem relocate_tail_released (q : List Entry) (j : Nat) (h0 : 0 < j) (hj : j < q.length) :
    none ∈ relocate_tail q j := by
  have hlen : ((List.range q.length).drop j).length = q.length - j := by simp
  have hmoved : ((List.range q.length).drop j).take (q.length - j)
      = (List.range q.length).drop j := List.take_of_length_le (by simp)
  have hlast1 : q.length - 1 ∈ (List.range q.length).drop j := by
    rw [List.mem_iff_getElem]
    refine ⟨q.length - 1 - j, by simp; omega, ?_⟩
    simp
    omega
  have hlast2 : q.length - 1 ∈ (List.range q.length).drop (q.length - j) := by
    rw [List.mem_iff_getElem]
    refine ⟨j - 1, by simp; omega, ?_⟩
    simp
    omega
  simp only [relocate_tail, hmoved, List.take_left' hlen, List.drop_left' hlen, List.mem_map]
  exact ⟨q.length - 1, hlast1, by rw [if_pos hlast2]⟩

theorem first_entry_accepted (e : Entry) : ¬ rejects 0 e := by
  rintro ⟨-, h⟩
  split at h
  · simp [ACCSP_FRAME_SIZE] at h
  · rename_i hbig
    simp only [ACCSP_FRAME_SIZE, ACCSP_MAX_COMMAND_SIZE] at h hbig
    omega

/-- In this model every call of `submit_commands` that leaves entries behind leaves a kept slot
whose storage has been released: the first entry of a queue always fits, so the kept range and
the destroyed range overlap. -/
theorem deferral_releases_kept_slot (rnd : Nat → Nat) (response : Mem) (q : List Entry)
    (h : (submit_commands rnd response q).response_data ≠ []) :
    none ∈ (submit_commands rnd response q).response_data := by
  obtain ⟨pre, tail, hq, hacc, htail⟩ := exists_accepted_split 0 q
  rw [Nat.zero_add] at htail
  subst hq
  obtain ⟨-, -, -, hdata⟩ := submit_commands_split rnd response pre tail hacc htail
  rw [hdata] at h ⊢
  by_cases ht : tail = []
  · rw [if_pos ht] at h
    exact absurd rfl h
  · rw [if_neg ht]
    rcases htail with h1 | ⟨e, rest, h1, hrej⟩
    · exact absurd h1 ht
    · have hpre : pre ≠ [] := by
        intro hp
        subst hp
        exact first_entry_accepted e (by simpa using hrej)
      apply relocate_tail_released
      · exact List.length_pos.2 hpre
      · rw [h1]
        simp

theorem relocate_tail_eight (q : List Entry) (h : q.length = 8) :
    relocate_tail q 7 = [none] := by
  have hr : List.range 8 = [0, 1, 2, 3, 4, 5, 6, 7] := by decide
  simp [relocate_tail, h, hr]

/-! ## The claims on `set_response` and `submit_commands` -/

/-- C4: a pending queue whose entries all have at least one part and a joined payload of at
most ACCSP_MAX_COMMAND_SIZE chars, with sum (3 + payload) + 1 within ACCSP_FRAME_SIZE, is
packed whole: `submit_commands` returns the number of entries, leaves the queue empty, uses
exactly sum (3 + payload) chars, and decoding the response buffer with the record loop of
`iterate_commands` gives back (code, parts joined by 0x01) for every entry in arrival order. -/
theorem submit_commands_packs_in_order (rnd : Nat → Nat) (response : Mem) (q : List Entry)
    (hparts : ∀ e ∈ q, e.2 ≠ [])
    (hmax : ∀ e ∈ q, (join1 e.2).length ≤ ACCSP_MAX_COMMAND_SIZE)
    (hsum : (q.map (fun e => 3 + (join1 e.2).length)).sum + 1 ≤ ACCSP_FRAME_SIZE) :
    (submit_commands rnd response q).c = q.length
      ∧ (submit_commands rnd response q).response_data = []
      ∧ (submit_commands rnd response q).out.p = (q.map (fun e => 3 + (join1 e.2).length)).sum
      ∧ iterate_from (submit_commands rnd response q).out.response 0 q.length
          = q.map (fun e => (e.1.byte, join1 e.2)) := by
  obtain ⟨hacc, hw⟩ := accepted_of_small 0 q hparts hmax (by omega)
  have hsplit := submit_commands_split rnd response q [] hacc (Or.inl rfl)
  rw [List.append_nil, filter_has_parts_of_all q hparts] at hsplit
  obtain ⟨h1, h2, h3, h4⟩ := hsplit
  refine ⟨h1, by simpa using h4, by rw [h2, hw], ?_⟩
  refine forall2_small _ q _ (fun e he => ?_) h3
  obtain ⟨v, rest, hv⟩ := List.exists_cons_of_ne_nil (hparts e he)
  have := hmax e he
  rw [hv] at this ⊢
  rw [total_size_eq]
  exact this

/-- Witness of C4: a `url` entry and a two-part `reply` entry. -/
theorem submit_commands_packs_in_order_witness :
    (submit_commands (fun _ => 0) (fun _ => 0)
        [(command_fe.url, [[104, 105]]), (command_fe.reply, [[49], [120, 121]])]).c = 2
      ∧ iterate_from (submit_commands (fun _ => 0) (fun _ => 0)
          [(command_fe.url, [[104, 105]]), (command_fe.reply, [[49], [120, 121]])]).out.response
          0 2 = [(85, [104, 105]), (1, [49, 1, 120, 121])] := by
  have h := submit_commands_packs_in_order (fun _ => 0) (fun _ => 0)
    [(command_fe.url, [[104, 105]]), (command_fe.reply, [[49], [120, 121]])]
    (by decide) (by decide) (by decide)
  exact ⟨h.1, h.2.2.2⟩

/-- C3 (the code at the failing input): with eight pending entries of 16384 chars each the
eighth does not fit; `submit_commands` writes seven records and keeps one slot, and the payload
storage that this slot points at has been released by the destructors run in `resize`: the
deferred entry is not kept unchanged. -/
theorem submit_commands_deferred_slot_released :
    (submit_commands (fun _ => 0) (fun _ => 0)
        (List.replicate 8 (command_fe.data_from_script, [chars 16384]))).c = 7
      ∧ (submit_commands (fun _ => 0) (fun _ => 0)
          (List.replicate 8 (command_fe.data_from_script, [chars 16384]))).response_data
        = [none] := by
  obtain ⟨hacc, hsum, hrej, hfil, hq⟩ := eight_entries_split
  rw [hq]
  obtain ⟨hc, -, -, hdata⟩ := submit_commands_split (fun _ => 0) (fun _ => 0) _
    [(command_fe.data_from_script, [chars 16384])] hacc
    (Or.inr ⟨_, [], rfl, by rw [hsum]; exact hrej⟩)
  refine ⟨by rw [hc, hfil]; simp, ?_⟩
  rw [hdata, if_neg (by simp)]
  simp only [List.length_replicate]
  exact relocate_tail_eight _ (by simp)

/-- The split made by `submit_commands`: it divides the pending queue into the entries before
the first one that does not fit (all of them when every entry fits) and the rest. Every entry of the
first group that has at least one part is represented in the response buffer by one record, in
queue order: its own record, or a `large_command` descriptor naming an auxiliary mapping
created for it; the returned count is the number of these records; entries without parts get no
record; and the queue keeps as many slots as there are entries in the rest. -/
theorem submit_commands_writes_or_defers (rnd : Nat → Nat) (response : Mem) (q : List Entry) :
    ∃ pre tail, q = pre ++ tail ∧ accepted 0 pre
      ∧ (tail = [] ∨ ∃ e rest, tail = e :: rest ∧ rejects ((pre.map wire_size).sum) e)
      ∧ (submit_commands rnd response q).c = (pre.filter has_parts).length
      ∧ List.Forall₂ (Represents (submit_commands rnd response q).response_large_files)
          (pre.filter has_parts)
          (iterate_from (submit_commands rnd response q).out.response 0
            (submit_commands rnd response q).c)
      ∧ (submit_commands rnd response q).response_data.length = tail.length := by
  obtain ⟨pre, tail, hq, hacc, htail⟩ := exists_accepted_split 0 q
  rw [Nat.zero_add] at htail
  subst hq
  obtain ⟨hc, -, hall, hdata⟩ := submit_commands_split rnd response pre tail hacc htail
  refine ⟨pre, tail, rfl, hacc, htail, hc, by rw [hc]; exact hall, ?_⟩
  rw [hdata]
  split
  · rename_i h
    rw [h]
    rfl
  · rw [relocate_tail_length]
    simp

/-- Counterexample to C6: with eight pending entries of 16384 chars each, the eighth does not
fit in the space left at write offset 114709; it is not sent through the overflow path (no
auxiliary mapping is created) and the batch holds the seven records before it only. -/
theorem nonfitting_entry_not_overflowed :
    rejects 114709 (command_fe.data_from_script, [chars 16384])
      ∧ (submit_commands (fun _ => 0) (fun _ => 0)
          (List.replicate 8 (command_fe.data_from_script, [chars 16384]))).out.p = 114709
      ∧ (submit_commands (fun _ => 0) (fun _ => 0)
          (List.replicate 8 (command_fe.data_from_script, [chars 16384]))).c = 7
      ∧ (submit_commands (fun _ => 0) (fun _ => 0)
          (List.replicate 8 (command_fe.data_from_script, [chars 16384]))).response_large_files
        = [] := by
  obtain ⟨hacc, hsum, hrej, hfil, hq⟩ := eight_entries_split
  have hfiles := submit_loop_files_small (fun _ => 0)
    (List.replicate 8 (command_fe.data_from_script, [chars 16384]))
    ⟨⟨fun _ => 0, 0, 0, []⟩, []⟩
    (fun e he => by
      rw [(List.mem_replicate.1 he).2, total_size_eq]
      simp [join1, chars_length, ACCSP_MAX_COMMAND_SIZE])
  have hf2 : (submit_commands (fun _ => 0) (fun _ => 0)
      (List.replicate 8 (command_fe.data_from_script, [chars 16384]))).response_large_files
      = [] := by
    rw [submit_commands_files]
    exact hfiles
  refine ⟨hrej, ?_, ?_, hf2⟩
  · rw [hq]
    obtain ⟨-, hp, -, -⟩ := submit_commands_split (fun _ => 0) (fun _ => 0) _
      [(command_fe.data_from_script, [chars 16384])] hacc
      (Or.inr ⟨_, [], rfl, by rw [hsum]; exact hrej⟩)
    rw [hp, hsum]
  · rw [hq]
    obtain ⟨hc, -, -, -⟩ := submit_commands_split (fun _ => 0) (fun _ => 0) _
      [(command_fe.data_from_script, [chars 16384])] hacc
      (Or.inr ⟨_, [], rfl, by rw [hsum]; exact hrej⟩)
    rw [hc, hfil]
    simp

/-! ## `sync`: publishing and draining -/

theorem iterate_from_records (m : Mem) (p : Nat) (rs : List (Nat × Bytes))
    (hlen : ∀ r ∈ rs, r.2.length < 65536)
    (hbuf : holds m p (rs.map record_bytes).flatten) :
    iterate_from m p rs.length = rs := by
  induction rs generalizing p with
  | nil => rfl
  | cons r rs ih =>
    rw [List.map_cons, List.flatten_cons, holds_append] at hbuf
    obtain ⟨h1, h2⟩ := hbuf
    rw [List.length_cons, iterate_from_cons m p _ r (hlen r (List.mem_cons_self _ _)) h1]
    have hl : (record_bytes r).length = 3 + r.2.length := by
      simp [record_bytes, le16]
      omega
    rw [hl, ← Nat.add_assoc] at h2
    rw [ih (p + 3 + r.2.length) (fun x hx => hlen x (List.mem_cons_of_mem _ hx)) h2]

theorem feed_log (rs log : List (Nat × Bytes)) :
    feed (fun (l : List (Nat × Bytes)) r => Outcome.returned (l ++ [r])) rs log
      = Outcome.returned (log ++ rs) := by
  induction rs generalizing log with
  | nil => simp [feed]
  | cons r rs ih =>
    rw [feed]
    simp only
    rw [ih]
    simp

/-- C8: for a commands buffer that holds the wire form of `n > 0` records (each payload
shorter than 65536 chars) with `commands_set = n`, and an instance whose browser exists,
the drain of `sync()` hands exactly those records to `control`, in buffer order, and when
`control` has returned from the last one sets `commands_set` to 0 (a callback that only logs
its arguments ends with the list of the records; an exception leaving `control` leaves
`commands_set` as it was). Without a browser nothing is consumed: the record and the state
are left as they are. -/
theorem sync_drain_passes_records {σ : Type} (control : σ → Nat × Bytes → Outcome σ)
    (entry : accsp_wb_entry) (acc : σ) (rs : List (Nat × Bytes))
    (hn : rs ≠ [])
    (hset : entry.commands_set = rs.length)
    (hlen : ∀ r ∈ rs, r.2.length < 65536)
    (hbuf : holds entry.commands 0 (rs.map record_bytes).flatten) :
    sync_drain control true entry acc
        = (match feed control rs acc with
            | .returned a => .returned ({ entry with commands_set := 0 }, a)
            | .raised a => .raised (entry, a))
      ∧ sync_drain (fun (l : List (Nat × Bytes)) r => Outcome.returned (l ++ [r])) true entry []
          = .returned ({ entry with commands_set := 0 }, rs)
      ∧ sync_drain control false entry acc = .returned (entry, acc) := by
  have hpos : entry.commands_set ≠ 0 := by
    rw [hset]
    exact fun h => hn (List.length_eq_zero.1 h)
  have hit : iterate_from entry.commands 0 entry.commands_set = rs := by
    rw [hset]
    exact iterate_from_records _ _ _ hlen hbuf
  refine ⟨?_, ?_, ?_⟩
  · simp only [sync_drain, iterate_commands, if_true, if_neg hpos, hit]
    cases feed control rs acc <;> rfl
  · simp only [sync_drain, iterate_commands, if_true, if_neg hpos, hit, feed_log]
    simp
  · simp [sync_drain]

/-- Witness of C8: a buffer holding a `navigate` record and an `input` record. -/
theorem sync_drain_passes_records_witness :
    sync_drain (fun (l : List (Nat × Bytes)) r => Outcome.returned (l ++ [r])) true
        ⟨2, 0, memcpy (fun _ => 0) 0 [78, 2, 0, 104, 105, 73, 1, 0, 7], fun _ => 0⟩ []
      = .returned (⟨0, 0, memcpy (fun _ => 0) 0 [78, 2, 0, 104, 105, 73, 1, 0, 7], fun _ => 0⟩,
          [(78, [104, 105]), (73, [7])]) :=
  (sync_drain_passes_records (fun (l : List (Nat × Bytes)) r => Outcome.returned (l ++ [r]))
    ⟨2, 0, memcpy (fun _ => 0) 0 [78, 2, 0, 104, 105, 73, 1, 0, 7], fun _ => 0⟩ []
    [(78, [104, 105]), (73, [7])] (by decide) rfl (by decide)
    (holds_memcpy (fun _ => 0) 0 [78, 2, 0, 104, 105, 73, 1, 0, 7])).2.1

/-! ## The reply branch of `control` -/

theorem pair_of_sep (idtxt payload : Bytes) (sep : Nat) (h : sep ∉ idtxt) :
    pair (idtxt ++ sep :: payload) sep = (idtxt, payload) := by
  have hidx : List.indexOf sep (idtxt ++ sep :: payload) = idtxt.length := by
    rw [List.indexOf_append_of_not_mem h, List.indexOf_cons_self]
    rfl
  have hf : find_first_of (idtxt ++ sep :: payload) sep = some idtxt.length := by
    unfold find_first_of
    rw [hidx, if_pos (by simp)]
  unfold pair
  rw [hf]
  simp only
  rw [List.take_left]
  have : idtxt ++ sep :: payload = (idtxt ++ [sep]) ++ payload := by simp
  rw [this, List.drop_left' (by simp)]

/-- C9: with a browser present, a reply command `id 0x01 payload` (the id part free of 0x01
and read by `std::stoull` as `id`) whose id is registered in `awaiting_reply` makes `control`
invoke the registered callback once, with the payload, and remove the id from the table; the
same reply arriving again finds no entry and changes nothing, so the callback is not invoked a
second time; a reply whose id is not in the table invokes nothing and leaves the table (and
everything else) as it was. -/
theorem reply_invokes_once {κ : Type} (other : Control κ → Nat × Bytes → Outcome (Control κ))
    (files : List accsp_mapped) (fuel : Nat) (w : Control κ) (idtxt payload : Bytes) (id : Nat)
    (hb : w.browser = true) (hsep : 1 ∉ idtxt) (hid : stoull idtxt = some id) :
    (∀ fn, w.awaiting_reply id = some fn →
        control other files (fuel + 1) w (1, idtxt ++ 1 :: payload)
            = some (.returned
                { w with awaiting_reply := fun j => if j = id then none else w.awaiting_reply j,
                         invoked := w.invoked ++ [(fn, payload)] })
          ∧ control other files (fuel + 1)
              { w with awaiting_reply := fun j => if j = id then none else w.awaiting_reply j,
                       invoked := w.invoked ++ [(fn, payload)] }
              (1, idtxt ++ 1 :: payload)
            = some (.returned
                { w with awaiting_reply := fun j => if j = id then none else w.awaiting_reply j,
                         invoked := w.invoked ++ [(fn, payload)] }))
      ∧ (w.awaiting_reply id = none →
          control other files (fuel + 1) w (1, idtxt ++ 1 :: payload) = some (.returned w)) := by
  have hp := pair_of_sep idtxt payload 1 hsep
  refine ⟨fun fn hfn => ⟨?_, ?_⟩, fun hnone => ?_⟩
  · simp [control, hb, control_reply, hp, hid, hfn]
  · simp [control, hb, control_reply, hp, hid]
  · simp [control, hb, control_reply, hp, hid, hnone]

/-- Witness of C9: the reply `7 0x01 ok` with callback 42 registered under id 7. -/
theorem reply_invokes_once_witness :
    control (fun (w : Control Nat) _ => Outcome.returned w) [] 1
        ⟨true, fun i => if i = 7 then some 42 else none, 7, [], []⟩ (1, [55, 1, 111, 107])
      = some (.returned
          ⟨true, fun j => if j = 7 then none else (if j = 7 then some 42 else none), 7,
            [(42, [111, 107])], []⟩) :=
  ((reply_invokes_once (fun (w : Control Nat) _ => Outcome.returned w) [] 0
    ⟨true, fun i => if i = 7 then some 42 else none, 7, [], []⟩ [55] [111, 107] 7
    rfl (by decide) (by decide)).1 42 rfl).1

/-! ## The scheduler tick -/

theorem any_key_iff (ws : List (Nat × WebTab)) (id : Nat) :
    ws.any (fun e => e.1 == id) = true ↔ ∃ e, e ∈ ws ∧ e.1 = id := by
  simp [List.any_eq_true]

theorem scan_one_frames (t : Tick) (w : CefWrapper) (id : Nat) :
    (scan_one t w id).frames_ = w.frames_ := by
  unfold scan_one
  split
  · rfl
  · split
    · rfl
    · split <;> rfl

theorem scan_one_other (t : Tick) (w : CefWrapper) (id x : Nat) (hne : id ≠ x)
    (e : Nat × WebTab) (he : e.1 = x) :
    e ∈ (scan_one t w id).windows_ ↔ e ∈ w.windows_ := by
  have hne2 : e.1 ≠ id := by rw [he]; exact fun h => hne h.symm
  unfold scan_one
  split
  · simp only [List.mem_map]
    constructor
    · rintro ⟨e0, h0, h1⟩
      by_cases hid : e0.1 = id
      · rw [if_pos hid] at h1
        exact absurd (by rw [← h1]; exact hid) hne2
      · rw [if_neg hid] at h1
        rw [← h1]
        exact h0
    · intro h
      exact ⟨e, h, by rw [if_neg hne2]⟩
  · split
    · rfl
    · split
      · simp only [List.mem_append, List.mem_singleton]
        constructor
        · rintro (h | h)
          · exact h
          · exact absurd (by rw [h]) hne2
        · exact Or.inl
      · rfl

theorem scan_one_failed (t : Tick) (w : CefWrapper) (id x : Nat) (hne : id ≠ x) :
    x ∈ (scan_one t w id).failed_ ↔ x ∈ w.failed_ := by
  unfold scan_one
  split
  · rfl
  · split
    · rfl
    · split
      · rfl
      · simp only [List.mem_cons]
        constructor
        · rintro (h | h)
          · exact absurd h.symm hne
          · exact h
        · exact Or.inr

theorem scan_one_self (t : Tick) (w : CefWrapper) (x : Nat)
    (hpre : tracked x w ∨ (x ∉ w.failed_ ∧ (t.opens x).isSome = true)) :
    fresh x (scan_one t w x) := by
  unfold scan_one
  by_cases hany : w.windows_.any (fun e => e.1 == x) = true
  · rw [if_pos hany]
    obtain ⟨e0, h0, h1⟩ := (any_key_iff _ _).1 hany
    refine ⟨⟨(e0.1, ⟨w.frames_, e0.2.passthrough_mode⟩), ?_, h1⟩, ?_⟩
    · simp only [List.mem_map]
      exact ⟨e0, h0, by rw [if_pos h1]⟩
    · intro e he hx
      simp only [List.mem_map] at he
      obtain ⟨e1, -, h3⟩ := he
      by_cases hid : e1.1 = x
      · rw [if_pos hid] at h3
        rw [← h3]
      · rw [if_neg hid] at h3
        exact absurd (by rw [h3]; exact hx) hid
  · rw [if_neg hany]
    have hnt : ¬ tracked x w := fun h => hany ((any_key_iff _ _).2 h)
    rcases hpre with h | ⟨hf, ho⟩
    · exact absurd h hnt
    · have hc : w.failed_.contains x = false := by
        simpa using hf
      simp only [hc, Bool.false_eq_true, if_false]
      obtain ⟨pm, hpm⟩ := Option.isSome_iff_exists.1 ho
      rw [hpm]
      refine ⟨⟨(x, ⟨w.frames_, pm⟩), by simp, rfl⟩, ?_⟩
      intro e he hx
      simp only [List.mem_append, List.mem_singleton] at he
      rcases he with he | he
      · exact absurd ⟨e, he, hx⟩ hnt
      · rw [he]

theorem scan_one_fresh (t : Tick) (w : CefWrapper) (id x : Nat) (h : fresh x w) :
    fresh x (scan_one t w id) := by
  by_cases hid : id = x
  · subst hid
    exact scan_one_self t w id (Or.inl h.1)
  · obtain ⟨⟨e0, h0, h1⟩, h2⟩ := h
    refine ⟨⟨e0, (scan_one_other t w id x hid e0 h1).2 h0, h1⟩, ?_⟩
    intro e he hx
    rw [scan_one_frames]
    exact h2 e ((scan_one_other t w id x hid e hx).1 he) hx

theorem scan_fresh (t : Tick) (ids : List Nat) (w : CefWrapper) (x : Nat) (h : fresh x w) :
    fresh x (ids.foldl (scan_one t) w) := by
  induction ids generalizing w with
  | nil => exact h
  | cons id ids ih => exact ih _ (scan_one_fresh t w id x h)

theorem scan_listed (t : Tick) (ids : List Nat) (w : CefWrapper) (x : Nat) (hx : x ∈ ids)
    (hpre : tracked x w ∨ (x ∉ w.failed_ ∧ (t.opens x).isSome = true)) :
    fresh x (ids.foldl (scan_one t) w) := by
  induction ids generalizing w with
  | nil => simp at hx
  | cons id ids ih =>
    rw [List.foldl_cons]
    by_cases hid : id = x
    · subst hid
      exact scan_fresh t ids _ id (scan_one_self t w id hpre)
    · have hx2 : x ∈ ids := by
        rcases List.mem_cons.1 hx with h | h
        · exact absurd h.symm hid
        · exact h
      apply ih _ hx2
      rcases hpre with ⟨e0, h0, h1⟩ | ⟨hf, ho⟩
      · exact Or.inl ⟨e0, (scan_one_other t w id x hid e0 h1).2 h0, h1⟩
      · exact Or.inr ⟨fun h => hf ((scan_one_failed t w id x hid).1 h), ho⟩

theorem scan_unlisted (t : Tick) (ids : List Nat) (w : CefWrapper) (x : Nat) (hx : x ∉ ids) :
    (ids.foldl (scan_one t) w).frames_ = w.frames_
      ∧ ∀ e, e.1 = x → (e ∈ (ids.foldl (scan_one t) w).windows_ ↔ e ∈ w.windows_) := by
  induction ids generalizing w with
  | nil => exact ⟨rfl, fun _ _ => Iff.rfl⟩
  | cons id ids ih =>
    rw [List.foldl_cons]
    have hid : id ≠ x := fun h => hx (by rw [h]; exact List.mem_cons_self _ _)
    obtain ⟨h1, h2⟩ := ih (scan_one t w id) (fun h => hx (List.mem_cons_of_mem _ h))
    refine ⟨by rw [h1, scan_one_frames], fun e he => ?_⟩
    rw [h2 e he, scan_one_other t w id x hid e he]

theorem scan_frames (t : Tick) (ids : List Nat) (w : CefWrapper) :
    (ids.foldl (scan_one t) w).frames_ = w.frames_ := by
  induction ids generalizing w with
  | nil => rfl
  | cons id ids ih => rw [List.foldl_cons, ih, scan_one_frames]

theorem sweep_quiet (t : Tick) (f : Nat) (ws : List (Nat × WebTab))
    (hq : ∀ id, t.update_raises id = false) :
    ∃ nf, sweep t f ws = .returned (ws.filter (fun e => e.2.last_frame = f), nf) := by
  induction ws with
  | nil => exact ⟨false, rfl⟩
  | cons e ws ih =>
    obtain ⟨nf, h⟩ := ih
    by_cases he : e.2.last_frame = f
    · refine ⟨!e.2.passthrough_mode || nf, ?_⟩
      simp [sweep, he, hq, h]
    · refine ⟨nf, ?_⟩
      simp [sweep, he, h]

theorem frame_quiet (t : Tick) (w : CefWrapper) (hq : ∀ id, t.update_raises id = false) :
    ∃ w1, frame t w = .returned w1
      ∧ w1.frames_ = w.frames_ + 1
      ∧ w1.windows_ = ((scanned t).foldl (scan_one t) w).windows_.filter
          (fun e => e.2.last_frame = w.frames_) := by
  obtain ⟨nf, h⟩ := sweep_quiet t ((scanned t).foldl (scan_one t) w).frames_
    ((scanned t).foldl (scan_one t) w).windows_ hq
  unfold frame
  simp only [h]
  refine ⟨_, rfl, ?_, ?_⟩
  · simp [scan_frames]
  · simp [scan_frames]

theorem sweep_returned (t : Tick) (f : Nat) (ws kept : List (Nat × WebTab)) (nf : Bool)
    (h : sweep t f ws = .returned (kept, nf)) :
    kept = ws.filter (fun e => e.2.last_frame = f) := by
  induction ws generalizing kept nf with
  | nil =>
    simp only [sweep, Outcome.returned.injEq, Prod.mk.injEq] at h
    rw [← h.1]
    rfl
  | cons e ws ih =>
    by_cases he : e.2.last_frame = f
    · rw [sweep, if_pos he] at h
      by_cases hr : t.update_raises e.1 = true
      · rw [if_pos hr] at h
        cases h
      · rw [if_neg hr] at h
        cases hs : sweep t f ws with
        | returned p =>
          obtain ⟨k2, nf2⟩ := p
          rw [hs] at h
          simp only [Outcome.returned.injEq, Prod.mk.injEq] at h
          rw [← h.1, ih k2 nf2 hs]
          simp [List.filter_cons, he]
        | raised p =>
          rw [hs] at h
          cases h
    · rw [sweep, if_neg he] at h
      rw [ih kept nf h]
      simp [List.filter_cons, he]

theorem frame_returned (t : Tick) (w w1 : CefWrapper) (h : frame t w = .returned w1) :
    w1.frames_ = w.frames_ + 1
      ∧ w1.windows_ = ((scanned t).foldl (scan_one t) w).windows_.filter
          (fun e => e.2.last_frame = w.frames_) := by
  unfold frame at h
  cases hs : sweep t ((scanned t).foldl (scan_one t) w).frames_
      ((scanned t).foldl (scan_one t) w).windows_ with
  | returned p =>
    obtain ⟨kept, nf⟩ := p
    have hk := sweep_returned _ _ _ _ _ hs
    simp only [hs, Outcome.returned.injEq] at h
    rw [← h]
    simp only [scan_frames] at hk ⊢
    exact ⟨trivial, hk⟩
  | raised p =>
    simp only [hs] at h
    cases h

theorem frame_listed (t : Tick) (w w1 : CefWrapper) (x : Nat)
    (h : frame t w = .returned w1) (hx : x ∈ scanned t)
    (hpre : tracked x w ∨ (x ∉ w.failed_ ∧ (t.opens x).isSome = true)) :
    tracked x w1 ∧ stale x w1 := by
  obtain ⟨h2, h3⟩ := frame_returned t w w1 h
  obtain ⟨⟨e0, h4, h5⟩, h6⟩ := scan_listed t (scanned t) w x hx hpre
  rw [scan_frames] at h6
  refine ⟨⟨e0, ?_, h5⟩, ?_⟩
  · rw [h3, List.mem_filter]
    exact ⟨h4, by simpa using h6 e0 h4 h5⟩
  · intro e he _
    rw [h3, List.mem_filter] at he
    have : e.2.last_frame = w.frames_ := by simpa using he.2
    rw [h2, this]
    omega

theorem frame_unlisted (t : Tick) (w w1 : CefWrapper) (x : Nat)
    (h : frame t w = .returned w1) (hx : x ∉ scanned t) (hs : stale x w) :
    ¬ tracked x w1 := by
  obtain ⟨-, h3⟩ := frame_returned t w w1 h
  obtain ⟨-, h5⟩ := scan_unlisted t (scanned t) w x hx
  rintro ⟨e, he, hex⟩
  rw [h3, List.mem_filter] at he
  have hmem := (h5 e hex).1 he.1
  exact hs e hmem hex (by simpa using he.2)

theorem after_ticks_succ (ticks : Nat → Tick) (w0 w1 : CefWrapper) (n : Nat)
    (h : after_ticks ticks w0 (n + 1) = some w1) :
    ∃ w, after_ticks ticks w0 n = some w ∧ frame (ticks n) w = .returned w1 := by
  rw [after_ticks] at h
  cases hw : after_ticks ticks w0 n with
  | none =>
    rw [hw] at h
    cases h
  | some w =>
    rw [hw] at h
    simp only at h
    cases hf : frame (ticks n) w with
    | returned w2 =>
      rw [hf] at h
      simp only [Option.some.injEq] at h
      exact ⟨w, rfl, by rw [hf, h]⟩
    | raised w2 =>
      rw [hf] at h
      cases h

theorem after_ticks_quiet (ticks : Nat → Tick) (w0 : CefWrapper)
    (hq : ∀ n id, (ticks n).update_raises id = false) (n : Nat) :
    after_ticks ticks w0 n ≠ none := by
  induction n with
  | zero => simp [after_ticks]
  | succ n ih =>
    obtain ⟨w, hw⟩ := Option.ne_none_iff_exists'.1 ih
    obtain ⟨w1, h1, -⟩ := frame_quiet (ticks n) w (hq n)
    rw [after_ticks, hw]
    simp [h1]

/-- C10: take a run of ticks in which no tick lets an exception escape, and an instance `x`
that is not in `failed_` at the start, is visited by the directory loop in every tick before
`k` (`k > 0`), its creation succeeding at the first of them, and is not visited from tick `k`
on. Then `x` is tracked after every tick before `k` and is not tracked after tick `k` nor after
any later tick: it is removed once, during tick `k`, and not created again. -/
theorem instance_removed_once (ticks : Nat → Tick) (w0 : CefWrapper) (x k : Nat)
    (hk : 0 < k)
    (hrun : ∀ n, after_ticks ticks w0 n ≠ none)
    (hnf : x ∉ w0.failed_)
    (hopen : ((ticks 0).opens x).isSome = true)
    (hin : ∀ n, n < k → x ∈ scanned (ticks n))
    (hout : ∀ n, k ≤ n → x ∉ scanned (ticks n)) :
    (∀ n, n < k → ∃ w, after_ticks ticks w0 (n + 1) = some w ∧ tracked x w)
      ∧ (∀ n, k ≤ n → ∃ w, after_ticks ticks w0 (n + 1) = some w ∧ ¬ tracked x w) := by
  have hA : ∀ n, n < k →
      ∃ w, after_ticks ticks w0 (n + 1) = some w ∧ tracked x w ∧ stale x w := by
    intro n
    induction n with
    | zero =>
      intro _
      obtain ⟨w1, hw1⟩ := Option.ne_none_iff_exists'.1 (hrun 1)
      obtain ⟨w, hw, hf⟩ := after_ticks_succ ticks w0 w1 0 hw1
      simp only [after_ticks, Option.some.injEq] at hw
      subst hw
      obtain ⟨h2, h3⟩ := frame_listed (ticks 0) _ w1 x hf (hin 0 hk) (Or.inr ⟨hnf, hopen⟩)
      exact ⟨w1, hw1, h2, h3⟩
    | succ n ih =>
      intro hn
      obtain ⟨w, hw, ht, -⟩ := ih (by omega)
      obtain ⟨w1, hw1⟩ := Option.ne_none_iff_exists'.1 (hrun (n + 1 + 1))
      obtain ⟨w2, hw2, hf⟩ := after_ticks_succ ticks w0 w1 (n + 1) hw1
      rw [hw] at hw2
      simp only [Option.some.injEq] at hw2
      subst hw2
      obtain ⟨h2, h3⟩ := frame_listed (ticks (n + 1)) _ w1 x hf (hin _ hn) (Or.inl ht)
      exact ⟨w1, hw1, h2, h3⟩
  have hB : ∀ d, ∃ w, after_ticks ticks w0 (k + d + 1) = some w ∧ ¬ tracked x w := by
    intro d
    induction d with
    | zero =>
      obtain ⟨w, hw, -, hs⟩ := hA (k - 1) (by omega)
      rw [show k - 1 + 1 = k by omega] at hw
      obtain ⟨w1, hw1⟩ := Option.ne_none_iff_exists'.1 (hrun (k + 0 + 1))
      obtain ⟨w2, hw2, hf⟩ := after_ticks_succ ticks w0 w1 (k + 0) hw1
      rw [Nat.add_zero, hw] at hw2
      simp only [Option.some.injEq] at hw2
      subst hw2
      exact ⟨w1, hw1, frame_unlisted (ticks k) _ w1 x hf (hout k (le_refl _)) hs⟩
    | succ d ih =>
      obtain ⟨w, hw, hnt⟩ := ih
      obtain ⟨w1, hw1⟩ := Option.ne_none_iff_exists'.1 (hrun (k + d + 1 + 1))
      obtain ⟨w2, hw2, hf⟩ := after_ticks_succ ticks w0 w1 (k + d + 1) hw1
      rw [hw] at hw2
      simp only [Option.some.injEq] at hw2
      subst hw2
      exact ⟨w1, hw1, frame_unlisted (ticks (k + d + 1)) _ w1 x hf (hout _ (by omega))
        (fun e he hex => absurd ⟨e, he, hex⟩ hnt)⟩
  refine ⟨fun n hn => ?_, fun n hn => ?_⟩
  · obtain ⟨w, hw, ht, -⟩ := hA n hn
    exact ⟨w, hw, ht⟩
  · obtain ⟨w, hw, hnt⟩ := hB (n - k)
    rw [show k + (n - k) + 1 = n + 1 by omega] at hw
    exact ⟨w, hw, hnt⟩

/-- Witness of C10: instance 5 is listed in ticks 0 and 1 and not listed from tick 2 on; it is
tracked after tick 1 and gone after tick 2. -/
theorem instance_removed_once_witness :
    (∃ w, after_ticks
        (fun n => if n < 2 then ⟨1, [5], fun _ => some false, fun _ => false⟩
          else ⟨0, [5], fun _ => some false, fun _ => false⟩)
        ⟨[], [], 0, 0⟩ (1 + 1) = some w ∧ tracked 5 w)
      ∧ (∃ w, after_ticks
          (fun n => if n < 2 then ⟨1, [5], fun _ => some false, fun _ => false⟩
            else ⟨0, [5], fun _ => some false, fun _ => false⟩)
          ⟨[], [], 0, 0⟩ (2 + 1) = some w ∧ ¬ tracked 5 w) := by
  have h := instance_removed_once
    (fun n => if n < 2 then ⟨1, [5], fun _ => some false, fun _ => false⟩
      else ⟨0, [5], fun _ => some false, fun _ => false⟩)
    ⟨[], [], 0, 0⟩ 5 2 (by decide)
    (after_ticks_quiet _ _ (by intro n id; by_cases hn : n < 2 <;> simp [hn]))
    (by simp) (by simp)
    (by intro n hn; simp [hn, scanned, FLAG_WRITING_TABS])
    (by intro n hn; simp [Nat.not_lt.2 hn, scanned, FLAG_WRITING_TABS])
  exact ⟨h.1 1 (by decide), h.2 2 (le_refl _)⟩

/-! ## Segment names and the access tier -/

theorem digitChar_value (m : Nat) (h : m < 10) : (Nat.digitChar m).toNat - 48 = m := by
  interval_cases m <;> rfl

theorem toDigitsCore_value (fuel : Nat) : ∀ (n : Nat) (ds : List Char), n < fuel →
    ((Nat.toDigitsCore 10 fuel n ds).map Char.toNat).foldl (fun a d => a * 10 + (d - 48)) 0
      = (ds.map Char.toNat).foldl (fun a d => a * 10 + (d - 48)) n := by
  induction fuel with
  | zero => intro n ds h; omega
  | succ fuel ih =>
    intro n ds h
    unfold Nat.toDigitsCore
    simp only
    by_cases h0 : n / 10 = 0
    · rw [if_pos h0]
      simp only [List.map_cons, List.foldl_cons, Nat.zero_mul, Nat.zero_add]
      rw [digitChar_value _ (Nat.mod_lt _ (by decide))]
      congr 1
      omega
    · rw [if_neg h0]
      rw [ih (n / 10) _ (by omega)]
      simp only [List.map_cons, List.foldl_cons]
      rw [digitChar_value _ (Nat.mod_lt _ (by decide))]
      congr 1
      omega

theorem to_string_value (n : Nat) :
    (to_string n).foldl (fun a d => a * 10 + (d - 48)) 0 = n := by
  unfold to_string Nat.toDigits
  rw [toDigitsCore_value (n + 1) n [] (by omega)]
  rfl

theorem to_string_injective (a b : Nat) (h : to_string a = to_string b) : a = b := by
  rw [← to_string_value a, ← to_string_value b, h]

theorem text_limited : text "AcTools.CSP.Limited.CEF.v0."
    = [65, 99, 84, 111, 111, 108, 115, 46, 67, 83, 80, 46, 76, 105, 109, 105, 116, 101, 100, 46,
        67, 69, 70, 46, 118, 48, 46] := by
  decide

theorem text_full : text "AcTools.CSP.CEF.v0."
    = [65, 99, 84, 111, 111, 108, 115, 46, 67, 83, 80, 46, 67, 69, 70, 46, 118, 48, 46] := by
  decide

theorem text_limited_head : text "AcTools.CSP.Limited."
    = [65, 99, 84, 111, 111, 108, 115, 46, 67, 83, 80, 46, 76, 105, 109, 105, 116, 101, 100,
        46] := by
  decide

/-- C11: the access tier of an instance is a function of the parity of its id. The segment
name is `AcTools.CSP.Limited.CEF.v0.<id>` for an odd id and `AcTools.CSP.CEF.v0.<id>` for an even
one (`<id>` in decimal), the instance gets full access exactly when the id is even, and two
different ids never get the same segment name. -/
theorem segment_name_by_parity (id : Nat) :
    segment_name id
        = (if id % 2 = 1 then text "AcTools.CSP.Limited.CEF.v0." else text "AcTools.CSP.CEF.v0.")
          ++ to_string id
      ∧ (has_full_access (segment_name id) = true ↔ id % 2 = 0)
      ∧ ∀ id2, segment_name id = segment_name id2 → id = id2 := by
  have hname : ∀ n, segment_name n
      = (if n % 2 = 1 then text "AcTools.CSP.Limited.CEF.v0." else text "AcTools.CSP.CEF.v0.")
          ++ to_string n := by
    intro n
    unfold segment_name
    rw [Nat.and_one_is_mod]
    rcases Nat.mod_two_eq_zero_or_one n with h | h <;> simp [h]
  have h12 : ∀ n, (segment_name n)[12]? = some (if n % 2 = 1 then 76 else 67) := by
    intro n
    rw [hname n]
    by_cases h : n % 2 = 1
    · simp [h, text_limited]
    · simp [h, text_full]
  refine ⟨hname id, ?_, ?_⟩
  · rw [hname id]
    unfold has_full_access starts_with
    rw [text_limited_head]
    rcases Nat.mod_two_eq_zero_or_one id with h | h
    · simp [h, text_full]
    · simp [h, text_limited]
  · intro id2 h
    have ha := h12 id
    have hb := h12 id2
    rw [h] at ha
    have hpar : (id % 2 = 1) ↔ (id2 % 2 = 1) := by
      rw [ha] at hb
      by_cases h1 : id % 2 = 1 <;> by_cases h2 : id2 % 2 = 1 <;> simp [h1, h2] at hb ⊢
    rw [hname id, hname id2] at h
    by_cases h1 : id % 2 = 1
    · rw [if_pos h1, if_pos (hpar.1 h1)] at h
      exact to_string_injective _ _ (List.append_cancel_left h)
    · rw [if_neg h1, if_neg (fun h2 => h1 (hpar.2 h2))] at h
      exact to_string_injective _ _ (List.append_cancel_left h)

/-- Witness of C11: the ids 6 and 7. -/
theorem segment_name_by_parity_witness :
    segment_name 7 = text "AcTools.CSP.Limited.CEF.v0.7"
      ∧ segment_name 6 = text "AcTools.CSP.CEF.v0.6"
      ∧ has_full_access (segment_name 7) = false
      ∧ has_full_access (segment_name 6) = true
      ∧ segment_name 6 ≠ segment_name 7 :=
  ⟨by decide, by decide, by decide, by decide,
    fun h => absurd ((segment_name_by_parity 6).2.2 7 h) (by decide)⟩
/-! ## Quads and layers -/

/-- C13: over exact arithmetic, for every normalized rectangle `(x, y, w, h)` and both values
of `flip`, the four vertices of `create_quad` are at `(2x-1, 1-2y)`, `(2(x+w)-1, 1-2y)`,
`(2x-1, 1-2(y+h))`, `(2(x+w)-1, 1-2(y+h))` (all with z = 1). For the full rectangle the corner
(0,0) is at (-1, 1) and the corner (1,1) at (1, -1), flip on or off. The texture coordinates
are (0,0), (1,0), (0,1), (1,1) without flip; with flip each vertex keeps its position and its
u and gets v exchanged (0 for 1, 1 for 0). -/
theorem create_quad_clip_space (x y w h : ℚ) (flip : Bool) :
    (create_quad x y w h flip).map (fun v => v.pos)
        = [(2 * x - 1, 1 - 2 * y, 1), (2 * (x + w) - 1, 1 - 2 * y, 1),
            (2 * x - 1, 1 - 2 * (y + h), 1), (2 * (x + w) - 1, 1 - 2 * (y + h), 1)]
      ∧ (create_quad 0 0 1 1 flip).map (fun v => v.pos)
        = [(-1, 1, 1), (1, 1, 1), (-1, -1, 1), (1, -1, 1)]
      ∧ (create_quad x y w h false).map (fun v => v.tex) = [(0, 0), (1, 0), (0, 1), (1, 1)]
      ∧ (create_quad x y w h true).map (fun v => v.tex)
        = ((create_quad x y w h false).map (fun v => v.tex)).map (fun t => (t.1, 1 - t.2))
      ∧ (create_quad x y w h true).map (fun v => v.pos)
        = (create_quad x y w h false).map (fun v => v.pos) := by
  refine ⟨?_, ?_, ?_, ?_, ?_⟩
  · have e1 : (2 * x - 1 : ℚ) = x * 2 - 1 := by ring
    have e2 : (1 - 2 * y : ℚ) = 1 - y * 2 := by ring
    have e3 : (2 * (x + w) - 1 : ℚ) = x * 2 - 1 + w * 2 := by ring
    have e4 : (1 - 2 * (y + h) : ℚ) = 1 - y * 2 - h * 2 := by ring
    rw [e1, e2, e3, e4]
    cases flip <;> rfl
  · cases flip <;> simp [create_quad] <;> norm_num
  · simp [create_quad]
  · simp [create_quad]
  · simp [create_quad]

/-- C14, the part that fails: a layer whose bounds have width 1 and height 0 (zero area) is
drawn by `Composition::render`. -/
theorem zero_height_layer_is_drawn :
    (Composition.add_layer ⟨[]⟩ ⟨1, ⟨0, 0, 1, 0⟩, false⟩).render
      = [⟨1, ⟨0, 0, 1, 0⟩, false⟩] := by
  simp [Composition.add_layer, Composition.render, render_loop, Layer.active]

theorem render_loop_filter (ls : List Layer) :
    render_loop ls = ls.filter (fun l => decide (l.bounds_.width > 0)) := by
  induction ls with
  | nil => rfl
  | cons l ls ih =>
    by_cases h : l.bounds_.width > 0 <;> simp [render_loop, Layer.active, h, ih]

theorem add_layer_layers (added : List Layer) (c : Composition) :
    (added.foldl Composition.add_layer c).layers_ = c.layers_ ++ added := by
  induction added generalizing c with
  | nil => simp
  | cons l ls ih => simp [List.foldl_cons, ih, Composition.add_layer]

/-- C14, amended: `Composition::render` draws exactly the layers whose bounds have a width
above 0, whatever their height, in the order in which they were passed to `add_layer`. -/
theorem render_draws_positive_width (added : List Layer) :
    (added.foldl Composition.add_layer ⟨[]⟩).render
      = added.filter (fun l => decide (l.bounds_.width > 0)) := by
  unfold Composition.render
  rw [render_loop_filter, add_layer_layers]
  rfl

/-! ## Exit statuses -/

/-- C15, the part that fails: the exit made for the directory sentinel `count == -2` has
status 0. -/
theorem sentinel_exit_status_is_zero : kill_all (-2) = some 0 := by
  decide

/-- C15, amended: the statuses of the four exits are pairwise distinct: 57 for the unhandled
exception filter, 20 for a failed import of the shared texture, 29 for the crash circuit
breaker (its only exit status), 0 for the directory sentinel `count == -2` (the only count
`kill_all` exits for); the first three are not zero. -/
theorem exit_statuses_distinct :
    [some exception_filter, on_gpu_paint false,
        (OnRenderProcessTerminated 0 ⟨false, 0, 7⟩).2.status, kill_all (-2)]
        = [some 57, some 20, some 29, some 0]
      ∧ [some exception_filter, on_gpu_paint false,
          (OnRenderProcessTerminated 0 ⟨false, 0, 7⟩).2.status, kill_all (-2)].Nodup
      ∧ (∀ now w, (OnRenderProcessTerminated now w).2.status = none
          ∨ (OnRenderProcessTerminated now w).2.status = some 29)
      ∧ (∀ v, kill_all v = some 0 ↔ v = -2)
      ∧ (∀ v, kill_all v = none ∨ kill_all v = some 0)
      ∧ (∀ opened, on_gpu_paint opened = none ∨ on_gpu_paint opened = some 20) := by
  refine ⟨by decide, by decide, ?_, ?_, ?_, by decide⟩
  · intro now w
    unfold OnRenderProcessTerminated
    by_cases h1 : w.suspended = true
    · simp [h1, Terminated.status]
    · by_cases h2 : now - w.last_crash_time > 30
      · simp [h1, h2, Terminated.status]
      · by_cases h3 : (w.crash_counter + 1) % 4294967296 > 7
        · simp [h1, h2, h3, Terminated.status]
        · simp [h1, h2, h3, Terminated.status]
  · intro v
    unfold kill_all
    by_cases h : v = -2 <;> simp [h]
  · intro v
    unfold kill_all
    by_cases h : v = -2 <;> simp [h]

/-! ## The exports of `paint_data` -/

theorem update_next (pd : paint_data) (created : Option Nat) (pre : Bytes) (next : Nat) :
    (pd.update created pre next).next
        = (if (next + 1) % 18446744073709551616 > 1024 then 1
            else (next + 1) % 18446744073709551616)
      ∧ (pd.update created pre next).pd.current = (pd.update created pre next).next
      ∧ (pd.update created pre next).name
        = pre ++ [46] ++ to_string (pd.update created pre next).next := by
  simp [paint_data.update]

theorem paint_call_next (pre : Bytes) (s : paint_data × Nat) (c : PaintCall) (h : s.2 ≤ 1024) :
    (paint_call pre s c).2 ≤ 1024 := by
  cases c with
  | update created =>
    simp only [paint_call, (update_next s.1 created pre s.2).1]
    split <;> omega
  | clean => exact h
  | reset => exact h

theorem view_calls_next (pre : Bytes) (cs : List (Bool × PaintCall)) :
    (view_calls pre cs).2 ≤ 1024 := by
  unfold view_calls
  have key : ∀ (cs : List (Bool × PaintCall)) (s : (paint_data × paint_data) × Nat),
      s.2 ≤ 1024 → (cs.foldl (view_call pre) s).2 ≤ 1024 := by
    intro cs
    induction cs with
    | nil => intro s h; exact h
    | cons c cs ih =>
      intro s h
      apply ih
      obtain ⟨b, c⟩ := c
      cases b
      · exact paint_call_next pre (s.1.1, s.2) c h
      · exact paint_call_next pre (s.1.2, s.2) c h
  exact key cs _ (Nat.zero_le _)

/-- C16: the rotating export index stays in [1, 1024]. In a `WebView`, whose `prefix_index`
starts at 0, after any sequence of calls on `pd_main` and `pd_popup` the counter is at most
1024, and an `update` made then, on any `paint_data`, exports under the name
`<prefix>.<index>` (`<index>` in decimal, also stored in `current` and left in the counter)
with `1 <= index <= 1024`, where `index` is the previous counter plus one, and 1 after
1024. -/
theorem export_index_rotates (pre : Bytes) (cs : List (Bool × PaintCall)) (pd : paint_data)
    (created : Option Nat) :
    (view_calls pre cs).2 ≤ 1024
      ∧ 1 ≤ (pd.update created pre (view_calls pre cs).2).next
      ∧ (pd.update created pre (view_calls pre cs).2).next ≤ 1024
      ∧ (pd.update created pre (view_calls pre cs).2).next
          = (if (view_calls pre cs).2 = 1024 then 1 else (view_calls pre cs).2 + 1)
      ∧ (pd.update created pre (view_calls pre cs).2).name
          = pre ++ [46] ++ to_string (pd.update created pre (view_calls pre cs).2).next
      ∧ (pd.update created pre (view_calls pre cs).2).pd.current
          = (pd.update created pre (view_calls pre cs).2).next := by
  have h := view_calls_next pre cs
  generalize (view_calls pre cs).2 = n at h ⊢
  obtain ⟨hn, hc, hname⟩ := update_next pd created pre n
  refine ⟨h, ?_, ?_, ?_, hname, hc⟩
  · rw [hn]
    split <;> omega
  · rw [hn]
    split <;> omega
  · rw [hn]
    by_cases h1 : n = 1024
    · simp [h1]
    · rw [if_neg h1, Nat.mod_eq_of_lt (by omega), if_neg (by omega)]
theorem supplied_cons (c : PaintCall) (cs : List PaintCall) :
    supplied (c :: cs) = supplied [c] ++ supplied cs := by
  cases c with
  | update created => cases created <;> rfl
  | clean => rfl
  | reset => rfl

theorem paint_call_ring (pre : Bytes) (pd : paint_data) (n : Nat) (c : PaintCall) (S : List Nat)
    (hlen : pd.kept_alive.length ≤ 5)
    (hcount : ∀ x, pd.handles.count x = S.count x)
    (hsub : (pd.kept_alive ++ pd.reshared.toList).Sublist S) :
    (paint_call pre (pd, n) c).1.kept_alive.length ≤ 5
      ∧ (∀ x, (paint_call pre (pd, n) c).1.handles.count x = (S ++ supplied [c]).count x)
      ∧ ((paint_call pre (pd, n) c).1.kept_alive
          ++ (paint_call pre (pd, n) c).1.reshared.toList).Sublist (S ++ supplied [c]) := by
  obtain ⟨reshared, current, kept, closed⟩ := pd
  simp only [paint_data.handles] at hcount hsub hlen ⊢
  cases c with
  | clean =>
    refine ⟨by simp [paint_call, paint_data.clean], fun x => ?_, ?_⟩
    · have := hcount x
      simp only [paint_call, paint_data.clean, supplied, List.count_append, List.count_nil,
        List.append_nil] at this ⊢
      omega
    · simp only [paint_call, paint_data.clean, supplied, List.append_nil, List.nil_append]
      exact (List.sublist_append_right _ _).trans hsub
  | reset =>
    refine ⟨by simp [paint_call, paint_data.reset, paint_data.clean], fun x => ?_, ?_⟩
    · have := hcount x
      simp only [paint_call, paint_data.reset, paint_data.clean, supplied, List.count_append,
        List.count_nil, List.append_nil, Option.toList] at this ⊢
      omega
    · simp [paint_call, paint_data.reset, paint_data.clean, supplied]
  | update created =>
    have hs : supplied [PaintCall.update created] = created.toList := by
      cases created <;> rfl
    rw [hs]
    cases reshared with
    | none =>
      refine ⟨?_, fun x => ?_, ?_⟩
      · simpa [paint_call, paint_data.update] using hlen
      · have := hcount x
        cases created <;>
          simp only [paint_call, paint_data.update, List.count_append, List.count_nil,
            List.append_nil, Option.toList] at this ⊢ <;> omega
      · cases created with
        | none => simpa [paint_call, paint_data.update] using hsub
        | some h =>
          simp only [paint_call, paint_data.update, Option.toList, List.append_nil] at hsub ⊢
          exact List.Sublist.append hsub (List.Sublist.refl _)
    | some h =>
      by_cases hfull : kept.length > 4
      · cases kept with
        | nil => simp at hfull
        | cons k ks =>
          have hfull2 : 4 < ks.length + 1 := by simpa using hfull
          refine ⟨?_, fun x => ?_, ?_⟩
          · simp [paint_call, paint_data.update, hfull2] at hlen ⊢
            omega
          · have := hcount x
            cases created <;>
              simp only [paint_call, paint_data.update, hfull, if_true, List.count_append,
                List.count_nil, List.append_nil, Option.toList, List.take_succ_cons,
                List.take_zero, List.drop_succ_cons, List.drop_zero, List.count_cons,
                List.count_singleton] at this ⊢ <;> omega
          · have h1 : (ks ++ [h]).Sublist S :=
              (List.Sublist.append (List.sublist_cons_self k ks) (List.Sublist.refl [h])).trans
                (by simpa using hsub)
            cases created with
            | none =>
              simpa [paint_call, paint_data.update, hfull2] using h1
            | some c =>
              simp only [paint_call, paint_data.update, hfull, if_true, Option.toList,
                List.drop_succ_cons, List.drop_zero]
              exact List.Sublist.append h1 (List.Sublist.refl _)
      · refine ⟨?_, fun x => ?_, ?_⟩
        · simp [paint_call, paint_data.update, hfull]
          omega
        · have := hcount x
          cases created <;>
            simp only [paint_call, paint_data.update, hfull, if_false, List.count_append,
              List.count_nil, List.append_nil, Option.toList, List.count_cons,
              List.count_singleton] at this ⊢ <;> omega
        · have h1 : (kept ++ [h]).Sublist S := by simpa using hsub
          cases created with
          | none =>
            simpa [paint_call, paint_data.update, hfull] using h1
          | some c =>
            simp only [paint_call, paint_data.update, hfull, if_false, Option.toList]
            exact List.Sublist.append h1 (List.Sublist.refl _)

theorem paint_calls_ring (pre : Bytes) (cs : List PaintCall) :
    ∀ (pd : paint_data) (n : Nat) (S : List Nat), pd.kept_alive.length ≤ 5 →
      (∀ x, pd.handles.count x = S.count x) →
      (pd.kept_alive ++ pd.reshared.toList).Sublist S →
      (paint_calls pre cs (pd, n)).1.kept_alive.length ≤ 5
        ∧ (∀ x, (paint_calls pre cs (pd, n)).1.handles.count x = (S ++ supplied cs).count x)
        ∧ ((paint_calls pre cs (pd, n)).1.kept_alive
            ++ (paint_calls pre cs (pd, n)).1.reshared.toList).Sublist (S ++ supplied cs) := by
  induction cs with
  | nil =>
    intro pd n S h1 h2 h3
    simpa [paint_calls, supplied] using ⟨h1, h2, h3⟩
  | cons c cs ih =>
    intro pd n S h1 h2 h3
    obtain ⟨g1, g2, g3⟩ := paint_call_ring pre pd n c S h1 h2 h3
    have := ih (paint_call pre (pd, n) c).1 (paint_call pre (pd, n) c).2 (S ++ supplied [c])
      g1 g2 g3
    rw [supplied_cons c cs, ← List.append_assoc]
    exact this

/-- C17: the ring of superseded export handles is bounded and FIFO. Take any sequence of
`update`, `clean` and `reset` calls on a new `paint_data`, the handles created along it being
pairwise different. Then `kept_alive` holds at most 5 handles; the ring followed by the
current export lists handles in the order of their creation, so the front of the ring is its
oldest handle; the ring, the current export and the closed handles together hold every
created handle exactly once, so no handle is closed twice and none is closed while it is in
the ring or is the current export; an `update` that finds the ring full (5 handles, with a
current export to retire) closes the front handle, removes it and puts the retired export at
the back; and after `reset` every created handle has been closed exactly once. -/
theorem kept_alive_ring_bounded_fifo (pre : Bytes) (cs : List PaintCall) (n : Nat)
    (hfresh : (supplied cs).Nodup) :
    (paint_calls pre cs (⟨none, 0, [], []⟩, n)).1.kept_alive.length ≤ 5
      ∧ ((paint_calls pre cs (⟨none, 0, [], []⟩, n)).1.kept_alive
          ++ (paint_calls pre cs (⟨none, 0, [], []⟩, n)).1.reshared.toList).Sublist (supplied cs)
      ∧ (paint_calls pre cs (⟨none, 0, [], []⟩, n)).1.handles.Perm (supplied cs)
      ∧ (paint_calls pre cs (⟨none, 0, [], []⟩, n)).1.handles.Nodup
      ∧ (∀ created m k ks h,
          (paint_calls pre cs (⟨none, 0, [], []⟩, n)).1.kept_alive = k :: ks →
          ks.length = 4 →
          (paint_calls pre cs (⟨none, 0, [], []⟩, n)).1.reshared = some h →
          ((paint_calls pre cs (⟨none, 0, [], []⟩, n)).1.update created pre m).pd.kept_alive
              = ks ++ [h]
            ∧ ((paint_calls pre cs (⟨none, 0, [], []⟩, n)).1.update created pre m).pd.closed
              = (paint_calls pre cs (⟨none, 0, [], []⟩, n)).1.closed ++ [k])
      ∧ (paint_calls pre cs (⟨none, 0, [], []⟩, n)).1.reset.closed.Perm (supplied cs)
      ∧ (paint_calls pre cs (⟨none, 0, [], []⟩, n)).1.reset.kept_alive = []
      ∧ (paint_calls pre cs (⟨none, 0, [], []⟩, n)).1.reset.reshared = none := by
  obtain ⟨h1, h2, h3⟩ := paint_calls_ring pre cs ⟨none, 0, [], []⟩ n [] (by simp)
    (by simp [paint_data.handles]) (by simp)
  rw [List.nil_append] at h2 h3
  have hperm : (paint_calls pre cs (⟨none, 0, [], []⟩, n)).1.handles.Perm (supplied cs) :=
    List.perm_iff_count.2 h2
  generalize (paint_calls pre cs (⟨none, 0, [], []⟩, n)).1 = P at h1 h2 h3 hperm ⊢
  refine ⟨h1, h3, hperm, hperm.nodup_iff.2 hfresh, ?_, ?_, rfl, rfl⟩
  · intro created m k ks h hk hl hr
    simp [paint_data.update, hr, hk, hl]
  · refine List.perm_iff_count.2 (fun x => ?_)
    rw [← h2 x]
    simp only [paint_data.reset, paint_data.clean, paint_data.handles, List.count_append]
    omega

/-- Witness of C17: seven updates that create the handles 1 to 7. The seventh finds the ring
full with 1 at its front: it closes 1 and leaves 2 to 6 in the ring, 7 being the export. -/
theorem kept_alive_ring_bounded_fifo_witness :
    (paint_calls [] [.update (some 1), .update (some 2), .update (some 3), .update (some 4),
        .update (some 5), .update (some 6), .update (some 7)] (⟨none, 0, [], []⟩, 0)).1
        = ⟨some 7, 7, [2, 3, 4, 5, 6], [1]⟩
      ∧ (paint_calls [] [.update (some 1), .update (some 2), .update (some 3), .update (some 4),
          .update (some 5), .update (some 6), .update (some 7)]
          (⟨none, 0, [], []⟩, 0)).1.handles.Nodup :=
  ⟨by decide,
    (kept_alive_ring_bounded_fifo [] [.update (some 1), .update (some 2), .update (some 3),
      .update (some 4), .update (some 5), .update (some 6), .update (some 7)] 0
      (by decide)).2.2.2.1⟩

/-! ## The flush of a tick -/

/-- C19 (the code at the failing input): the instances 2 and 4 are both live and listed;
the commands buffer of instance 2 holds one `reply` record with the payload `x 0x01 y`, whose id
part is not a number. `control` lets the exception of `std::stoull` escape; so does the drain
of `sync()`, leaving `commands_set` at 1; `frame()` has no handler around `update()`, so the
tick does not complete (no flush, `frames_` not incremented, instance 4 after it in the
map neither updated nor rendered), the scheduler loop ends, and `main` returns 10. The same
reply arriving inside a large command is caught within `control`. -/
theorem reply_error_ends_scheduler :
    control (fun (w : Control Nat) _ => Outcome.returned w) [] 1
        ⟨true, fun _ => none, 0, [], []⟩ (1, [120, 1, 121])
        = some (.raised ⟨true, fun _ => none, 0, [], []⟩)
      ∧ (sync_drain
          (fun (s : Control Nat) r =>
            (control (fun (w : Control Nat) _ => Outcome.returned w) [] 1 s r).getD (.returned s))
          true ⟨1, 0, memcpy (fun _ => 0) 0 [1, 3, 0, 120, 1, 121], fun _ => 0⟩
          ⟨true, fun _ => none, 0, [], []⟩).escaped = true
      ∧ frame
          ⟨2, [2, 4], fun _ => some false,
            fun id => id == 2 && (sync_drain
              (fun (s : Control Nat) r =>
                (control (fun (w : Control Nat) _ => Outcome.returned w) [] 1 s r).getD
                  (.returned s))
              true ⟨1, 0, memcpy (fun _ => 0) 0 [1, 3, 0, 120, 1, 121], fun _ => 0⟩
              ⟨true, fun _ => none, 0, [], []⟩).escaped⟩
          ⟨[(2, ⟨5, false⟩), (4, ⟨5, false⟩)], [], 6, 0⟩
        = .raised ⟨[(2, ⟨6, false⟩), (4, ⟨6, false⟩)], [], 6, 0⟩
      ∧ after_ticks
          (fun _ => ⟨2, [2, 4], fun _ => some false,
            fun id => id == 2 && (sync_drain
              (fun (s : Control Nat) r =>
                (control (fun (w : Control Nat) _ => Outcome.returned w) [] 1 s r).getD
                  (.returned s))
              true ⟨1, 0, memcpy (fun _ => 0) 0 [1, 3, 0, 120, 1, 121], fun _ => 0⟩
              ⟨true, fun _ => none, 0, [], []⟩).escaped⟩)
          ⟨[(2, ⟨5, false⟩), (4, ⟨5, false⟩)], [], 6, 0⟩ 1 = none
      ∧ main_returns true = 10
      ∧ control (fun (w : Control Nat) _ => Outcome.returned w)
          [⟨9, 8, memcpy (fun _ => 0) 0 [1, 120, 1, 121]⟩] 2
          ⟨true, fun _ => none, 0, [], []⟩ (2, [9, 0, 0, 0, 4, 0, 0, 0])
        = some (.returned ⟨true, fun _ => none, 0, [], []⟩) := by
  refine ⟨rfl, rfl, rfl, rfl, rfl, rfl⟩

/-- C20 (the code at the failing input): a new instance (`last_crash_time` and
`crash_counter` 0) whose render process crashes 8 times within 7 seconds, at the times 1000
to 1007. The first crash opens the window and sets the counter to 0, the next seven count 1
to 7, and `++crash_counter > 7` is false each time: all 8 calls reload the browser and none
exits. The process exits with status 29 only on a 9th crash in the window (here at 1008),
while the comment on the test reads `8 crashes in a half a minute`. In general a call for a
running instance exits exactly when it falls within 30 seconds of the crash that opened the
window and finds the counter at 7 or more (below 2^32 - 1). -/
theorem breaker_trips_on_ninth_crash :
    crashes [1000, 1001, 1002, 1003, 1004, 1005, 1006, 1007] ⟨false, 0, 0⟩
        = [.reloaded, .reloaded, .reloaded, .reloaded, .reloaded, .reloaded, .reloaded,
            .reloaded]
      ∧ crashes [1000, 1001, 1002, 1003, 1004, 1005, 1006, 1007, 1008] ⟨false, 0, 0⟩
        = [.reloaded, .reloaded, .reloaded, .reloaded, .reloaded, .reloaded, .reloaded,
            .reloaded, .exited 29]
      ∧ ∀ now last counter, counter < 4294967295 →
          ((OnRenderProcessTerminated now ⟨false, last, counter⟩).2 = .exited 29
            ↔ now - last ≤ 30 ∧ 7 ≤ counter) := by
  refine ⟨by decide, by decide, ?_⟩
  intro now last counter hc
  unfold OnRenderProcessTerminated
  have hm : (counter + 1) % 4294967296 = counter + 1 := Nat.mod_eq_of_lt (by omega)
  by_cases h2 : now - last > 30
  · simp only [Bool.false_eq_true, if_false, if_pos h2]
    constructor
    · intro h
      cases h
    · intro h
      omega
  · by_cases h3 : counter + 1 > 7
    · simp only [Bool.false_eq_true, if_false, if_neg h2, hm, if_pos h3, true_iff]
      omega
    · simp only [Bool.false_eq_true, if_false, if_neg h2, hm, if_neg h3]
      constructor
      · intro h
        cases h
      · intro h
        omega

/-- Witness of C20: the ninth crash of the window, at 1008 with the window opened at 1000 and
the counter at 7, exits with status 29. -/
theorem breaker_trips_on_ninth_crash_witness :
    (OnRenderProcessTerminated 1008 ⟨false, 1000, 7⟩).2 = .exited 29 :=
  (breaker_trips_on_ninth_crash.2.2 1008 1000 7 (by decide)).2 ⟨by decide, by decide⟩

/-! ## Commands of an instance without full access -/

/-- C12, the part that fails: an instance without full access that receives `html` with the
reply id `7` appends a `reply` entry (the id, an empty text) to the pending queue. -/
theorem denied_html_is_answered :
    (control_other (fun (w : Guarded Unit) _ => w) ⟨false, [], false, [], false, ()⟩ 72 [55]).map
        (fun w => w.response_data)
      = some [(command_fe.reply, [[55], []])] := by
  decide

theorem set_reply_appends (response_data : List Entry) (reply_id value : Bytes)
    (h : reply_id ≠ []) :
    set_reply response_data reply_id value
      = response_data ++ [(command_fe.reply, [reply_id, value])] := by
  cases reply_id with
  | nil => exact absurd rfl h
  | cons a l => simp [set_reply, set_response_v, is_command_overriding]

/-- C12, amended: for an instance without full access whose browser exists (`control` past
the `safe_browser()` guard), whatever the statements behind the check do. The commands `inject_js`, `set_headers`, `execute`, `fill_form`, `write_cookies`,
`command` with the value `print`, and `set_option` for `trackFormData`,
`redirectNonStandardSchemes` and `collectResourceURLs` are silently ignored: the instance
(pending queue, configuration, engine) is left exactly as it was and nothing is raised. The
commands `html` and `text` leave everything but the pending queue as it was and answer: with a
non-empty reply id they append the `reply` entry (id, empty text), with an empty one they
append nothing. The command `read_cookies` whose arguments are id, mode, ... with a mode other
than `count` does the same with the text of an empty table. -/
theorem denied_commands {ε : Type} (effect : Guarded ε → Nat × Bytes → Guarded ε)
    (w : Guarded ε) (key : Nat) (value : Bytes) (hd : w.has_full_access_ = false) :
    ((key = 106 ∨ key = 104 ∨ key = 69 ∨ key = 70 ∨ key = 111
        ∨ (key = 67 ∧ value = text "print")
        ∨ (key = 105 ∧ ((pair value 1).1 = text "trackFormData"
            ∨ (pair value 1).1 = text "redirectNonStandardSchemes"
            ∨ (pair value 1).1 = text "collectResourceURLs"))) →
        control_other effect w key value = some w)
      ∧ (key = 72 ∨ key = 84 →
          control_other effect w key value
              = some { w with response_data := set_reply w.response_data value [] }
            ∧ (value ≠ [] → set_reply w.response_data value []
                = w.response_data ++ [(command_fe.reply, [value, []])])
            ∧ (value = [] → set_reply w.response_data value [] = w.response_data))
      ∧ (key = 99 → ∀ id mode rest,
          split value 1 false false UINT64_MAX = some (id :: mode :: rest) →
          mode ≠ text "count" →
          control_other effect w key value
              = some { w with response_data := set_reply w.response_data id (text "\x7b\x7d") }
            ∧ (id ≠ [] → set_reply w.response_data id (text "\x7b\x7d")
                = w.response_data ++ [(command_fe.reply, [id, text "\x7b\x7d"])])) := by
  have hv : verify_full_access w = false := hd
  refine ⟨?_, ?_, ?_⟩
  · rintro (h | h | h | h | h | ⟨h, hp⟩ | ⟨h, ho⟩)
    · subst h
      simp [control_other, control_codes, configure_control, hv]
    · subst h
      simp [control_other, control_codes, configure_control, hv]
    · subst h
      simp [control_other, control_codes, hv]
    · subst h
      simp [control_other, control_codes, hv]
    · subst h
      simp [control_other, control_codes, hv]
    · subst h
      subst hp
      have c1 : (67 : Nat) ∉ control_codes := by decide
      have c2 : text "print" ∉ [text "undo", text "redo", text "copy", text "cut", text "paste",
          text "delete", text "selectAll"] := by decide
      have c3 : text "print" ≠ text "exitFullscreen" := by decide
      unfold control_other
      rw [if_neg c1, if_pos rfl, if_neg c2, if_neg (by simp [hv]), if_neg c3]
    · subst h
      have e1 : text "trackFormData" ≠ text "ignoreCertificateErrors" := by decide
      have e2 : text "redirectNonStandardSchemes" ≠ text "ignoreCertificateErrors" := by decide
      have e3 : text "redirectNonStandardSchemes" ≠ text "trackFormData" := by decide
      have e4 : text "redirectNonStandardSchemes" ≠ text "redirectNavigation" := by decide
      have e5 : text "collectResourceURLs" ≠ text "ignoreCertificateErrors" := by decide
      have e6 : text "collectResourceURLs" ≠ text "trackFormData" := by decide
      have e7 : text "collectResourceURLs" ≠ text "redirectNavigation" := by decide
      have e8 : text "collectResourceURLs" ≠ text "redirectNonStandardSchemes" := by decide
      rcases ho with ho | ho | ho
      · simp [control_other, control_codes, configure_control, hv, ho, e1]
      · simp [control_other, control_codes, configure_control, hv, ho, e2, e3, e4]
      · simp [control_other, control_codes, configure_control, hv, ho, e5, e6, e7, e8]
  · intro h
    refine ⟨?_, fun hne => set_reply_appends _ _ _ hne, fun he => by simp [set_reply, he]⟩
    rcases h with h | h <;> subst h <;> simp [control_other, control_codes, hv]
  · intro h id mode rest hs hm
    subst h
    refine ⟨?_, fun hne => set_reply_appends _ _ _ hne⟩
    simp [control_other, control_codes, hv, hs, hm]

/-- Witness of C12: without full access `execute` leaves the instance as it was, `text` with
the reply id `7` appends the entry (7, empty text), and `read_cookies` with the arguments
`7`, `basic` and an empty URL appends the entry (7, text of an empty table). -/
theorem denied_commands_witness :
    control_other (fun (w : Guarded Nat) _ => { w with engine := w.engine + 1 })
        ⟨false, [], false, [], false, 0⟩ 69 [97]
        = some ⟨false, [], false, [], false, 0⟩
      ∧ control_other (fun (w : Guarded Nat) _ => { w with engine := w.engine + 1 })
          ⟨false, [], false, [], false, 0⟩ 84 [55]
        = some ⟨false, [(command_fe.reply, [[55], []])], false, [], false, 0⟩
      ∧ control_other (fun (w : Guarded Nat) _ => { w with engine := w.engine + 1 })
          ⟨false, [], false, [], false, 0⟩ 99 [55, 1, 98, 97, 115, 105, 99, 1]
        = some ⟨false, [(command_fe.reply, [[55], [123, 125]])], false, [], false, 0⟩ :=
  ⟨(denied_commands (fun (w : Guarded Nat) _ => { w with engine := w.engine + 1 })
      ⟨false, [], false, [], false, 0⟩ 69 [97] rfl).1 (by decide),
    ((denied_commands (fun (w : Guarded Nat) _ => { w with engine := w.engine + 1 })
      ⟨false, [], false, [], false, 0⟩ 84 [55] rfl).2.1 (by decide)).1,
    ((denied_commands (fun (w : Guarded Nat) _ => { w with engine := w.engine + 1 })
      ⟨false, [], false, [], false, 0⟩ 99 [55, 1, 98, 97, 115, 105, 99, 1] rfl).2.2 rfl
      [55] [98, 97, 115, 105, 99] [[]] (by decide) (by decide)).1⟩

/-! ## Reply ids -/

theorem reply_step_ids {κ : Type} (w : Control κ) (op : ReplyOp κ) (n0 : Nat)
    (hl : w.last_reply_id = n0)
    (hk : ∀ i, w.awaiting_reply i ≠ none → 1 ≤ i ∧ i ≤ n0)
    (hb : n0 + registered [op] < 18446744073709551616) :
    (reply_step w op).last_reply_id = n0 + registered [op]
      ∧ ∀ i, (reply_step w op).awaiting_reply i ≠ none → 1 ≤ i ∧ i ≤ n0 + registered [op] := by
  cases op with
  | await fn =>
    cases fn with
    | none => exact ⟨hl, hk⟩
    | some f =>
      have hb2 : n0 + 1 < 18446744073709551616 := hb
      have hm : (w.last_reply_id + 1) % 18446744073709551616 = n0 + 1 := by
        rw [hl, Nat.mod_eq_of_lt hb2]
      refine ⟨?_, ?_⟩
      · simp only [reply_step, await_reply, hm, registered]
      · intro i hi
        simp only [reply_step, await_reply, hm] at hi
        show 1 ≤ i ∧ i ≤ n0 + 1
        by_cases h : i = n0 + 1
        · omega
        · rw [if_neg h] at hi
          have := hk i hi
          omega
  | reply value =>
    simp only [reply_step, control_reply, registered, Nat.add_zero]
    cases stoull (pair value 1).1 with
    | none => exact ⟨hl, hk⟩
    | some i =>
      simp only
      cases hf : w.awaiting_reply i with
      | none => exact ⟨hl, hk⟩
      | some fn =>
        refine ⟨hl, fun j hj => ?_⟩
        simp only at hj
        by_cases h : j = i
        · rw [if_pos h] at hj
          exact absurd rfl hj
        · rw [if_neg h] at hj
          exact hk j hj

theorem registered_cons {κ : Type} (op : ReplyOp κ) (ops : List (ReplyOp κ)) :
    registered (op :: ops) = registered [op] + registered ops := by
  cases op with
  | await fn =>
    cases fn with
    | none => simp [registered]
    | some f => simp [registered, Nat.add_comm]
  | reply value => simp [registered]

theorem reply_steps_ids {κ : Type} (ops : List (ReplyOp κ)) :
    ∀ (w : Control κ) (n0 : Nat), w.last_reply_id = n0 →
      (∀ i, w.awaiting_reply i ≠ none → 1 ≤ i ∧ i ≤ n0) →
      n0 + registered ops < 18446744073709551616 →
      (ops.foldl reply_step w).last_reply_id = n0 + registered ops
        ∧ ∀ i, (ops.foldl reply_step w).awaiting_reply i ≠ none →
            1 ≤ i ∧ i ≤ n0 + registered ops := by
  induction ops with
  | nil => intro w n0 hl hk _; exact ⟨hl, hk⟩
  | cons op ops ih =>
    intro w n0 hl hk hb
    rw [registered_cons] at hb ⊢
    obtain ⟨h1, h2⟩ := reply_step_ids w op n0 hl hk (by omega)
    have := ih (reply_step w op) (n0 + registered [op]) h1 h2 (by omega)
    rw [List.foldl_cons, ← Nat.add_assoc]
    exact this

/-- C21: reply ids are fresh and strictly increasing. Take a new `WebView` (empty table,
`last_reply_id` 0) and any steps on it (calls of `await_reply`, `reply` commands) of which `n`
registered a callback, `n + 1` below 2^64. The next `await_reply` with a non-null callback
returns the decimal text of `n + 1`: so successive registrations return the texts of 1, 2,
3, ... in that order. That id is not a key of `awaiting_reply` before the call and is mapped
to the given callback after it, the other keys being as before. A call with a null callback
returns the empty string and changes neither the table nor the counter. -/
theorem await_reply_fresh_ids {κ : Type} (browser : Bool) (ops : List (ReplyOp κ)) (f : κ)
    (hb : registered ops + 1 < 18446744073709551616) :
    (await_reply (ops.foldl reply_step ⟨browser, fun _ => none, 0, [], []⟩) (some f)).1
        = to_string (registered ops + 1)
      ∧ (ops.foldl reply_step ⟨browser, fun _ => none, 0, [], []⟩).awaiting_reply
          (registered ops + 1) = none
      ∧ (await_reply (ops.foldl reply_step ⟨browser, fun _ => none, 0, [], []⟩)
          (some f)).2.awaiting_reply (registered ops + 1) = some f
      ∧ (∀ i, i ≠ registered ops + 1 →
          (await_reply (ops.foldl reply_step ⟨browser, fun _ => none, 0, [], []⟩)
            (some f)).2.awaiting_reply i
          = (ops.foldl reply_step ⟨browser, fun _ => none, 0, [], []⟩).awaiting_reply i)
      ∧ (await_reply (ops.foldl reply_step ⟨browser, fun _ => none, 0, [], []⟩)
          (some f)).2.last_reply_id = registered ops + 1
      ∧ await_reply (ops.foldl reply_step ⟨browser, fun _ => none, 0, [], []⟩) none
        = ([], ops.foldl reply_step ⟨browser, fun _ => none, 0, [], []⟩) := by
  obtain ⟨hl, hk⟩ := reply_steps_ids ops ⟨browser, fun _ => none, 0, [], []⟩ 0 rfl
    (fun i hi => absurd rfl hi) (by omega)
  rw [Nat.zero_add] at hl hk
  generalize ops.foldl reply_step ⟨browser, fun _ => none, 0, [], []⟩ = w at hl hk
  have hm : (w.last_reply_id + 1) % 18446744073709551616 = registered ops + 1 := by
    rw [hl, Nat.mod_eq_of_lt hb]
  refine ⟨?_, ?_, ?_, ?_, ?_, rfl⟩
  · simp only [await_reply, hm]
  · by_contra h
    have := hk _ h
    omega
  · simp only [await_reply, hm, if_true]
  · intro i hi
    simp only [await_reply, hm, if_neg hi]
  · simp only [await_reply, hm]

/-- Witness of C21: two registrations (callbacks 40 and 41), the reply to the first, then a
third registration, which gets the id 3. -/
theorem await_reply_fresh_ids_witness :
    (await_reply ([ReplyOp.await (some 40), .await (some 41), .reply [49, 1, 120]].foldl
        reply_step (⟨true, fun _ => none, 0, [], []⟩ : Control Nat)) (some 42)).1 = [51] :=
  (await_reply_fresh_ids true [ReplyOp.await (some 40), .await (some 41), .reply [49, 1, 120]]
    42 (by decide)).1

/-! ## A tick during a directory update, nested large commands, reads and `find` -/

theorem sweep_unmarked (t : Tick) (f : Nat) (ws : List (Nat × WebTab))
    (h : ∀ e ∈ ws, e.2.last_frame ≠ f) : sweep t f ws = .returned ([], false) := by
  induction ws with
  | nil => rfl
  | cons e ws ih =>
    rw [sweep, if_neg (h e (List.mem_cons_self _ _))]
    exact ih (fun x hx => h x (List.mem_cons_of_mem _ hx))

/-- C28 (the code at the failing input): a tick whose directory count is `FLAG_WRITING_TABS`
skips the directory scan, so no instance is marked with the current `frames_`; the loop over
`windows_` that follows is not behind that test and erases every instance that is not
marked. With the instances 2 and 4 tracked (marked in tick 5) and `frames_` at 6, `frame()`
leaves `windows_` empty: both instances are torn down. The same holds for every set of
tracked instances, none of which can carry the mark of a tick that has not run yet. -/
theorem writing_tick_closes_all :
    frame ⟨FLAG_WRITING_TABS, [2, 4], fun _ => some false, fun _ => false⟩
        ⟨[(2, ⟨5, false⟩), (4, ⟨5, false⟩)], [], 6, 0⟩
        = .returned ⟨[], [], 7, 0⟩
      ∧ scanned ⟨FLAG_WRITING_TABS, [2, 4], fun _ => some false, fun _ => false⟩ = []
      ∧ ∀ (t : Tick) (w : CefWrapper), t.count = FLAG_WRITING_TABS →
          (∀ e ∈ w.windows_, e.2.last_frame ≠ w.frames_) →
          frame t w = .returned
            { w with windows_ := [],
                     flushes := if w.frames_ % 512 = 0 then w.flushes + 1 else w.flushes,
                     frames_ := w.frames_ + 1 } := by
  refine ⟨rfl, rfl, ?_⟩
  intro t w hc hm
  have hs : scanned t = [] := by simp [scanned, hc]
  simp only [frame, hs, List.foldl_nil, sweep_unmarked t w.frames_ w.windows_ hm]
  simp

/-- Witness of C28: the general statement at one tracked instance. -/
theorem writing_tick_closes_all_witness :
    frame ⟨FLAG_WRITING_TABS, [2], fun _ => some false, fun _ => false⟩
        ⟨[(2, ⟨5, false⟩)], [], 6, 0⟩
      = .returned ⟨[], [], 7, 0⟩ :=
  writing_tick_closes_all.2.2 ⟨FLAG_WRITING_TABS, [2], fun _ => some false, fun _ => false⟩
    ⟨[(2, ⟨5, false⟩)], [], 6, 0⟩ rfl (by decide)

theorem self_descriptor_decodes_to_itself :
    decode_large [⟨9, 9, memcpy (fun _ => 0) 0 [2, 9, 0, 0, 0, 9, 0, 0, 0]⟩]
        [9, 0, 0, 0, 9, 0, 0, 0]
      = some (2, [9, 0, 0, 0, 9, 0, 0, 0]) := by
  rfl

/-- C27, the part that fails: the auxiliary segment 9 holds the code `large_command` followed
by the descriptor (key 9, size 9) of itself. Decoding that descriptor makes `control` call
itself with the same arguments again: no bound on the depth of the calls is enough for it to
return. -/
theorem self_descriptor_never_returns :
    ¬ ∃ fuel o, control (fun (w : Control Nat) _ => Outcome.returned w)
      [⟨9, 9, memcpy (fun _ => 0) 0 [2, 9, 0, 0, 0, 9, 0, 0, 0]⟩] fuel
      ⟨true, fun _ => none, 0, [], []⟩ (2, [9, 0, 0, 0, 9, 0, 0, 0]) = some o := by
  rintro ⟨fuel, o, h⟩
  have hn : control (fun (w : Control Nat) _ => Outcome.returned w)
      [⟨9, 9, memcpy (fun _ => 0) 0 [2, 9, 0, 0, 0, 9, 0, 0, 0]⟩] fuel
      ⟨true, fun _ => none, 0, [], []⟩ (2, [9, 0, 0, 0, 9, 0, 0, 0]) = none := by
    clear h
    induction fuel with
    | zero => rfl
    | succ fuel ih =>
      rw [control, if_pos rfl, self_descriptor_decodes_to_itself]
      simp only [ih]
  rw [hn] at h
  cases h

/-- C27, amended: decoding a large command returns exactly when the chain of nested large
commands it starts ends: `control` returns within `n` nested calls if and only if, following
the descriptors, a command other than `large_command` (or a descriptor that is not followed:
size 0, no such segment) is reached within `n` steps. In particular, when no auxiliary
segment starts with the `large_command` code, every command returns within two calls. -/
theorem large_command_returns_iff_chain_ends {κ : Type}
    (other : Control κ → Nat × Bytes → Outcome (Control κ)) (files : List accsp_mapped) :
    (∀ (n : Nat) (w : Control κ) (r : Nat × Bytes),
        (∃ o, control other files n w r = some o) ↔ ends_within files n r = true)
      ∧ ((∀ f ∈ files, f.entry 0 ≠ 2) → ∀ (w : Control κ) (r : Nat × Bytes),
          ∃ o, control other files 2 w r = some o) := by
  have key : ∀ (n : Nat) (w : Control κ) (r : Nat × Bytes),
      (∃ o, control other files n w r = some o) ↔ ends_within files n r = true := by
    intro n
    induction n with
    | zero =>
      intro w r
      simp [control, ends_within]
    | succ n ih =>
      intro w r
      obtain ⟨key, value⟩ := r
      by_cases hk : key = 2
      · subst hk
        cases hd : decode_large files value with
        | none => simp [control, ends_within, hd]
        | some inner =>
          simp only [control, ends_within, hd, if_true]
          rw [← ih w inner]
          cases hc : control other files n w inner with
          | none => simp
          | some o => cases o <;> simp
      · simp only [control, ends_within, if_neg hk]
        by_cases hb : w.browser = true
        · by_cases h1 : key = 1 <;> simp [hb, h1]
        · simp [hb]
  refine ⟨key, fun hf w r => ?_⟩
  rw [key]
  obtain ⟨k, value⟩ := r
  by_cases hk : k = 2
  · subst hk
    cases hd : decode_large files value with
    | none => simp [ends_within, hd]
    | some inner =>
      have hne : inner.1 ≠ 2 := by
        unfold decode_large at hd
        simp only at hd
        split at hd
        · cases hm : open_mapping files (load32 value 0) with
          | none => simp [hm] at hd
          | some data =>
            simp only [hm] at hd
            split at hd
            · cases hd
              have hmem : data ∈ files := by
                unfold open_mapping at hm
                exact List.mem_reverse.1 (List.mem_of_find?_eq_some hm)
              exact hf data hmem
            · cases hd
        · cases hd
      obtain ⟨ik, iv⟩ := inner
      simp [ends_within, hd, show ik ≠ 2 from hne]
  · simp [ends_within, hk]

/-- Witness of C27: a segment that holds a `reply` command is decoded within two calls. -/
theorem large_command_returns_iff_chain_ends_witness :
    ∃ o, control (fun (w : Control Nat) _ => Outcome.returned w)
      [⟨9, 8, memcpy (fun _ => 0) 0 [1, 55, 1, 121]⟩] 2
      ⟨true, fun _ => none, 0, [], []⟩ (2, [9, 0, 0, 0, 4, 0, 0, 0]) = some o :=
  (large_command_returns_iff_chain_ends (fun (w : Control Nat) _ => Outcome.returned w)
    [⟨9, 8, memcpy (fun _ => 0) 0 [1, 55, 1, 121]⟩]).2
    (by intro f hf; simp at hf; subst hf; decide)
    ⟨true, fun _ => none, 0, [], []⟩ (2, [9, 0, 0, 0, 4, 0, 0, 0])

/-- C26, the part that fails: the client writes `commands_set = 2` and two records whose
length fields are both 65535 (at the offsets 1 and 65539, the rest of the buffer zero). The
second record starts at 65538 and its payload view covers the offsets 65541 to 131075:
`iterate_commands` follows the length field past the end of the 131072-byte buffer. -/
theorem length_field_followed_past_buffer :
    (65541, 65535) ∈ iterate_reads
        (memcpy (memcpy (fun _ => 0) 1 [255, 255]) 65539 [255, 255]) 0 2
      ∧ ¬ (65541 + 65535 ≤ ACCSP_FRAME_SIZE) := by
  decide

theorem iterate_reads_cons (m : Mem) (p n : Nat) (r : Nat × Bytes) (hlen : r.2.length < 65536)
    (h : holds m p (record_bytes r)) :
    iterate_reads m p (n + 1)
      = (p, 1) :: (p + 1, 2) :: (p + 3, r.2.length)
          :: iterate_reads m (p + 3 + r.2.length) n := by
  have hrec : record_bytes r
      = r.1 :: (r.2.length % 256) :: (r.2.length / 256 % 256) :: r.2 := by
    simp [record_bytes, le16]
  rw [hrec, holds_cons, holds_cons, holds_cons] at h
  obtain ⟨-, h0, h1, -⟩ := h
  have hs : load16 m (p + 1) = r.2.length := by
    unfold load16
    rw [h0, h1]
    exact le16_load _ hlen
  rw [iterate_reads]
  simp only [hs]

theorem iterate_reads_within (m : Mem) (rs : List (Nat × Bytes)) :
    ∀ p, (∀ r ∈ rs, r.2.length < 65536) →
      holds m p (rs.map record_bytes).flatten →
      ∀ x ∈ iterate_reads m p rs.length,
        p ≤ x.1 ∧ x.1 + x.2 ≤ p + (rs.map record_bytes).flatten.length := by
  induction rs with
  | nil => intro p _ _ x hx; simp [iterate_reads] at hx
  | cons r rs ih =>
    intro p hlen hbuf x hx
    rw [List.map_cons, List.flatten_cons, holds_append] at hbuf
    obtain ⟨h1, h2⟩ := hbuf
    have hl : (record_bytes r).length = 3 + r.2.length := by
      simp [record_bytes, le16]
      omega
    rw [List.length_cons, iterate_reads_cons m p _ r (hlen r (List.mem_cons_self _ _)) h1] at hx
    rw [List.map_cons, List.flatten_cons, List.length_append, hl]
    rw [hl, ← Nat.add_assoc] at h2
    simp only [List.mem_cons] at hx
    rcases hx with hx | hx | hx | hx
    · subst hx
      simp only
      omega
    · subst hx
      simp only
      omega
    · subst hx
      simp only
      omega
    · have := ih (p + 3 + r.2.length) (fun y hy => hlen y (List.mem_cons_of_mem _ hy)) h2 x hx
      omega

/-- C26, amended: `iterate_commands` makes no bounds check; it stays inside the commands
buffer when the client has written what the protocol asks for. If the buffer holds the wire
form of `n` records that lie within its 131072 bytes (each payload shorter than 65536 chars)
and `commands_set` is `n`, then every code, length field and payload view that
`iterate_commands` reads lies inside the buffer. -/
theorem iterate_commands_reads_within (m : Mem) (rs : List (Nat × Bytes))
    (hlen : ∀ r ∈ rs, r.2.length < 65536)
    (hbuf : holds m 0 (rs.map record_bytes).flatten)
    (hfit : (rs.map record_bytes).flatten.length ≤ ACCSP_FRAME_SIZE) :
    ∀ x ∈ iterate_reads m 0 rs.length, x.1 + x.2 ≤ ACCSP_FRAME_SIZE := by
  intro x hx
  have := iterate_reads_within m rs 0 hlen hbuf x hx
  omega

/-- Witness of C26: a buffer holding a `navigate` record and an `input` record. -/
theorem iterate_commands_reads_within_witness :
    (iterate_reads (memcpy (fun _ => 0) 0 [78, 2, 0, 104, 105, 73, 1, 0, 7]) 0 2).all
        (fun x => decide (x.1 + x.2 ≤ ACCSP_FRAME_SIZE)) = true
      ∧ iterate_reads (memcpy (fun _ => 0) 0 [78, 2, 0, 104, 105, 73, 1, 0, 7]) 0 2
        = [(0, 1), (1, 2), (3, 2), (5, 1), (6, 2), (8, 1)] :=
  ⟨List.all_eq_true.2 (fun x hx => decide_eq_true
      (iterate_commands_reads_within (memcpy (fun _ => 0) 0 [78, 2, 0, 104, 105, 73, 1, 0, 7])
        [(78, [104, 105]), (73, [7])] (by decide)
        (holds_memcpy (fun _ => 0) 0 [78, 2, 0, 104, 105, 73, 1, 0, 7]) (by decide) x hx)),
    by decide⟩

/-- C24 (the code at the failing inputs): when the needle would end exactly at the end of
the view, `find_cstrl` returns the value of `memcmp(...) == 0` as the position. Searching
`zz` in `ab` from 0 returns 0, though `zz` does not occur (the claim: `npos`), and so does
searching the closing script tag in the 9 chars `alert(1);`, as `inject_js` does; searching
`cd` in `abcd` from 2 returns 1, though `cd` occurs at 2 and not at 1 (the claim: 2). In
general, for a start index inside the view and a needle that ends exactly at the end of the
view, the result is 1 or 0 whatever the position is. A needle that ends before the end of
the view is searched as the claim says: `abcd` holds `bc` at 1. -/
theorem find_returns_memcmp_flag :
    find [97, 98] [122, 122] 0 = 0
      ∧ find (text "alert(1);") (text "</script>") 0 = 0
      ∧ find [97, 98, 99, 100] [99, 100] 2 = 1
      ∧ find [97, 98, 99, 100] [98, 99] 0 = 1
      ∧ find [97, 98, 99, 100] [122] 0 = npos
      ∧ ∀ s c index, index < s.length → index + c.length = s.length →
          find s c index = (if (s.drop index).take c.length = c then 1 else 0) := by
  refine ⟨by decide, by decide, by decide, by decide, by decide, ?_⟩
  intro s c index h1 h2
  simp only [find, find_cstrl, if_neg (Nat.not_le.2 h1), h2, if_true, gt_iff_lt,
    Nat.lt_irrefl, if_false]

/-- Witness of C24: the general statement at the view `abcd`, the needle `cd` and the start
index 2. -/
theorem find_returns_memcmp_flag_witness :
    find [97, 98, 99, 100] [99, 100] 2 = 1 :=
  find_returns_memcmp_flag.2.2.2.2.2 [97, 98, 99, 100] [99, 100] 2 (by decide) (by decide)

/-! ## Where `submit_commands` writes -/

theorem copy_parts_true_within (B : Nat) (parts : List Bytes) :
    ∀ o : Out, (∀ x ∈ o.written, x.1 + x.2 ≤ B) → o.p + (tail_join parts).length + 1 ≤ B →
      ∀ x ∈ (copy_parts true parts o).written, x.1 + x.2 ≤ B := by
  induction parts with
  | nil => intro o h _; simpa [copy_parts] using h
  | cons v rest ih =>
    intro o h hb
    rw [tail_join_cons] at hb
    simp only [List.length_cons, List.length_append] at hb
    rw [copy_parts]
    simp only [if_true, Out.poke]
    apply ih
    · intro x hx
      simp only [List.mem_cons] at hx
      rcases hx with hx | hx | hx
      · subst hx
        simp only [List.length_append, List.length_singleton]
        omega
      · subst hx
        simp only [List.length_singleton]
        omega
      · exact h x hx
    · simp only
      omega

theorem copy_parts_false_within (B : Nat) (parts : List Bytes) (o : Out)
    (h : ∀ x ∈ o.written, x.1 + x.2 ≤ B) (hb : o.p + total_size parts + 1 ≤ B) :
    ∀ x ∈ (copy_parts false parts o).written, x.1 + x.2 ≤ B := by
  cases parts with
  | nil => simpa [copy_parts] using h
  | cons v rest =>
    rw [total_size_eq, join1_cons, List.length_append] at hb
    rw [copy_parts]
    simp only [Bool.false_eq_true, if_false, Out.poke]
    apply copy_parts_true_within
    · intro x hx
      simp only [List.mem_cons] at hx
      rcases hx with hx | hx
      · subst hx
        simp only [List.length_append, List.length_singleton]
        omega
      · exact h x hx
    · simp only
      omega

theorem add_entry_v_within (k : command_fe) (a : List Bytes) (o : Out)
    (h : ∀ x ∈ o.written, x.1 + x.2 ≤ ACCSP_FRAME_SIZE) :
    ∀ x ∈ (add_entry_v k a (total_size a) o).2.written, x.1 + x.2 ≤ ACCSP_FRAME_SIZE := by
  unfold add_entry_v
  by_cases hfull : o.p + total_size a + 4 > ACCSP_FRAME_SIZE
  · rw [if_pos hfull]
    exact h
  · rw [if_neg hfull]
    simp only
    apply copy_parts_false_within
    · intro x hx
      simp only [Out.poke, List.mem_cons] at hx
      rcases hx with hx | hx | hx
      · subst hx
        simp only [le16, List.length_cons, List.length_nil]
        omega
      · subst hx
        simp only [List.length_singleton]
        omega
      · exact h x hx
    · simp only
      omega

theorem add_entry_1_within (k : command_fe) (v : Bytes) (o : Out)
    (h : ∀ x ∈ o.written, x.1 + x.2 ≤ ACCSP_FRAME_SIZE) :
    ∀ x ∈ (add_entry_1 k v o).2.written, x.1 + x.2 ≤ ACCSP_FRAME_SIZE := by
  unfold add_entry_1
  by_cases hfull : o.p + v.length + 4 > ACCSP_FRAME_SIZE
  · rw [if_pos hfull]
    exact h
  · rw [if_neg hfull]
    intro x hx
    simp only [Out.poke, List.mem_cons] at hx
    rcases hx with hx | hx | hx | hx
    · subst hx
      simp only [List.length_append, List.length_singleton]
      omega
    · subst hx
      simp only [le16, List.length_cons, List.length_nil]
      omega
    · subst hx
      simp only [List.length_singleton]
      omega
    · exact h x hx

theorem submit_entry_within (rnd : Nat → Nat) (i : Entry) (s s1 : Packing)
    (h : ∀ x ∈ s.out.written, x.1 + x.2 ≤ ACCSP_FRAME_SIZE)
    (hs : submit_entry rnd i s = some s1) :
    ∀ x ∈ s1.out.written, x.1 + x.2 ≤ ACCSP_FRAME_SIZE := by
  unfold submit_entry at hs
  by_cases he : i.2.isEmpty = true
  · rw [if_pos he] at hs
    cases hs
    exact h
  · rw [if_neg he] at hs
    by_cases hl : total_size i.2 > ACCSP_MAX_COMMAND_SIZE
    · rw [if_pos hl] at hs
      by_cases hp : s.out.p + 20 > ACCSP_FRAME_SIZE
      · rw [if_pos hp] at hs
        cases hs
      · rw [if_neg hp] at hs
        simp only [Option.some.injEq] at hs
        rw [← hs]
        exact add_entry_1_within _ _ _ h
    · rw [if_neg hl] at hs
      simp only at hs
      split at hs
      · simp only [Option.some.injEq] at hs
        rw [← hs]
        exact add_entry_v_within _ _ _ h
      · cases hs

theorem submit_loop_within (rnd : Nat → Nat) (q : List Entry) :
    ∀ s : Packing, (∀ x ∈ s.out.written, x.1 + x.2 ≤ ACCSP_FRAME_SIZE) →
      ∀ x ∈ (submit_loop rnd q s).1.out.written, x.1 + x.2 ≤ ACCSP_FRAME_SIZE := by
  induction q with
  | nil => intro s h; exact h
  | cons i rest ih =>
    intro s h
    rw [submit_loop]
    cases hs : submit_entry rnd i s with
    | none => exact h
    | some s1 => exact ih s1 (submit_entry_within rnd i s s1 h hs)

/-- C25: for every pending queue and every content of the response buffer, every store that
`submit_commands` makes into the response buffer (record code, length field, separator, and
each part together with the terminating NUL copied after it) ends at or below offset
`ACCSP_FRAME_SIZE` = 131072, so every char written has an offset below it; and whenever the
`p + 20 > ACCSP_FRAME_SIZE` guard lets a large message through, `add_entry_1` accepts its
8-char descriptor. -/
theorem submit_commands_writes_within (rnd : Nat → Nat) (response : Mem)
    (response_data : List Entry) :
    (∀ x ∈ (submit_commands rnd response response_data).out.written,
        x.1 + x.2 ≤ ACCSP_FRAME_SIZE)
      ∧ ACCSP_FRAME_SIZE = 131072
      ∧ ∀ (key size : Nat) (o : Out), ¬ (o.p + 20 > ACCSP_FRAME_SIZE) →
          (add_entry_1 .large_command (le32 key ++ le32 size) o).1 = true := by
  refine ⟨?_, rfl, ?_⟩
  · have h := submit_loop_within rnd response_data ⟨⟨response, 0, 0, []⟩, []⟩
      (fun x hx => by simp at hx)
    unfold submit_commands
    simp only
    cases hr : (submit_loop rnd response_data ⟨⟨response, 0, 0, []⟩, []⟩).2 with
    | none => exact h
    | some tail => exact h
  · intro key size o hp
    have hl : (le32 key ++ le32 size).length = 8 := by simp [le32]
    unfold add_entry_1
    rw [hl, if_neg (by omega)]

/-- Witness of C25: at write offset 131052 the guard lets a large message through and
`add_entry_1` accepts the descriptor. -/
theorem submit_commands_writes_within_witness :
    (add_entry_1 .large_command (le32 7 ++ le32 16387) ⟨fun _ => 0, 131052, 0, []⟩).1 = true :=
  (submit_commands_writes_within (fun _ => 0) (fun _ => 0) []).2.2 7 16387
    ⟨fun _ => 0, 131052, 0, []⟩ (by decide)

/-! ## The commands a new `WebView` leaves for later -/

theorem configure_control_flag {ε : Type} (effect : Guarded ε → Nat × Bytes → Guarded ε)
    (w : Guarded ε) (key : Nat) (value : Bytes) :
    (configure_control effect w key value).1 = configures key := by
  unfold configure_control configures
  by_cases h1 : key = 78
  · simp [h1]
  by_cases h2 : key = 105
  · subst h2
    simp only [if_neg h1, if_true]
    split_ifs <;> simp
  by_cases h3 : key = 102
  · simp [h3]
  by_cases h4 : key = 104
  · subst h4
    simp only [if_neg h1, if_neg h2, if_neg h3, if_true]
    split_ifs <;> simp
  by_cases h5 : key = 115
  · simp [h5]
  by_cases h6 : key = 106
  · subst h6
    simp only [if_neg h1, if_neg h2, if_neg h3, if_neg h4, if_neg h5, if_true]
    split_ifs <;> simp
  simp [h1, h2, h3, h4, h5, h6]

theorem feed_delay {ε : Type} (effect : Guarded ε → Nat × Bytes → Guarded ε)
    (rs : List (Nat × Bytes)) (hlen : ∀ r ∈ rs, r.2.length < 65536) :
    ∀ acc : Delayed ε, acc.delayed_count < 4294967296 → ∃ v,
      feed (delay_callback effect) rs acc
        = .returned
          { delayed := acc.delayed
              ++ ((rs.filter (fun r => !configures r.1)).map
                    record_bytes).flatten,
            delayed_count := (acc.delayed_count
              + (rs.filter (fun r => !configures r.1)).length)
                % 4294967296,
            view := v } := by
  induction rs with
  | nil =>
    intro acc hc
    refine ⟨acc.view, ?_⟩
    simp [feed, Nat.mod_eq_of_lt hc]
  | cons r rs ih =>
    intro acc hc
    have hr := hlen r (List.mem_cons_self _ _)
    have hrest : ∀ x ∈ rs, x.2.length < 65536 := fun x hx => hlen x (List.mem_cons_of_mem _ hx)
    rw [feed]
    cases hk : configures r.1 with
    | true =>
      have hcb : delay_callback effect acc r
          = .returned { acc with view := (configure_control effect acc.view r.1 r.2).2 } := by
        simp only [delay_callback, configure_control_flag, hk, Bool.not_true,
          Bool.false_eq_true, if_false]
      rw [hcb]
      simp only
      obtain ⟨v, hv⟩ := ih hrest
        { acc with view := (configure_control effect acc.view r.1 r.2).2 } hc
      refine ⟨v, ?_⟩
      rw [hv, List.filter_cons]
      simp only [hk, Bool.not_true, Bool.false_eq_true, if_false]
    | false =>
      have hcb : delay_callback effect acc r
          = .returned
            { delayed := acc.delayed ++ record_bytes r,
              delayed_count := (acc.delayed_count + 1) % 4294967296,
              view := (configure_control effect acc.view r.1 r.2).2 } := by
        simp only [delay_callback, configure_control_flag, hk, Bool.not_false,
          if_true, Nat.mod_eq_of_lt hr, record_bytes]
        simp
      rw [hcb]
      simp only
      obtain ⟨v, hv⟩ := ih hrest
        { delayed := acc.delayed ++ record_bytes r,
          delayed_count := (acc.delayed_count + 1) % 4294967296,
          view := (configure_control effect acc.view r.1 r.2).2 }
        (Nat.mod_lt _ (by decide))
      refine ⟨v, ?_⟩
      rw [hv, List.filter_cons]
      simp only [hk, Bool.not_false, if_true, List.map_cons,
        List.flatten_cons, List.length_cons, List.append_assoc]
      congr 2
      omega

theorem records_length (rs : List (Nat × Bytes)) :
    3 * rs.length ≤ (rs.map record_bytes).flatten.length := by
  induction rs with
  | nil => simp
  | cons r rs ih =>
    simp only [List.map_cons, List.flatten_cons, List.length_append, List.length_cons]
    have : 3 ≤ (record_bytes r).length := by simp [record_bytes, le16]
    omega

/-- C30: construction of a `WebView` filters the initial commands without reordering or
altering the rest. If the commands buffer holds the wire form of `n > 0` records that lie
within its 131072 bytes (each payload shorter than 65536 chars) and `commands_set` is `n`,
then afterwards the buffer starts with the wire form of exactly those records for which
`configure_control` returned false (a flag that depends on the code of the command only), in
their original order with unchanged code and payload, `commands_set` is their number, and
decoding that many records from the buffer, as the first `sync` with a browser does, yields
them. If `commands_set` was 0 the shared record is left as it was. -/
theorem construct_keeps_unconfigured {ε : Type} (effect : Guarded ε → Nat × Bytes → Guarded ε)
    (entry : accsp_wb_entry) (w : Guarded ε) (rs : List (Nat × Bytes)) :
    (rs ≠ [] → entry.commands_set = rs.length →
      (∀ r ∈ rs, r.2.length < 65536) →
      holds entry.commands 0 (rs.map record_bytes).flatten →
      (rs.map record_bytes).flatten.length ≤ ACCSP_FRAME_SIZE →
      (WebView_construct effect entry w).1.commands_set
          = (rs.filter (fun r => !(configure_control effect w r.1 r.2).1)).length
        ∧ holds (WebView_construct effect entry w).1.commands 0
            ((rs.filter (fun r => !(configure_control effect w r.1 r.2).1)).map
              record_bytes).flatten
        ∧ iterate_from (WebView_construct effect entry w).1.commands 0
            (WebView_construct effect entry w).1.commands_set
          = rs.filter (fun r => !(configure_control effect w r.1 r.2).1)
        ∧ (WebView_construct effect entry w).1.response = entry.response
        ∧ (WebView_construct effect entry w).1.response_set = entry.response_set)
      ∧ (∀ (w2 : Guarded ε) (r : Nat × Bytes),
          (configure_control effect w2 r.1 r.2).1 = (configure_control effect w r.1 r.2).1)
      ∧ (entry.commands_set = 0 → (WebView_construct effect entry w).1 = entry) := by
  refine ⟨?_, ?_, ?_⟩
  · intro hn hset hlen hbuf hfit
    have hpos : entry.commands_set ≠ 0 := by
      rw [hset]
      exact fun h => hn (List.length_eq_zero.1 h)
    have hit : iterate_from entry.commands 0 entry.commands_set = rs := by
      rw [hset]
      exact iterate_from_records _ _ _ hlen hbuf
    have hfil : (fun r : Nat × Bytes => !(configure_control effect w r.1 r.2).1)
        = (fun r => !configures r.1) := by
      funext r
      rw [configure_control_flag]
    rw [hfil]
    obtain ⟨v, hv⟩ := feed_delay effect rs hlen ⟨[], 0, w⟩ (Nat.zero_lt_succ _)
    have hc : WebView_construct effect entry w
        = ({ entry with
              commands := memcpy entry.commands 0
                ((rs.filter (fun r => !configures r.1)).map
                  record_bytes).flatten,
              commands_set :=
                (rs.filter (fun r => !configures r.1)).length },
            v) := by
      have hle := List.length_filter_le
        (fun r : Nat × Bytes => !configures r.1) rs
      have h3 := records_length rs
      have hlt : (rs.filter
          (fun r => !configures r.1)).length < 4294967296 := by
        simp only [ACCSP_FRAME_SIZE] at hfit
        omega
      simp only [WebView_construct, iterate_commands, if_neg hpos, hit, hv, List.nil_append,
        Nat.zero_add, Nat.mod_eq_of_lt hlt]
    rw [hc]
    simp only
    have hh := holds_memcpy entry.commands 0
      ((rs.filter (fun r => !configures r.1)).map
        record_bytes).flatten
    refine ⟨trivial, hh, ?_, trivial, trivial⟩
    exact iterate_from_records _ _ _
      (fun r hr => hlen r (List.mem_of_mem_filter hr)) hh
  · intro w2 r
    rw [configure_control_flag, configure_control_flag]
  · intro h0
    simp [WebView_construct, iterate_commands, h0]

/-- Witness of C30: a buffer holding a `navigate` record, an `input` record and a `zoom`
record; the constructor takes `navigate` and leaves the other two. -/
theorem construct_keeps_unconfigured_witness :
    iterate_from (WebView_construct (fun (w : Guarded Unit) _ => w)
        ⟨3, 0, memcpy (fun _ => 0) 0 [78, 2, 0, 104, 105, 73, 1, 0, 7, 122, 1, 0, 49],
          fun _ => 0⟩ ⟨true, [], false, [], false, ()⟩).1.commands 0
        (WebView_construct (fun (w : Guarded Unit) _ => w)
          ⟨3, 0, memcpy (fun _ => 0) 0 [78, 2, 0, 104, 105, 73, 1, 0, 7, 122, 1, 0, 49],
            fun _ => 0⟩ ⟨true, [], false, [], false, ()⟩).1.commands_set
      = [(73, [7]), (122, [49])] :=
  ((construct_keeps_unconfigured (fun (w : Guarded Unit) _ => w)
    ⟨3, 0, memcpy (fun _ => 0) 0 [78, 2, 0, 104, 105, 73, 1, 0, 7, 122, 1, 0, 49], fun _ => 0⟩
    ⟨true, [], false, [], false, ()⟩ [(78, [104, 105]), (73, [7]), (122, [49])]).1
    (by decide) rfl (by decide)
    (holds_memcpy (fun _ => 0) 0 [78, 2, 0, 104, 105, 73, 1, 0, 7, 122, 1, 0, 49])
    (by decide)).2.2.1

/-! ## `str_view::split` -/

theorem split_to_wraps (s : Bytes) (hs : s.length = 4294967295) (c : Nat)
    (skip_empty trim_result : Bool) (limit : Nat) :
    ∀ (fuel index : Nat) (result : List Bytes), index < 4294967296 →
      split_to s c skip_empty trim_result limit fuel index result = none := by
  intro fuel
  induction fuel with
  | zero => intro index result _; rfl
  | succ fuel ih =>
    intro index result hi
    rw [split_to, if_pos (by omega)]
    exact ih _ _ (Nat.mod_lt _ (by decide))

/-- C22, the part that fails: on a view of 2^32 - 1 chars (shorter than 2^32) the loop of
`split` never ends: after the last piece `index = uint32_t(next) + 1` wraps to 0, which is
`<= size` again, so no number of iterations makes `split(',', false, false)` return. -/
theorem split_never_returns_at_limit :
    ¬ ∃ fuel pieces,
      split_to (chars 4294967295) 44 false false UINT64_MAX fuel 0 [] = some pieces := by
  rintro ⟨fuel, pieces, h⟩
  rw [split_to_wraps (chars 4294967295) (chars_length _) 44 false false UINT64_MAX fuel 0 []
    (by decide)] at h
  cases h

theorem indexOf_split (c : Nat) (r : Bytes) (h : c ∈ r) :
    r = r.take (r.indexOf c) ++ c :: r.drop (r.indexOf c + 1) ∧ c ∉ r.take (r.indexOf c) := by
  induction r with
  | nil => simp at h
  | cons a r ih =>
    by_cases hac : a = c
    · subst hac
      simp
    · have hc : c ∈ r := by
        rcases List.mem_cons.1 h with h | h
        · exact absurd h.symm hac
        · exact h
      obtain ⟨h1, h2⟩ := ih hc
      rw [List.indexOf_cons_ne _ hac]
      simp only [List.take_succ_cons, List.drop_succ_cons, List.cons_append, List.mem_cons,
        not_or]
      exact ⟨by rw [← h1], fun h => hac h.symm, h2⟩

theorem find_first_of_from_none (s : Bytes) (c index : Nat) :
    find_first_of_from s c index = none ↔ c ∉ s.drop index := by
  unfold find_first_of_from
  rw [← List.indexOf_lt_length]
  split <;> simp_all

theorem find_first_of_from_some (s : Bytes) (c index n : Nat)
    (h : find_first_of_from s c index = some n) :
    c ∈ s.drop index ∧ n = index + (s.drop index).indexOf c := by
  unfold find_first_of_from at h
  split at h
  · rename_i hlt
    simp only [Option.some.injEq] at h
    exact ⟨List.indexOf_lt_length.1 hlt, h.symm⟩
  · cases h

theorem substr_rest (s : Bytes) (index : Nat) :
    substr s index (s.length - index) = s.drop index := by
  unfold substr
  split
  · rename_i h
    exact (List.drop_eq_nil_of_le h).symm
  · rw [List.take_of_length_le (by simp)]

theorem substr_take (s : Bytes) (index j : Nat) (h : index < s.length) :
    substr s index j = (s.drop index).take j := by
  unfold substr
  rw [if_neg (by omega)]

theorem join_sep_cons (c : Nat) (p : Bytes) (ps : List Bytes) (h : ps ≠ []) :
    join_sep c (p :: ps) = p ++ c :: join_sep c ps := by
  cases ps with
  | nil => exact absurd rfl h
  | cons q rest => rfl

theorem split_to_step_none (s : Bytes) (c limit fuel index : Nat) (result : List Bytes)
    (hs : s.length < 4294967295) (hi : index ≤ s.length)
    (h : (if result.length + 1 = limit then none else find_first_of_from s c index) = none) :
    split_to s c false false limit (fuel + 2) index result = some (result ++ [s.drop index]) := by
  have e0 : s.length % 4294967296 = s.length := Nat.mod_eq_of_lt (by omega)
  have e1 : (s.length + 4294967296 - index) % 4294967296 = s.length - index := by omega
  have e2 : (s.length + 1) % 4294967296 = s.length + 1 := Nat.mod_eq_of_lt (by omega)
  rw [split_to, if_pos hi]
  simp only [h, e0, e1, e2, substr_rest, Bool.not_false, Bool.true_or, if_true,
    Bool.false_eq_true, if_false]
  rw [split_to, if_neg (by omega)]

theorem split_to_step_some (s : Bytes) (c limit fuel index n : Nat) (result : List Bytes)
    (hs : s.length < 4294967295) (hi : index ≤ n) (hn : n < s.length)
    (h : (if result.length + 1 = limit then none else find_first_of_from s c index) = some n) :
    split_to s c false false limit (fuel + 1) index result
      = split_to s c false false limit fuel (n + 1)
          (result ++ [(s.drop index).take (n - index)]) := by
  have e0 : n % 4294967296 = n := Nat.mod_eq_of_lt (by omega)
  have e1 : (n + 4294967296 - index) % 4294967296 = n - index := by omega
  have e2 : (n + 1) % 4294967296 = n + 1 := Nat.mod_eq_of_lt (by omega)
  rw [split_to, if_pos (by omega)]
  simp only [h, e0, e1, e2, substr_take s index _ (by omega), Bool.not_false, Bool.true_or,
    if_true, Bool.false_eq_true, if_false]

theorem split_to_spec (s : Bytes) (c limit : Nat) (hs : s.length < 4294967295) :
    ∀ (fuel index : Nat) (result : List Bytes), index ≤ s.length →
      s.length - index + 2 ≤ fuel → result.length < limit →
      ∃ pieces, split_to s c false false limit fuel index result = some (result ++ pieces)
        ∧ pieces ≠ []
        ∧ pieces.length = min (limit - result.length) (1 + (s.drop index).count c)
        ∧ join_sep c pieces = s.drop index := by
  intro fuel
  induction fuel with
  | zero => intro index result _ h; omega
  | succ fuel ih =>
    intro index result hi hf hl
    cases hfound : (if result.length + 1 = limit then none
        else find_first_of_from s c index) with
    | none =>
      obtain ⟨f2, rfl⟩ : ∃ f2, fuel = f2 + 1 := ⟨fuel - 1, by omega⟩
      refine ⟨[s.drop index], split_to_step_none s c limit f2 index result hs hi hfound,
        by simp, ?_, rfl⟩
      by_cases hlim : result.length + 1 = limit
      · simp only [List.length_singleton]
        omega
      · rw [if_neg hlim, find_first_of_from_none] at hfound
        rw [List.count_eq_zero.2 hfound]
        simp only [List.length_singleton]
        omega
    | some n =>
      have hlim : result.length + 1 ≠ limit := by
        intro h
        rw [if_pos h] at hfound
        cases hfound
      have hfind := hfound
      rw [if_neg hlim] at hfind
      obtain ⟨hmem, hn⟩ := find_first_of_from_some s c index n hfind
      have hj : (s.drop index).indexOf c < (s.drop index).length :=
        List.indexOf_lt_length.2 hmem
      have hlen : (s.drop index).length = s.length - index := List.length_drop _ _
      obtain ⟨hsplit, hnot⟩ := indexOf_split c (s.drop index) hmem
      have hdrop : (s.drop index).drop ((s.drop index).indexOf c + 1) = s.drop (n + 1) := by
        rw [List.drop_drop]
        congr 1
        omega
      rw [split_to_step_some s c limit fuel index n result hs (by omega) (by omega) hfound]
      obtain ⟨pieces, h1, h2, h3, h4⟩ := ih (n + 1)
        (result ++ [(s.drop index).take (n - index)]) (by omega) (by omega)
        (by simp only [List.length_append, List.length_singleton]; omega)
      have hnj : n - index = (s.drop index).indexOf c := by omega
      refine ⟨(s.drop index).take (n - index) :: pieces, ?_, by simp, ?_, ?_⟩
      · rw [h1]
        simp
      · have hcount : (s.drop index).count c = 1 + (s.drop (n + 1)).count c := by
          conv_lhs => rw [hsplit]
          rw [List.count_append, List.count_cons_self, List.count_eq_zero.2 hnot, hdrop]
          omega
        simp only [List.length_append, List.length_singleton] at h3
        simp only [List.length_cons, h3, hcount]
        omega
      · rw [join_sep_cons c _ pieces h2, h4, hnj, ← hdrop]
        exact hsplit.symm

theorem piece_infix (c : Nat) (pieces : List Bytes) (p : Bytes) (h : p ∈ pieces) :
    List.IsInfix p (join_sep c pieces) := by
  induction pieces with
  | nil => simp at h
  | cons q rest ih =>
    cases rest with
    | nil =>
      simp only [List.mem_singleton] at h
      subst h
      exact List.infix_refl _
    | cons q2 rest2 =>
      rw [join_sep_cons c q _ (by simp)]
      rcases List.mem_cons.1 h with h | h
      · subst h
        exact (List.prefix_append _ _).isInfix
      · exact (ih h).trans
          ((List.suffix_cons c _).trans (List.suffix_append q _)).isInfix

/-- C22, amended: for every view `s` shorter than 2^32 - 1 chars, every separator `c` and
every limit `L >= 1`, `split(c, false, false, L)` returns `min(L, 1 + number of occurrences of
c in s)` pieces, each a sub-range of `s`, and joining the pieces with `c` gives back `s`
exactly (with a limit, the last piece holds the unsplit remainder); the empty view splits
into one empty piece. -/
theorem split_pieces (s : Bytes) (c limit : Nat) (hs : s.length < 4294967295)
    (hl : 1 ≤ limit) :
    (∃ pieces, split s c false false limit = some pieces
        ∧ pieces.length = min limit (1 + s.count c)
        ∧ join_sep c pieces = s
        ∧ ∀ p ∈ pieces, List.IsInfix p s)
      ∧ split [] c false false limit = some [[]] := by
  have key : ∀ t : Bytes, t.length < 4294967295 →
      ∃ pieces, split t c false false limit = some pieces
        ∧ pieces.length = min limit (1 + t.count c)
        ∧ join_sep c pieces = t := by
    intro t ht
    obtain ⟨pieces, h1, -, h3, h4⟩ := split_to_spec t c limit ht (t.length + 2) 0 []
      (Nat.zero_le _) (by omega) (by simpa using hl)
    exact ⟨pieces, by simpa [split] using h1, by simpa using h3, by simpa using h4⟩
  refine ⟨?_, ?_⟩
  · obtain ⟨pieces, h1, h2, h3⟩ := key s hs
    refine ⟨pieces, h1, h2, h3, fun p hp => ?_⟩
    have := piece_infix c pieces p hp
    rwa [h3] at this
  · obtain ⟨pieces, h1, h2, h3⟩ := key [] (by decide)
    rw [h1]
    cases pieces with
    | nil => simp at h2; omega
    | cons p rest =>
      cases rest with
      | nil =>
        simp only [join_sep] at h3
        rw [h3]
      | cons q rest2 =>
        simp at h2
        omega

/-- Witness of C22: the view `a,b,,c` split at `,` with the limit 3 gives `a`, `b` and the
remainder `,c`. -/
theorem split_pieces_witness :
    split [97, 44, 98, 44, 44, 99] 44 false false 3 = some [[97], [98], [44, 99]]
      ∧ ∃ pieces, split [97, 44, 98, 44, 44, 99] 44 false false 3 = some pieces
          ∧ pieces.length = min 3 (1 + List.count 44 [97, 44, 98, 44, 44, 99])
          ∧ join_sep 44 pieces = [97, 44, 98, 44, 44, 99]
          ∧ ∀ p ∈ pieces, List.IsInfix p [97, 44, 98, 44, 44, 99] :=
  ⟨by decide, (split_pieces [97, 44, 98, 44, 44, 99] 44 3 (by decide) (by decide)).1⟩

/-! ## `lson_builder::add_string` -/

theorem add_string_loop_wraps (data : Bytes) (hs : 4294967296 ≤ data.length) :
    ∀ (fuel i : Nat) (dst : Bytes), i < 4294967296 →
      add_string_loop data fuel i dst = none := by
  intro fuel
  induction fuel with
  | zero => intro i dst _; rfl
  | succ fuel ih =>
    intro i dst hi
    rw [add_string_loop, if_pos (by omega)]
    exact ih _ _ (Nat.mod_lt _ (by decide))

/-- C29, the part that fails: for a string of 2^32 chars the loop of `add_string` never
ends: its counter is an `unsigned int`, which wraps to 0 before it reaches `size`, so no
number of iterations makes `add_string` return and nothing decodable is produced. -/
theorem add_string_never_returns_on_huge :
    ¬ ∃ fuel out, add_string_loop (chars 4294967296) fuel 0 [34] = some out := by
  rintro ⟨fuel, out, h⟩
  rw [add_string_loop_wraps (chars 4294967296) (by rw [chars_length]) fuel 0 [34]
    (by decide)] at h
  cases h

theorem esc_cons (c : Nat) (rest : Bytes) :
    esc (c :: rest)
      = (if c = 0 then [92, 48] else if c = 10 then [92, 110]
          else if c = 34 ∨ c = 92 then [92, c] else [c]) ++ esc rest := by
  rfl

theorem add_string_loop_esc (data : Bytes) (hs : data.length < 4294967296) :
    ∀ (fuel i : Nat) (dst : Bytes), i ≤ data.length → data.length - i + 1 ≤ fuel →
      add_string_loop data fuel i dst = some (dst ++ esc (data.drop i)) := by
  intro fuel
  induction fuel with
  | zero => intro i dst _ h; omega
  | succ fuel ih =>
    intro i dst hi hf
    rw [add_string_loop]
    by_cases hlt : i < data.length
    · rw [if_pos hlt]
      have hd : data.drop i = data.getD i 0 :: data.drop (i + 1) := by
        rw [List.getD_eq_getElem _ _ hlt]
        exact List.drop_eq_getElem_cons hlt
      have hm : (i + 1) % 4294967296 = i + 1 := Nat.mod_eq_of_lt (by omega)
      simp only [hm]
      rw [ih (i + 1) _ (by omega) (by omega), hd, esc_cons]
      congr 1
      split_ifs <;> simp
    · rw [if_neg hlt]
      have : i = data.length := by omega
      subst this
      simp [esc]

theorem unesc_esc (s : Bytes) : unesc (esc s) = s := by
  induction s with
  | nil => rfl
  | cons c rest ih =>
    rw [esc_cons]
    by_cases h0 : c = 0
    · subst h0
      simp [unesc, ih]
    · by_cases h1 : c = 10
      · subst h1
        simp [unesc, ih]
      · by_cases h2 : c = 34 ∨ c = 92
        · rw [if_neg h0, if_neg h1, if_pos h2]
          rcases h2 with h2 | h2 <;> subst h2 <;> simp [unesc, ih]
        · rw [if_neg h0, if_neg h1, if_neg h2]
          have h92 : c ≠ 92 := fun h => h2 (Or.inr h)
          cases he : esc rest with
          | nil =>
            rw [he] at ih
            simp [unesc, ← ih]
          | cons y t =>
            rw [he] at ih
            simp only [List.singleton_append, unesc, if_neg h92, ih]

theorem esc_clean (s : Bytes) :
    0 ∉ esc s ∧ 10 ∉ esc s ∧ bare_quote (esc s) = false := by
  induction s with
  | nil => simp [esc, bare_quote]
  | cons c rest ih =>
    obtain ⟨i0, i1, i2⟩ := ih
    rw [esc_cons]
    by_cases h0 : c = 0
    · subst h0
      simp [bare_quote, i0, i1, i2]
    · by_cases h1 : c = 10
      · subst h1
        simp [bare_quote, i0, i1, i2]
      · by_cases h2 : c = 34 ∨ c = 92
        · rw [if_neg h0, if_neg h1, if_pos h2]
          rcases h2 with h2 | h2 <;> subst h2 <;> simp [bare_quote, i0, i1, i2]
        · rw [if_neg h0, if_neg h1, if_neg h2]
          have h92 : c ≠ 92 := fun h => h2 (Or.inr h)
          have h34 : c ≠ 34 := fun h => h2 (Or.inl h)
          refine ⟨?_, ?_, ?_⟩
          · simp [i0, Ne.symm h0]
          · simp [i1, Ne.symm h1]
          · cases he : esc rest with
            | nil => simp [bare_quote, h34]
            | cons y t =>
              rw [he] at i2
              simp only [List.singleton_append, bare_quote, if_neg h92, i2]
              simp [h34]

/-- C29, amended: `add_string` is losslessly decodable on strings shorter than 2^32 chars.
For every such string `s` it appends a quote, `esc s` and a quote, where `esc` writes NUL as
backslash-0, newline as backslash-n, and a quote or a backslash preceded by a backslash; the
text between the delimiters holds no NUL, no newline and no quote outside an escape, and
unescaping it gives back `s`, so different strings give different texts. -/
theorem add_string_decodable (dst s : Bytes) (hs : s.length < 4294967296) :
    add_string dst s = some (dst ++ [34] ++ esc s ++ [34])
      ∧ 0 ∉ esc s ∧ 10 ∉ esc s ∧ bare_quote (esc s) = false
      ∧ unesc (esc s) = s
      ∧ ∀ s2 : Bytes, s2.length < 4294967296 → add_string dst s2 = add_string dst s →
          s2 = s := by
  have hadd : ∀ t : Bytes, t.length < 4294967296 →
      add_string dst t = some (dst ++ [34] ++ esc t ++ [34]) := by
    intro t ht
    unfold add_string
    rw [add_string_loop_esc t ht (t.length + 1) 0 (dst ++ [34]) (Nat.zero_le _) (by omega)]
    simp
  obtain ⟨h0, h1, h2⟩ := esc_clean s
  refine ⟨hadd s hs, h0, h1, h2, unesc_esc s, ?_⟩
  intro s2 hs2 heq
  rw [hadd s hs, hadd s2 hs2] at heq
  simp only [Option.some.injEq, List.append_assoc, List.append_cancel_left_eq] at heq
  have he : esc s2 = esc s := List.append_cancel_right heq
  rw [← unesc_esc s2, he, unesc_esc]

/-- Witness of C29: the string `a"b`, backslash, NUL, newline. -/
theorem add_string_decodable_witness :
    add_string [123] [97, 34, 98, 92, 0, 10]
      = some [123, 34, 97, 92, 34, 98, 92, 92, 92, 48, 92, 110, 34] :=
  (add_string_decodable [123] [97, 34, 98, 92, 0, 10] (by decide)).1

/-! ## `str_view::as(uint64_t)` -/

set_option maxRecDepth 100000 in
theorem hextable_small : ∀ x, x < 256 →
    hextable.getD x HN = (if is_hex_digit x then hex_value x else HN) := by
  decide

set_option maxRecDepth 100000 in
theorem hextable_length : hextable.length = 256 := by
  rfl

theorem hextable_spec (x : Nat) :
    hextable.getD (hexdec_address x) HN = (if is_hex_digit x then hex_value x else HN) := by
  unfold hexdec_address
  by_cases h : x < 256
  · exact hextable_small x h
  · have hl := hextable_length
    have hn : is_hex_digit x = false := by
      simp only [is_hex_digit, Bool.or_eq_false_iff, Bool.and_eq_false_iff, decide_eq_false_iff_not]
      omega
    rw [List.getD_eq_default _ _ (by omega), hn]
    rfl

theorem hex_value_lt (x : Nat) (h : is_hex_digit x = true) : hex_value x < 16 := by
  simp only [is_hex_digit, Bool.or_eq_true, Bool.and_eq_true, decide_eq_true_eq] at h
  unfold hex_value
  split_ifs <;> omega

theorem shift_or (ret i : Nat) (hi : i < 16) :
    ((ret <<< 4) % 18446744073709551616) ||| i
        = (ret * 16 + i) % 18446744073709551616
      ∧ ((ret <<< 4) ||| i) % 18446744073709551616
        = (ret * 16 + i) % 18446744073709551616 := by
  have hor : ∀ a b : Nat, b < 16 → 16 * a ||| b = 16 * a + b := by
    intro a b hb
    have := Nat.mul_add_lt_is_or (i := 4) (b := b) (by simpa using hb) a
    simpa using this.symm
  have hs : ret <<< 4 = 16 * ret := by
    rw [Nat.shiftLeft_eq]
    omega
  have hm : (16 * ret) % 18446744073709551616 = 16 * (ret % 1152921504606846976) := by
    omega
  refine ⟨?_, ?_⟩
  · rw [hs, hm, hor _ _ hi]
    omega
  · rw [hs, hor _ _ hi]
    congr 1
    omega

theorem parse_gen_hex_spec (c : Bytes) :
    ∀ ret, parse_gen_hex c ret
      = (c.takeWhile is_hex_digit).foldl
          (fun acc x => ((acc <<< 4) ||| hex_value x) % 18446744073709551616) ret := by
  induction c with
  | nil => intro ret; rfl
  | cons x c ih =>
    intro ret
    rw [parse_gen_hex, hextable_spec]
    cases hx : is_hex_digit x with
    | false => simp [List.takeWhile_cons, hx]
    | true =>
      have hv := hex_value_lt x hx
      have hne : hex_value x ≠ HN := by
        unfold HN
        omega
      simp only [if_true, if_neg hne, List.takeWhile_cons, hx, List.foldl_cons]
      rw [ih, (shift_or ret _ hv).1, (shift_or ret _ hv).2]

theorem parse_gen_digits_spec (c : Bytes) :
    ∀ ret k, parse_gen_digits c ret k
      = ((c.takeWhile is_digit).foldl
            (fun a x => (a * 10 + (x - 48)) % 18446744073709551616) ret,
          k + (c.takeWhile is_digit).length) := by
  induction c with
  | nil => intro ret k; rfl
  | cons x c ih =>
    intro ret k
    rw [parse_gen_digits]
    cases hx : is_digit x with
    | false => simp [List.takeWhile_cons, hx]
    | true =>
      simp only [if_true, List.takeWhile_cons, hx, List.foldl_cons, List.length_cons, ih]
      congr 1
      omega

theorem foldl_mod_digits (l : Bytes) :
    ∀ r, l.foldl (fun a x => (a * 10 + (x - 48)) % 18446744073709551616)
          (r % 18446744073709551616)
      = l.foldl (fun a x => a * 10 + (x - 48)) r % 18446744073709551616 := by
  induction l with
  | nil => intro r; rfl
  | cons x l ih =>
    intro r
    simp only [List.foldl_cons]
    rw [← ih]
    congr 1
    omega

theorem hex_head_iff (s : Bytes) :
    (2 < s.length ∧ s.getD 0 0 = 48 ∧ s.getD 1 0 = 120)
      ↔ (3 ≤ s.length ∧ s.take 2 = [48, 120]) := by
  cases s with
  | nil => simp
  | cons a t =>
    cases t with
    | nil => simp
    | cons b u =>
      simp only [List.length_cons, List.getD_cons_zero, List.getD_cons_succ, List.take_succ_cons,
        List.take_zero, List.cons.injEq, and_true]
      constructor
      · rintro ⟨h1, h2, h3⟩
        exact ⟨by omega, h2, h3⟩
      · rintro ⟨h1, h2, h3⟩
        exact ⟨by omega, h2, h3⟩

theorem as_uint64_reference (s : Bytes) (d : Nat) : as_uint64 s d = as_reference s d := by
  unfold as_uint64 parse_gen as_reference
  simp only
  by_cases hh : 2 < s.length ∧ s.getD 0 0 = 48 ∧ s.getD 1 0 = 120
  · rw [if_pos hh, if_pos ((hex_head_iff s).1 hh), parse_gen_hex_spec]
  · rw [if_neg hh, if_neg (fun h => hh ((hex_head_iff s).2 h)), parse_gen_digits_spec]
    simp only [Nat.zero_add, List.length_eq_zero]
    by_cases he : s.takeWhile is_digit = []
    · rw [if_pos he, if_pos he]
    · rw [if_neg he, if_neg he]
      exact foldl_mod_digits _ 0

theorem digitChar_is_digit (m : Nat) (h : m < 10) : is_digit (Nat.digitChar m).toNat = true := by
  interval_cases m <;> rfl

theorem digitChar_is_hex (m : Nat) (h : m < 16) :
    is_hex_digit (Nat.digitChar m).toNat = true ∧ hex_value (Nat.digitChar m).toNat = m := by
  interval_cases m <;> exact ⟨rfl, rfl⟩

theorem toDigitsCore_all (b : Nat) (P : Char → Prop) (hP : ∀ m, m < b → P (Nat.digitChar m))
    (hb : 0 < b) (fuel : Nat) :
    ∀ (n : Nat) (ds : List Char), (∀ c ∈ ds, P c) →
      ∀ c ∈ Nat.toDigitsCore b fuel n ds, P c := by
  induction fuel with
  | zero => intro n ds h; exact h
  | succ fuel ih =>
    intro n ds h
    unfold Nat.toDigitsCore
    simp only
    have hd : ∀ c ∈ Nat.digitChar (n % b) :: ds, P c := by
      intro c hc
      rcases List.mem_cons.1 hc with hc | hc
      · rw [hc]
        exact hP _ (Nat.mod_lt _ hb)
      · exact h c hc
    split
    · exact hd
    · exact ih _ _ hd

theorem to_string_digits (n : Nat) : ∀ c ∈ to_string n, is_digit c = true := by
  intro c hc
  unfold to_string Nat.toDigits at hc
  obtain ⟨ch, hch, rfl⟩ := List.mem_map.1 hc
  exact toDigitsCore_all 10 (fun ch => is_digit ch.toNat = true) digitChar_is_digit
    (by decide) _ _ [] (fun _ h => by simp at h) ch hch

theorem to_hex_digits (n : Nat) : ∀ c ∈ to_hex n, is_hex_digit c = true := by
  intro c hc
  unfold to_hex Nat.toDigits at hc
  obtain ⟨ch, hch, rfl⟩ := List.mem_map.1 hc
  exact toDigitsCore_all 16 (fun ch => is_hex_digit ch.toNat = true)
    (fun m hm => (digitChar_is_hex m hm).1) (by decide) _ _ [] (fun _ h => by simp at h) ch hch

theorem toDigitsCore_hex_value (fuel : Nat) : ∀ (n : Nat) (ds : List Char), n < fuel →
    ((Nat.toDigitsCore 16 fuel n ds).map Char.toNat).foldl (fun a d => a * 16 + hex_value d) 0
      = (ds.map Char.toNat).foldl (fun a d => a * 16 + hex_value d) n := by
  induction fuel with
  | zero => intro n ds h; omega
  | succ fuel ih =>
    intro n ds h
    unfold Nat.toDigitsCore
    simp only
    by_cases h0 : n / 16 = 0
    · rw [if_pos h0]
      simp only [List.map_cons, List.foldl_cons, Nat.zero_mul, Nat.zero_add]
      rw [(digitChar_is_hex _ (Nat.mod_lt _ (by decide))).2]
      congr 1
      omega
    · rw [if_neg h0]
      rw [ih (n / 16) _ (by omega)]
      simp only [List.map_cons, List.foldl_cons]
      rw [(digitChar_is_hex _ (Nat.mod_lt _ (by decide))).2]
      congr 1
      omega

theorem to_hex_value (n : Nat) :
    (to_hex n).foldl (fun a d => a * 16 + hex_value d) 0 = n := by
  unfold to_hex Nat.toDigits
  rw [toDigitsCore_hex_value (n + 1) n [] (by omega)]
  rfl

theorem foldl_mod_hex (l : Bytes) (hl : ∀ c ∈ l, is_hex_digit c = true) :
    ∀ r, l.foldl (fun acc c => ((acc <<< 4) ||| hex_value c) % 18446744073709551616)
          (r % 18446744073709551616)
      = l.foldl (fun a c => a * 16 + hex_value c) r % 18446744073709551616 := by
  induction l with
  | nil => intro r; rfl
  | cons x l ih =>
    intro r
    have hx := hex_value_lt x (hl x (List.mem_cons_self _ _))
    simp only [List.foldl_cons]
    rw [← ih (fun c hc => hl c (List.mem_cons_of_mem _ hc)), (shift_or _ _ hx).2]
    congr 1
    omega

theorem to_string_ne_nil (n : Nat) : to_string n ≠ [] := by
  intro h
  have hv := to_string_value n
  rw [h] at hv
  simp only [List.foldl_nil] at hv
  subst hv
  exact absurd h (by decide)

theorem to_hex_ne_nil (n : Nat) : to_hex n ≠ [] := by
  intro h
  have hv := to_hex_value n
  rw [h] at hv
  simp only [List.foldl_nil] at hv
  subst hv
  exact absurd h (by decide)

/-- C23: `str_view::as(uint64_t d)` equals the reference of the spec: with at least 3 chars
and a leading `0x`, the value of the longest run of hex digits (either case) after it, folded
as `(acc << 4 | digit) mod 2^64`; otherwise the value mod 2^64 of the longest leading run of
decimal digits, or `d` when that run is empty (a null view gives `d` as well). So the decimal
text of any `n < 2^64` is read as `n`, and so is `0x` followed by the hex text of `n`. -/
theorem as_uint64_matches_reference (s : Bytes) (d n : Nat) :
    as_uint64 s d = as_reference s d
      ∧ parse_gen none d = as_reference [] d
      ∧ (n < 18446744073709551616 → as_uint64 (to_string n) d = n)
      ∧ (n < 18446744073709551616 → as_uint64 ([48, 120] ++ to_hex n) d = n) := by
  refine ⟨as_uint64_reference s d, rfl, fun hn => ?_, fun hn => ?_⟩
  · rw [as_uint64_reference]
    have hall := to_string_digits n
    have htw : (to_string n).takeWhile is_digit = to_string n :=
      List.takeWhile_eq_self_iff.2 hall
    have hhead : ¬ (3 ≤ (to_string n).length ∧ (to_string n).take 2 = [48, 120]) := by
      rintro ⟨-, h2⟩
      have hm : (120 : Nat) ∈ (to_string n).take 2 := by
        rw [h2]
        simp
      have := hall 120 (List.mem_of_mem_take hm)
      exact absurd this (by decide)
    unfold as_reference
    rw [if_neg hhead, htw, if_neg (to_string_ne_nil n), to_string_value,
      Nat.mod_eq_of_lt hn]
  · rw [as_uint64_reference]
    have hall := to_hex_digits n
    have htw : (to_hex n).takeWhile is_hex_digit = to_hex n :=
      List.takeWhile_eq_self_iff.2 hall
    have hlen : 0 < (to_hex n).length := List.length_pos.2 (to_hex_ne_nil n)
    have hhead : 3 ≤ ([48, 120] ++ to_hex n).length
        ∧ ([48, 120] ++ to_hex n).take 2 = [48, 120] := by
      refine ⟨?_, by simp⟩
      simp only [List.length_append, List.length_cons, List.length_nil]
      omega
    unfold as_reference
    rw [if_pos hhead]
    have hdrop : ([48, 120] ++ to_hex n).drop 2 = to_hex n := by simp
    rw [hdrop, htw]
    have := foldl_mod_hex (to_hex n) hall 0
    rw [Nat.zero_mod] at this
    rw [this, to_hex_value, Nat.mod_eq_of_lt hn]

/-- Witness of C23: the texts `1234` and `0x4d2` are both read as 1234. -/
theorem as_uint64_matches_reference_witness :
    as_uint64 [49, 50, 51, 52] 7 = 1234 ∧ as_uint64 [48, 120, 52, 100, 50] 7 = 1234 :=
  ⟨(as_uint64_matches_reference [] 7 1234).2.2.1 (by decide),
    (as_uint64_matches_reference [] 7 1234).2.2.2 (by decide)⟩

/-! ## The entry that does not fit -/

/-- The queue of the failing input of C5: seven `data_from_script` entries of 16384 chars
each, then a `url` entry of 16384 chars. -/
theorem seven_and_url_split :
    rejects 114709 (command_fe.url, [chars 16384])
      ∧ (List.replicate 7 (command_fe.data_from_script, [chars 16384])
          ++ [(command_fe.url, [chars 16384])]).length = 8
      ∧ ∀ e ∈ List.replicate 7 (command_fe.data_from_script, [chars 16384])
          ++ [(command_fe.url, [chars 16384])], total_size e.2 ≤ ACCSP_MAX_COMMAND_SIZE := by
  have hj : (join1 [chars 16384]).length = 16384 := by simp [join1, chars_length]
  have hts : total_size [chars 16384] = 16384 := by rw [total_size_eq, hj]
  refine ⟨?_, by simp, ?_⟩
  · rw [rejects_small 114709 (command_fe.url, [chars 16384])
      (by simp [hts, ACCSP_MAX_COMMAND_SIZE])]
    simp [hts, ACCSP_FRAME_SIZE]
  · intro e he
    rcases List.mem_append.1 he with he | he
    · rw [(List.mem_replicate.1 he).2]
      simp [hts, ACCSP_MAX_COMMAND_SIZE]
    · rw [List.mem_singleton.1 he]
      simp [hts, ACCSP_MAX_COMMAND_SIZE]

/-- C5 (the code at the failing input): the queue holds seven `data_from_script` entries of
16384 chars and then a `url` entry of 16384 chars, which does not fit at write offset 114709.
`submit_commands` returns 7, the seven records in the buffer are those of the first seven
entries, no auxiliary mapping exists, and the one slot that the queue keeps points at storage
that `resize` has released: the `url` entry is neither represented in the buffer nor still
in the queue. The same defect as in C3; in this model every call that leaves entries behind
leaves a kept slot without its entry. -/
theorem deferred_entry_is_lost :
    (submit_commands (fun _ => 0) (fun _ => 0)
        (List.replicate 7 (command_fe.data_from_script, [chars 16384])
          ++ [(command_fe.url, [chars 16384])])).c = 7
      ∧ iterate_from (submit_commands (fun _ => 0) (fun _ => 0)
          (List.replicate 7 (command_fe.data_from_script, [chars 16384])
            ++ [(command_fe.url, [chars 16384])])).out.response 0 7
        = List.replicate 7 (command_fe.data_from_script.byte, chars 16384)
      ∧ (submit_commands (fun _ => 0) (fun _ => 0)
          (List.replicate 7 (command_fe.data_from_script, [chars 16384])
            ++ [(command_fe.url, [chars 16384])])).response_large_files = []
      ∧ (submit_commands (fun _ => 0) (fun _ => 0)
          (List.replicate 7 (command_fe.data_from_script, [chars 16384])
            ++ [(command_fe.url, [chars 16384])])).response_data = [none]
      ∧ ∀ (rnd : Nat → Nat) (response : Mem) (q : List Entry),
          (submit_commands rnd response q).response_data ≠ [] →
          none ∈ (submit_commands rnd response q).response_data := by
  obtain ⟨hacc, hsum, -, hfil, -⟩ := eight_entries_split
  obtain ⟨hrej, hlen, hsmall⟩ := seven_and_url_split
  obtain ⟨hc, -, hall, hdata⟩ := submit_commands_split (fun _ => 0) (fun _ => 0) _
    [(command_fe.url, [chars 16384])] hacc (Or.inr ⟨_, [], rfl, by rw [hsum]; exact hrej⟩)
  have hfiles : (submit_commands (fun _ => 0) (fun _ => 0)
      (List.replicate 7 (command_fe.data_from_script, [chars 16384])
        ++ [(command_fe.url, [chars 16384])])).response_large_files = [] := by
    rw [submit_commands_files]
    exact submit_loop_files_small (fun _ => 0) _ ⟨⟨fun _ => 0, 0, 0, []⟩, []⟩ hsmall
  refine ⟨by rw [hc, hfil]; simp, ?_, hfiles, ?_, fun rnd response q h =>
    deferral_releases_kept_slot rnd response q h⟩
  · rw [hfil] at hall
    have hrec := forall2_small _ _ _
      (fun e he => hsmall e (List.mem_append_left _ he)) hall
    simp only [List.length_replicate] at hrec
    rw [hrec, List.map_replicate]
    rfl
  · rw [hdata, if_neg (by simp)]
    simp only [List.length_replicate]
    exact relocate_tail_eight _ hlen

/-- Witness of C5: the general statement at the failing input. -/
theorem deferred_entry_is_lost_witness :
    none ∈ (submit_commands (fun _ => 0) (fun _ => 0)
      (List.replicate 7 (command_fe.data_from_script, [chars 16384])
        ++ [(command_fe.url, [chars 16384])])).response_data :=
  deferred_entry_is_lost.2.2.2.2 (fun _ => 0) (fun _ => 0) _
    (by rw [deferred_entry_is_lost.2.2.2.1]; exact List.cons_ne_nil _ _)

theorem submit_commands_of_loop (rnd : Nat → Nat) (response : Mem) (q : List Entry) :
    (submit_commands rnd response q).out = (submit_loop rnd q ⟨⟨response, 0, 0, []⟩, []⟩).1.out
      ∧ (submit_commands rnd response q).c
          = (submit_loop rnd q ⟨⟨response, 0, 0, []⟩, []⟩).1.out.c
      ∧ (submit_commands rnd response q).response_large_files
          = (submit_loop rnd q ⟨⟨response, 0, 0, []⟩, []⟩).1.response_large_files := by
  unfold submit_commands
  cases h : (submit_loop rnd q ⟨⟨response, 0, 0, []⟩, []⟩).2 <;> simp [h]

/-- C6, amended: the overflow path is chosen by the size of the entry, not by the space left.
Take an entry `e` with at least one part that stands in the queue behind entries `pre` which
all fit. When the joined payload of `e` has at most ACCSP_MAX_COMMAND_SIZE chars and `e` does
not fit in the space left, packing stops at it: the buffer, the stores made, the returned
count and the auxiliary mappings are exactly those of a call on `pre` alone, so `e` gets no
record and no auxiliary mapping in this batch. And at any point of the packing an auxiliary
mapping is created for an entry exactly when its joined payload is longer than
ACCSP_MAX_COMMAND_SIZE and at least 20 chars are free. -/
theorem overflow_path_chosen_by_size (rnd : Nat → Nat) (response : Mem) (pre : List Entry)
    (e : Entry) (rest : List Entry) (hparts : e.2 ≠ []) (hacc : accepted 0 pre) :
    ((join1 e.2).length ≤ ACCSP_MAX_COMMAND_SIZE →
        (pre.map wire_size).sum + (join1 e.2).length + 4 > ACCSP_FRAME_SIZE →
        (submit_commands rnd response (pre ++ e :: rest)).out
            = (submit_commands rnd response pre).out
          ∧ (submit_commands rnd response (pre ++ e :: rest)).c
            = (submit_commands rnd response pre).c
          ∧ (submit_commands rnd response (pre ++ e :: rest)).response_large_files
            = (submit_commands rnd response pre).response_large_files)
      ∧ ∀ s : Packing,
          ((∃ s1, submit_entry rnd e s = some s1
              ∧ s1.response_large_files.length = s.response_large_files.length + 1)
            ↔ ((join1 e.2).length > ACCSP_MAX_COMMAND_SIZE
                ∧ s.out.p + 20 ≤ ACCSP_FRAME_SIZE)) := by
  obtain ⟨k, parts⟩ := e
  obtain ⟨v, ps, rfl⟩ := List.exists_cons_of_ne_nil hparts
  have ht := total_size_eq v ps
  simp only at ht ⊢
  rw [← ht]
  refine ⟨fun hsmall hfull => ?_, fun s => ?_⟩
  · obtain ⟨s1, hl, hp, -⟩ := submit_loop_accepted rnd pre ⟨⟨response, 0, 0, []⟩, []⟩ hacc
    simp only [Nat.zero_add] at hp
    have hrej : rejects s1.out.p (k, v :: ps) := by
      rw [rejects_small _ (k, v :: ps) hsmall, hp]
      exact ⟨by simp, hfull⟩
    have h1 : submit_loop rnd (pre ++ (k, v :: ps) :: rest) ⟨⟨response, 0, 0, []⟩, []⟩
        = (s1, some ((k, v :: ps) :: rest)) := by
      rw [hl, submit_loop_stop rnd _ rest s1 hrej]
    have h2 : submit_loop rnd pre ⟨⟨response, 0, 0, []⟩, []⟩ = (s1, none) := by
      have := hl []
      rw [List.append_nil] at this
      rw [this]
      rfl
    obtain ⟨a1, a2, a3⟩ := submit_commands_of_loop rnd response (pre ++ (k, v :: ps) :: rest)
    obtain ⟨b1, b2, b3⟩ := submit_commands_of_loop rnd response pre
    rw [a1, a2, a3, b1, b2, b3, h1, h2]
    exact ⟨rfl, rfl, rfl⟩
  · constructor
    · rintro ⟨s1, h1, h2⟩
      by_cases hbig : total_size (v :: ps) > ACCSP_MAX_COMMAND_SIZE
      · refine ⟨hbig, ?_⟩
        by_contra hroom
        have : submit_entry rnd (k, v :: ps) s = none := by
          simp [submit_entry, hbig]
          omega
        rw [this] at h1
        cases h1
      · exfalso
        have hfiles := submit_loop_files_small rnd [(k, v :: ps)] s
          (by intro x hx; rw [List.mem_singleton.1 hx]; exact Nat.le_of_not_gt hbig)
        rw [submit_loop, h1] at hfiles
        simp only [submit_loop] at hfiles
        rw [hfiles] at h2
        omega
    · rintro ⟨hbig, hroom⟩
      refine ⟨_, submit_entry_large rnd k (v :: ps) s (by simp) hbig hroom, ?_⟩
      simp

/-- Witness of C6: behind seven entries of 16384 chars a `url` entry of 16384 chars does not
fit at write offset 114709; the batch is that of the seven entries alone. -/
theorem overflow_path_chosen_by_size_witness :
    (submit_commands (fun _ => 0) (fun _ => 0)
        (List.replicate 7 (command_fe.data_from_script, [chars 16384])
          ++ (command_fe.url, [chars 16384]) :: [])).out
        = (submit_commands (fun _ => 0) (fun _ => 0)
            (List.replicate 7 (command_fe.data_from_script, [chars 16384]))).out
      ∧ (submit_commands (fun _ => 0) (fun _ => 0)
          (List.replicate 7 (command_fe.data_from_script, [chars 16384])
            ++ (command_fe.url, [chars 16384]) :: [])).c
        = (submit_commands (fun _ => 0) (fun _ => 0)
            (List.replicate 7 (command_fe.data_from_script, [chars 16384]))).c
      ∧ (submit_commands (fun _ => 0) (fun _ => 0)
          (List.replicate 7 (command_fe.data_from_script, [chars 16384])
            ++ (command_fe.url, [chars 16384]) :: [])).response_large_files
        = (submit_commands (fun _ => 0) (fun _ => 0)
            (List.replicate 7 (command_fe.data_from_script, [chars 16384]))).response_large_files :=
  (overflow_path_chosen_by_size (fun _ => 0) (fun _ => 0)
    (List.replicate 7 (command_fe.data_from_script, [chars 16384]))
    (command_fe.url, [chars 16384]) [] (List.cons_ne_nil _ _) eight_entries_split.1).1
    (by simp [join1, chars_length, ACCSP_MAX_COMMAND_SIZE])
    (by rw [eight_entries_split.2.1]; simp [join1, chars_length, ACCSP_FRAME_SIZE])

/-! ## `sync` as a whole: what is published, and when -/

theorem sync_drain_response {σ : Type} (control : σ → Nat × Bytes → Outcome σ) (browser : Bool)
    (entry e1 : accsp_wb_entry) (acc a : σ)
    (h : sync_drain control browser entry acc = .returned (e1, a)
      ∨ sync_drain control browser entry acc = .raised (e1, a)) :
    e1.response = entry.response ∧ e1.response_set = entry.response_set := by
  unfold sync_drain iterate_commands at h
  cases browser with
  | false =>
    simp only [Bool.false_eq_true, if_false] at h
    rcases h with h | h
    · simp only [Outcome.returned.injEq, Prod.mk.injEq] at h
      rw [← h.1]
      exact ⟨rfl, rfl⟩
    · cases h
  | true =>
    simp only [if_true] at h
    by_cases h0 : entry.commands_set = 0
    · simp only [if_pos h0] at h
      rcases h with h | h
      · simp only [Outcome.returned.injEq, Prod.mk.injEq] at h
        rw [← h.1]
        exact ⟨rfl, rfl⟩
      · cases h
    · simp only [if_neg h0] at h
      cases hf : feed control (iterate_from entry.commands 0 entry.commands_set) acc with
      | returned x =>
        simp only [hf] at h
        rcases h with h | h
        · simp only [Outcome.returned.injEq, Prod.mk.injEq] at h
          rw [← h.1]
          exact ⟨rfl, rfl⟩
        · cases h
      | raised x =>
        simp only [hf] at h
        rcases h with h | h
        · cases h
        · simp only [Outcome.raised.injEq, Prod.mk.injEq] at h
          rw [← h.1]
          exact ⟨rfl, rfl⟩

/-- C7, the part that fails: an instance without full access whose published count is 3
receives the command `html` with the reply id `7`. `sync()` handles the command in the drain,
whatever the published count is, and the denied branch appends a `reply` entry: the pending
queue, empty before, holds one entry after `sync()`, while the response buffer and the count
are as they were and no store was made into them. -/
theorem drain_appends_while_published :
    sync (fun (w : Guarded Unit) r => (control_other (fun w _ => w) w r.1 r.2).elim
          (Outcome.returned w) Outcome.returned)
        (fun _ => 0) true
        ⟨1, 3, memcpy (fun _ => 0) 0 [72, 1, 0, 55], fun _ => 0⟩ []
        ⟨false, [], false, [], false, ()⟩
      = .returned
          ⟨⟨false, [(command_fe.reply, [[55], []])], false, [], false, ()⟩,
            ⟨⟨0, 3, memcpy (fun _ => 0) 0 [72, 1, 0, 55], fun _ => 0⟩,
              [some (command_fe.reply, [[55], []])], [], []⟩⟩ := by
  rfl

/-- C7, amended: `sync()` never writes the response buffer while the published count is
non-zero, but it handles the pending commands first, whatever that count is, and they may
append to the pending queue. For every callback `control`: if `response_set != 0`, `sync()`
makes no store into the response buffer or the count and leaves both as they were, and the
pending queue is what the drain left. If `response_set == 0` and the queue the drain left is
not empty, every store into the response buffer comes before the fence, the store of
`response_set` is the last one, and the value stored is exactly the number of records
written: the records that stand, in order, for the entries with parts before the first entry
that does not fit (all of them when every entry fits), which is what decoding that many
records from the buffer gives. With `response_set == 0` and an empty queue, and when an
exception leaves the drain, nothing is stored either. -/
theorem sync_publishes_after_writing {ε : Type}
    (control : Guarded ε → Nat × Bytes → Outcome (Guarded ε)) (rnd : Nat → Nat)
    (browser : Bool) (entry : accsp_wb_entry) (files : List accsp_mapped) (w : Guarded ε) :
    match sync control rnd browser entry files w with
    | .raised s =>
      s.published.stores = [] ∧ s.published.entry.response = entry.response
        ∧ s.published.entry.response_set = entry.response_set
    | .returned s =>
      (entry.response_set ≠ 0 →
          s.published.stores = [] ∧ s.published.entry.response = entry.response
            ∧ s.published.entry.response_set = entry.response_set
            ∧ s.published.response_data = s.drained.response_data.map some
            ∧ s.published.response_large_files = files)
        ∧ (entry.response_set = 0 → s.drained.response_data = [] →
            s.published.stores = [] ∧ s.published.entry.response = entry.response
              ∧ s.published.entry.response_set = 0)
        ∧ (entry.response_set = 0 → s.drained.response_data ≠ [] →
            ∃ pre tail, s.drained.response_data = pre ++ tail ∧ accepted 0 pre
              ∧ (tail = [] ∨ ∃ e rest, tail = e :: rest
                  ∧ rejects ((pre.map wire_size).sum) e)
              ∧ (∃ ws : List (Nat × Nat), s.published.stores
                  = ws.map (fun x => Store.response x.1 x.2)
                    ++ [Store.fence, Store.response_set (pre.filter has_parts).length])
              ∧ s.published.entry.response_set = (pre.filter has_parts).length
              ∧ List.Forall₂ (Represents s.published.response_large_files)
                  (pre.filter has_parts)
                  (iterate_from s.published.entry.response 0
                    (pre.filter has_parts).length)) := by
  cases hd : sync_drain control browser entry w with
  | raised p =>
    obtain ⟨e1, w1⟩ := p
    obtain ⟨h1, h2⟩ := sync_drain_response control browser entry e1 w w1 (Or.inr hd)
    have hs : sync control rnd browser entry files w
        = .raised ⟨w1, ⟨e1, w1.response_data.map some, files, []⟩⟩ := by
      simp only [sync, hd]
    rw [hs]
    exact ⟨rfl, h1, h2⟩
  | returned p =>
    obtain ⟨e1, w1⟩ := p
    obtain ⟨h1, h2⟩ := sync_drain_response control browser entry e1 w w1 (Or.inl hd)
    have hs : sync control rnd browser entry files w
        = .returned ⟨w1, sync_publish rnd ⟨e1, w1.response_data, files⟩⟩ := by
      simp only [sync, hd]
    rw [hs]
    simp only
    refine ⟨fun hne => ?_, fun h0 hq => ?_, fun h0 hq => ?_⟩
    · have hc : ¬ (e1.response_set = 0 ∧ w1.response_data ≠ []) := by
        rw [h2]
        exact fun h => hne h.1
      simp only [sync_publish, if_neg hc]
      exact ⟨trivial, h1, h2, trivial, trivial⟩
    · have hc : ¬ (e1.response_set = 0 ∧ w1.response_data ≠ []) := fun h => h.2 hq
      simp only [sync_publish, if_neg hc]
      exact ⟨trivial, h1, by rw [h2, h0]⟩
    · have hc : e1.response_set = 0 ∧ w1.response_data ≠ [] := ⟨by rw [h2, h0], hq⟩
      obtain ⟨pre, tail, hsplit, hacc, htail⟩ := exists_accepted_split 0 w1.response_data
      rw [Nat.zero_add] at htail
      obtain ⟨hcnt, -, hall, -⟩ :=
        submit_commands_split rnd e1.response pre tail hacc htail
      rw [← hsplit] at hcnt hall
      simp only [sync_publish, if_pos hc]
      refine ⟨pre, tail, hsplit, hacc, htail,
        ⟨(submit_commands rnd e1.response w1.response_data).out.written.reverse, ?_⟩,
        hcnt, hall⟩
      rw [hcnt]

/-- Witness of C7: with the count at 0, no command and one pending `url` entry of one char,
`sync()` writes the record by three stores, then the fence, then the count 1; the entry is
the whole queue and it fits. -/
theorem sync_publishes_after_writing_witness :
    (sync_publish (fun _ => 0)
        ⟨⟨0, 0, fun _ => 0, fun _ => 0⟩, [(command_fe.url, [[104]])], []⟩).stores
        = [Store.response 0 1, Store.response 1 2, Store.response 3 2, Store.fence,
            Store.response_set 1]
      ∧ ∃ pre tail, [(command_fe.url, [[104]])] = pre ++ tail ∧ accepted 0 pre
          ∧ (tail = [] ∨ ∃ e rest, tail = e :: rest ∧ rejects ((pre.map wire_size).sum) e)
          ∧ (∃ ws : List (Nat × Nat), (sync_publish (fun _ => 0)
              ⟨⟨0, 0, fun _ => 0, fun _ => 0⟩, [(command_fe.url, [[104]])], []⟩).stores
              = ws.map (fun x => Store.response x.1 x.2)
                ++ [Store.fence, Store.response_set (pre.filter has_parts).length])
          ∧ (sync_publish (fun _ => 0)
              ⟨⟨0, 0, fun _ => 0, fun _ => 0⟩, [(command_fe.url, [[104]])], []⟩).entry.response_set
            = (pre.filter has_parts).length
          ∧ List.Forall₂ (Represents (sync_publish (fun _ => 0)
                ⟨⟨0, 0, fun _ => 0, fun _ => 0⟩, [(command_fe.url, [[104]])],
                  []⟩).response_large_files)
              (pre.filter has_parts)
              (iterate_from (sync_publish (fun _ => 0)
                ⟨⟨0, 0, fun _ => 0, fun _ => 0⟩, [(command_fe.url, [[104]])],
                  []⟩).entry.response 0 (pre.filter has_parts).length) := by
  have h := sync_publishes_after_writing
    (fun (w : Guarded Unit) _ => Outcome.returned w) (fun _ => 0) true
    ⟨0, 0, fun _ => 0, fun _ => 0⟩ [] ⟨true, [(command_fe.url, [[104]])], false, [], false, ()⟩
  obtain ⟨-, -, h3⟩ := h
  exact ⟨by decide, h3 rfl (by decide)⟩

end AccCef
